import Mathlib

/-!
# pipes-cpp: the pipe animation engine

A shallow embedding of `src/main.cpp` (and, where a claim names it, of
`legacy/original/pipes_gnu.cpp`).

Modelling conventions.

* C++ `int` / `long long` are `Int`; the positions, counters and indices of this
  program stay far away from the machine bounds, so no wrap-around is modelled.
* The process globals read or written by the engine (`term.W`, `term.H`, `cfg`,
  `T`, `activeTypes`, `palette`, `drawn`, the state of `rand()` and the
  characters written to `cout`) are the fields of `World`, passed explicitly.
* `rand()` is a stream `rand : Nat → Nat` of the values it will return, with a
  cursor `randPos` counting the calls made so far.  Quantifying over the stream
  is quantifying over every outcome of the random draws.
* Operations whose C++ behaviour is undefined (indexing a vector or array out
  of range, `rand() % 0`, `1000 / 0`) return `none`.
-/

namespace Pipes

/-! ## Directions -/

/-- Mirrors `enum Direction { UP=0, RIGHT=1, DOWN=2, LEFT=3 }`. -/
inductive Direction where
  | UP
  | RIGHT
  | DOWN
  | LEFT
  deriving DecidableEq, Repr

/-- The integer value of an enumerator. -/
def Direction.toNat : Direction → Nat
  | .UP => 0
  | .RIGHT => 1
  | .DOWN => 2
  | .LEFT => 3

/-- The cast `(Direction)n`, used by the source only on values `n % 4`. -/
def Direction.cast (n : Nat) : Direction :=
  match n with
  | 0 => .UP
  | 1 => .RIGHT
  | 2 => .DOWN
  | _ => .LEFT

/-- Mirrors `turn_left`: `(Direction)((d+3)%4)`. -/
def turn_left (d : Direction) : Direction := Direction.cast ((d.toNat + 3) % 4)

/-- Mirrors `turn_right`: `(Direction)((d+1)%4)`. -/
def turn_right (d : Direction) : Direction := Direction.cast ((d.toNat + 1) % 4)

/-- Mirrors `idx_from`: the turn index of an (in, out) pair, an if-chain over the
twelve table pairs followed by the two fallback returns. -/
def idx_from (i o : Direction) : Int :=
  if i = .UP ∧ o = .UP then 1
  else if i = .UP ∧ o = .RIGHT then 2
  else if i = .UP ∧ o = .LEFT then 4
  else if i = .RIGHT ∧ o = .UP then 5
  else if i = .RIGHT ∧ o = .RIGHT then 6
  else if i = .RIGHT ∧ o = .DOWN then 7
  else if i = .DOWN ∧ o = .RIGHT then 10
  else if i = .DOWN ∧ o = .DOWN then 11
  else if i = .DOWN ∧ o = .LEFT then 12
  else if i = .LEFT ∧ o = .UP then 13
  else if i = .LEFT ∧ o = .DOWN then 15
  else if i = .LEFT ∧ o = .LEFT then 16
  else if i = .UP ∨ i = .DOWN then (if i = .UP then 1 else 11)
  else (if i = .RIGHT then 6 else 16)

/-! ## Configuration, glyph tables, output -/

/-- Mirrors `struct Config` of `main.cpp` with its default member initialisers. -/
structure Config where
  p : Int := 5
  fps : Int := 75
  straight : Int := 15
  limit : Int := 1000
  randomStart : Bool := false
  noBold : Bool := true
  noColor : Bool := false
  keepOnEdge : Bool := false
  vivid : Bool := true
  deriving DecidableEq, Repr

/-- Mirrors `struct PipeType { array<string,16> g; }`; the length 16 is part of
the well-formedness predicate `WF`. -/
structure PipeType where
  g : List String
  deriving DecidableEq, Repr

/-- Mirrors `init_types`: the ten built-in glyph sets. -/
def init_types : List PipeType :=
  [ ⟨["┃","┏"," ","┓","┛","━","┓"," "," ","┗","┃","┛","┗"," ","┏","━"]⟩,
    ⟨["│","╭"," ","╮","╯","─","╮"," "," ","╰","│","╯","╰"," ","╭","─"]⟩,
    ⟨["│","┌"," ","┐","┘","─","┐"," "," ","└","│","┘","└"," ","┌","─"]⟩,
    ⟨["║","╔"," ","╗","╝","═","╗"," "," ","╚","║","╝","╚"," ","╔","═"]⟩,
    ⟨["|","+"," ","+","+","-","+"," "," ","+","|","+","+"," ","+","-"]⟩,
    ⟨["|","/"," ","\\","\\","-","\\"," "," ","\\","|","\\","/"," ","/","-"]⟩,
    ⟨[".","."," ",".",".",".","."," "," ",".",".",".","."," ",".","."]⟩,
    ⟨[".","o"," ","o","o",".","o"," "," ","o",".","o","o"," ","o","."]⟩,
    ⟨["|","-"," ","|","\\","-","\\"," "," ","\\","|","/","/"," ","-","-"]⟩,
    ⟨["╿","┎"," ","┒","┛","╾","┒"," "," ","┖","╿","┛","┖"," ","┎","╾"]⟩ ]

/-- One write to the terminal.  `clear` is `Term::clear()`; `glyph x y color g reset`
is `term.mv(x, y); cout << color << g << reset` of `draw_step`. -/
inductive Out where
  | clear
  | glyph (x y : Int) (color g reset : String)
  deriving DecidableEq, Repr

/-- Mirrors `Term::mv`: the cursor-position escape, one-based, row first. -/
def mv (x y : Int) : String :=
  "\x1b[" ++ toString (y + 1) ++ ";" ++ toString (x + 1) ++ "H"

/-- The characters an output event puts on `cout`. -/
def Out.bytes : Out → String
  | .clear => "\x1b[2J\x1b[H"
  | .glyph x y color g reset => mv x y ++ color ++ g ++ reset

/-- Mirrors `ansi_color`. -/
def ansi_color (cfg : Config) (c : Int) : String :=
  if cfg.noColor then ""
  else
    let base : Int := if cfg.vivid then 90 else 30
    let code : Int := base + Int.land c 7
    "\x1b[" ++ toString code ++ "m"

/-- Mirrors `ansi_reset`. -/
def ansi_reset (cfg : Config) : String := if cfg.noColor then "" else "\x1b[0m"

/-! ## Pipe state and the globals -/

/-- Mirrors `struct State` of `main.cpp` (`in_` is the member `in`). -/
structure State where
  x : Int := 0
  y : Int := 0
  in_ : Direction := .RIGHT
  out : Direction := .RIGHT
  colorIndex : Int := 1
  typeIndex : Int := 0
  deriving DecidableEq, Repr

/-- The globals of `main.cpp` that the engine reads and writes. -/
structure World where
  W : Int
  H : Int
  cfg : Config
  T : List PipeType
  activeTypes : List Int
  palette : List Int
  drawn : Int
  rand : Nat → Nat
  randPos : Nat
  cout : List Out

/-- Indexing `v[i]` of a vector or array with an `int`; out of range is `none`. -/
def index {α : Type} (v : List α) (i : Int) : Option α :=
  if i < 0 then none else v[i.toNat]?

/-- Mirrors `rnd`: `rand() % n`, advancing the generator by one call. -/
def rnd (w : World) (n : Int) : Option (Int × World) :=
  if n = 0 then none
  else some (Int.tmod (w.rand w.randPos) n, { w with randPos := w.randPos + 1 })

/-- Mirrors `would_exit`. -/
def would_exit (w : World) (s : State) (nd : Direction) : Bool :=
  let nx := if nd = .UP then s.x else if nd = .DOWN then s.x else if nd = .LEFT then s.x - 1 else s.x + 1
  let ny := if nd = .UP then s.y - 1 else if nd = .DOWN then s.y + 1 else s.y
  decide (nx < 0 ∨ nx ≥ w.W ∨ ny < 0 ∨ ny ≥ w.H)

/-! ### `draw_step`

The body of `draw_step` is embedded block by block, in source order: the
tentative exit (`tentative`), the edge check (`edge_block`, made of `recolor` and
`redecide`), and the draw-and-move tail (`emit_move`).  `draw_step` runs them in
sequence, threading the pipe state `s` (the `State&` parameter) and the globals. -/

/-- First block of `draw_step`:
`s.out = s.in; if (rnd(20) >= cfg.straight) s.out = (rnd(2)? turn_left(s.in): turn_right(s.in));`
The result is the state carrying the tentative exit direction and the world after the
draws.  Both moduli are non-zero constants, so the block cannot fail. -/
def tentative (w : World) (s : State) : State × World :=
  let s := { s with out := s.in_ }
  let r := Int.tmod (w.rand w.randPos) 20
  let w := { w with randPos := w.randPos + 1 }
  if r ≥ w.cfg.straight then
    let c := Int.tmod (w.rand w.randPos) 2
    let w := { w with randPos := w.randPos + 1 }
    ({ s with out := if c ≠ 0 then turn_left s.in_ else turn_right s.in_ }, w)
  else (s, w)

/-- Inside the edge check:
`if (!cfg.keepOnEdge) { s.colorIndex = palette[rnd((int)palette.size())]; s.typeIndex = rnd((int)activeTypes.size()); }` -/
def recolor (w : World) (s : State) : Option (State × World) :=
  if !w.cfg.keepOnEdge then do
    let (k, w) ← rnd w w.palette.length
    let c ← index w.palette k
    let s := { s with colorIndex := c }
    let (t, w) ← rnd w w.activeTypes.length
    pure ({ s with typeIndex := t }, w)
  else pure (s, w)

/-- Inside the edge check, after the recolouring:
`Direction L=turn_left(s.in), R=turn_right(s.in); bool okL=!would_exit(s,L), okR=!would_exit(s,R);`
`if (okL && okR) s.out = (rnd(2)? L:R); else if (okL) s.out = L; else if (okR) s.out = R; else s.out = s.in;` -/
def redecide (w : World) (s : State) : State × World :=
  let L := turn_left s.in_
  let R := turn_right s.in_
  let okL := !would_exit w s L
  let okR := !would_exit w s R
  if okL && okR then
    let c := Int.tmod (w.rand w.randPos) 2
    let w := { w with randPos := w.randPos + 1 }
    ({ s with out := if c ≠ 0 then L else R }, w)
  else if okL then ({ s with out := L }, w)
  else if okR then ({ s with out := R }, w)
  else ({ s with out := s.in_ }, w)

/-- The edge check `if (would_exit(s, s.out)) { ... }`: the recolouring, then the
re-decision; nothing happens when the tentative exit stays on the grid. -/
def edge_block (w : World) (s : State) : Option (State × World) :=
  if would_exit w s s.out then do
    let (s, w) ← recolor w s
    pure (redecide w s)
  else pure (s, w)

/-- The final `if` chain of `draw_step`,
`if (s.in==UP) --s.y; else if (s.in==DOWN) ++s.y; else if (s.in==LEFT) --s.x; else ++s.x;`,
as a function of the direction and the position. -/
def advance (d : Direction) (x y : Int) : Int × Int :=
  if d = .UP then (x, y - 1)
  else if d = .DOWN then (x, y + 1)
  else if d = .LEFT then (x - 1, y)
  else (x + 1, y)

/-- The glyph lookup `T[ activeTypes[typeIndex] ].g[idx-1]`. -/
def lookup_glyph (w : World) (typeIndex idx : Int) : Option String := do
  let ty ← index w.activeTypes typeIndex
  let pt ← index w.T ty
  index pt.g (idx - 1)

/-- The tail of `draw_step`: turn index, glyph lookup, output, move, count. -/
def emit_move (w : World) (s : State) : Option (World × State) := do
  -- int idx = idx_from(s.in, s.out);
  let idx := idx_from s.in_ s.out
  -- const string& g = T[ activeTypes[s.typeIndex] ].g[idx-1];
  let g ← lookup_glyph w s.typeIndex idx
  -- term.mv(s.x, s.y); cout << ansi_color(s.colorIndex) << g << ansi_reset();
  let w := { w with
    cout := w.cout ++ [Out.glyph s.x s.y (ansi_color w.cfg s.colorIndex) g (ansi_reset w.cfg)] }
  -- s.in = s.out;
  let s := { s with in_ := s.out }
  -- if (s.in==UP) --s.y; else if (s.in==DOWN) ++s.y; else if (s.in==LEFT) --s.x; else ++s.x;
  let s := { s with x := (advance s.in_ s.x s.y).1, y := (advance s.in_ s.x s.y).2 }
  -- ++drawn;
  let w := { w with drawn := w.drawn + 1 }
  pure (w, s)

/-- Mirrors `draw_step` of `main.cpp`: decide, draw, move.  The second parameter of
the source (`const PipeType&`) is unnamed and unused. -/
def draw_step (w : World) (s : State) : Option (World × State) := do
  let (s, w) := tentative w s
  let (s, w) ← edge_block w s
  emit_move w s

/-- Repeated `draw_step` on one pipe: `n` consecutive steps. -/
def draw_steps (w : World) (s : State) : Nat → Option (World × State)
  | 0 => some (w, s)
  | n + 1 => do
    let (w, s) ← draw_step w s
    draw_steps w s n

/-! ## Hotkeys -/

/-- The `int` value of a character literal. -/
def key (c : Char) : Int := c.toNat

/-- Mirrors `handle_keys_once` of `main.cpp`.  `pending` is the keystroke waiting on
the terminal (`none`: `term.kbhit()` is false).  The result is the exception thrown,
if any (`throw runtime_error("quit")`), and the configuration on return or throw. -/
def handle_keys_once (cfg : Config) (pending : Option Int) : Option String × Config :=
  match pending with
  | none => (none, cfg)
  | some ch =>
    if ch = -1 then (none, cfg)
    else if ch = key 'P' then (none, { cfg with straight := min 15 (cfg.straight + 1) })
    else if ch = key 'O' then (none, { cfg with straight := max 5 (cfg.straight - 1) })
    else if ch = key 'F' then (none, { cfg with fps := min 100 (cfg.fps + 5) })
    else if ch = key 'D' then (none, { cfg with fps := max 20 (cfg.fps - 5) })
    else if ch = key 'B' then (none, { cfg with noBold := !cfg.noBold })
    else if ch = key 'C' then (none, { cfg with noColor := !cfg.noColor })
    else if ch = key 'K' then (none, { cfg with keepOnEdge := !cfg.keepOnEdge })
    else (some "quit", cfg)

namespace Legacy

/-- Mirrors `struct Config` of `legacy/original/pipes_gnu.cpp` (no `noBold`). -/
structure Config where
  p : Int := 5
  fps : Int := 75
  straight : Int := 15
  limit : Int := 1000
  randomStart : Bool := false
  noColor : Bool := false
  keepOnEdge : Bool := false
  vivid : Bool := true
  deriving DecidableEq, Repr

/-- Mirrors `handle_keys_once` of `legacy/original/pipes_gnu.cpp`. -/
def handle_keys_once (cfg : Config) (pending : Option Int) : Option String × Config :=
  match pending with
  | none => (none, cfg)
  | some ch =>
    if ch = -1 then (none, cfg)
    else if ch = key 'P' then (none, { cfg with straight := min 15 (cfg.straight + 1) })
    else if ch = key 'O' then (none, { cfg with straight := max 5 (cfg.straight - 1) })
    else if ch = key 'F' then (none, { cfg with fps := min 100 (cfg.fps + 5) })
    else if ch = key 'D' then (none, { cfg with fps := max 20 (cfg.fps - 5) })
    else if ch = key 'C' then (none, { cfg with noColor := !cfg.noColor })
    else if ch = key 'K' then (none, { cfg with keepOnEdge := !cfg.keepOnEdge })
    else (some "quit", cfg)

end Legacy

/-! ## The frame loop of `main` -/

/-- The variables of the frame loop: the globals, the pipes `S`, `last_reset`, and
the arguments passed to `sleep_ms` so far. -/
structure Loop where
  w : World
  S : List State
  last_reset : Int
  slept : List Int

/-- Mirrors `Term::checkResize` (POSIX branch).  `resize` is `some (W, H)` when
`g_resized` is set, with the size `updateSize` then reads. -/
def checkResize (w : World) (resize : Option (Int × Int)) : Bool × World :=
  match resize with
  | some (W, H) => (true, { w with W := W, H := H, cout := w.cout ++ [Out.clear] })
  | none => (false, w)

/-- The clamp of one pipe after a resize:
`s.x = min(max(0,s.x), term.W-1); s.y = min(max(0,s.y), term.H-1);` -/
def clamp (w : World) (s : State) : State :=
  { s with x := min (max 0 s.x) (w.W - 1), y := min (max 0 s.y) (w.H - 1) }

/-- The limit check that follows every `draw_step` in the frame loop:
`if (cfg.limit>0 && (drawn - last_reset) >= cfg.limit) { term.clear(); last_reset = drawn; }` -/
def limit_check (w : World) (last_reset : Int) : World × Int :=
  if w.cfg.limit > 0 ∧ (w.drawn - last_reset) ≥ w.cfg.limit then
    ({ w with cout := w.cout ++ [Out.clear] }, w.drawn)
  else (w, last_reset)

/-- The loop `for (auto& s: S) { draw_step(s, ...); if (...) { term.clear(); last_reset = drawn; } }`. -/
def pipes_loop (w : World) (last_reset : Int) : List State → Option (World × Int × List State)
  | [] => some (w, last_reset, [])
  | s :: rest => do
    -- draw_step(s, T[ activeTypes[s.typeIndex] ]); the argument is evaluated, then unused
    let ty ← index w.activeTypes s.typeIndex
    let _ ← index w.T ty
    let (w, s) ← draw_step w s
    -- if (cfg.limit>0 && (drawn - last_reset) >= cfg.limit) { term.clear(); last_reset = drawn; }
    let (w, last_reset) := limit_check w last_reset
    let (w, last_reset, rest) ← pipes_loop w last_reset rest
    pure (w, last_reset, s :: rest)

/-- One iteration of `while (true)` in `main`: resize handling, one step of every
pipe, the hotkey poll, and the sleep.  The first component of the result is the
exception that left the loop, if any. -/
def tick (l : Loop) (resize : Option (Int × Int)) (pending : Option Int) :
    Option (Option String × Loop) := do
  -- if (term.checkResize()) { for (auto& s: S) clamp }
  let (resized, w) := checkResize l.w resize
  let S := if resized then l.S.map (clamp w) else l.S
  -- for (auto& s: S) { draw_step; limit check }
  let (w, last_reset, S) ← pipes_loop w l.last_reset S
  -- handle_keys_once();
  let (thrown, cfg) := handle_keys_once w.cfg pending
  let w := { w with cfg := cfg }
  match thrown with
  | some e => pure (some e, { l with w := w, S := S, last_reset := last_reset })
  | none =>
    -- int ms = max(1, 1000 / cfg.fps); cout << flush; sleep_ms(ms);
    if w.cfg.fps = 0 then none
    else
      let ms := max 1 (Int.tdiv 1000 w.cfg.fps)
      pure (none, { w := w, S := S, last_reset := last_reset, slept := l.slept ++ [ms] })

/-- The frame loop over a finite sequence of tick inputs (resize notification and
pending key of each tick); it stops at the first exception, as the `try` block does. -/
def run (l : Loop) : List (Option (Int × Int) × Option Int) → Option (Option String × Loop)
  | [] => some (none, l)
  | i :: rest => do
    let (thrown, l) ← tick l i.1 i.2
    match thrown with
    | some e => pure (some e, l)
    | none => run l rest

/-- The number of screen clears written so far. -/
def clears (w : World) : Nat := w.cout.count Out.clear

/-- Grid membership of a position: inside `[0,W) × [0,H)`. -/
def in_bounds (w : World) (x y : Int) : Prop := 0 ≤ x ∧ x < w.W ∧ 0 ≤ y ∧ y < w.H

instance (w : World) (x y : Int) : Decidable (in_bounds w x y) := by
  unfold in_bounds; infer_instance

/-- The vectors and tables `draw_step` indexes are usable: a non-empty palette,
a non-empty list of active types whose entries select a glyph set of `T`, and
sixteen slots in every glyph set (the array type of the source). -/
def WFWorld (w : World) : Prop :=
  w.palette ≠ [] ∧ w.activeTypes ≠ [] ∧
  (∀ t ∈ w.activeTypes, 0 ≤ t ∧ t < w.T.length) ∧
  (∀ pt ∈ w.T, pt.g.length = 16)

instance (w : World) : Decidable (WFWorld w) := by
  unfold WFWorld; infer_instance

/-- The pipe's type index selects an entry of `activeTypes`. -/
def WFState (w : World) (s : State) : Prop :=
  0 ≤ s.typeIndex ∧ s.typeIndex < w.activeTypes.length

instance (w : World) (s : State) : Decidable (WFState w s) := by
  unfold WFState; infer_instance

/-- The twelve (entry, exit) pairs that `idx_from` tests before its fallback
returns: the disjunction of the twelve `if` conditions of the source. -/
def in_table (i o : Direction) : Bool :=
  (i = .UP ∧ o = .UP) ∨ (i = .UP ∧ o = .RIGHT) ∨ (i = .UP ∧ o = .LEFT) ∨
  (i = .RIGHT ∧ o = .UP) ∨ (i = .RIGHT ∧ o = .RIGHT) ∨ (i = .RIGHT ∧ o = .DOWN) ∨
  (i = .DOWN ∧ o = .RIGHT) ∨ (i = .DOWN ∧ o = .DOWN) ∨ (i = .DOWN ∧ o = .LEFT) ∨
  (i = .LEFT ∧ o = .UP) ∨ (i = .LEFT ∧ o = .DOWN) ∨ (i = .LEFT ∧ o = .LEFT)

/-- The 180-degree reversal of a direction, `(d+2)%4`. -/
def reverse (d : Direction) : Direction := Direction.cast ((d.toNat + 2) % 4)

/-- The globals a frame never writes (`drawn`, `cout` and the generator cursor
are the ones it does). -/
def same_tables (w w1 : World) : Prop :=
  w1.W = w.W ∧ w1.H = w.H ∧ w1.cfg = w.cfg ∧ w1.T = w.T ∧
  w1.activeTypes = w.activeTypes ∧ w1.palette = w.palette ∧ w1.rand = w.rand

/-- A generator that returns the listed values, then zeros. -/
def stream (l : List Nat) : Nat → Nat := fun n => l.getD n 0

/-- The globals right after start-up on a `W × H` terminal: default
configuration, built-in glyph sets, `activeTypes = {0}`, the default palette,
nothing drawn, and a generator returning `draws`. -/
def start_world (W H : Int) (cfg : Config) (draws : List Nat) : World :=
  { W := W, H := H, cfg := cfg, T := init_types, activeTypes := [0],
    palette := [1, 2, 3, 4, 5, 6, 7, 0], drawn := 0, rand := stream draws, randPos := 0,
    cout := [] }

/-- The four-way choice of the edge check as a function of the two in-bounds
flags, the coin and the entry direction:
`if (okL && okR) (coin ? L : R); else if (okL) L; else if (okR) R; else in`. -/
def redecided (okL okR : Bool) (coin : Int) (d : Direction) : Direction :=
  if okL && okR then (if coin ≠ 0 then turn_left d else turn_right d)
  else if okL then turn_left d
  else if okR then turn_right d
  else d

/-- The unit step of a direction: the displacement `advance` applies. -/
def delta : Direction → Int × Int
  | .UP => (0, -1)
  | .RIGHT => (1, 0)
  | .DOWN => (0, 1)
  | .LEFT => (-1, 0)

/-- The straight-through turn code of a direction: 1 UP, 6 RIGHT, 11 DOWN, 16 LEFT. -/
def straight_code : Direction → Int
  | .UP => 1
  | .RIGHT => 6
  | .DOWN => 11
  | .LEFT => 16

/-- The glyph events of a straight run of `n` cells from `(x, y)` along `d`. -/
def straight_trail (x y : Int) (d : Direction) (color g reset : String) (n : Nat) : List Out :=
  (List.range n).map
    (fun (k : Nat) => Out.glyph (x + (k : Int) * (delta d).1) (y + (k : Int) * (delta d).2)
      color g reset)

/-- Every pipe of the list selects an entry of `activeTypes`. -/
def WFStates (w : World) (S : List State) : Prop := ∀ s ∈ S, WFState w s

instance (w : World) (S : List State) : Decidable (WFStates w S) := by
  unfold WFStates; infer_instance

/-- The bookkeeping of the draw-count limit `L`, with `base` clears written for
other reasons (resizes): `last_reset` is `L * q` where `q` counts the
limit-triggered clears, and for `L > 0` the glyphs drawn since the last reset
number less than `L`. -/
def Counted (L : Int) (base : Nat) (w : World) (last_reset : Int) : Prop :=
  w.cfg.limit = L ∧
  ∃ q : Nat, last_reset = L * q ∧ clears w = base + q ∧
    (0 < L → last_reset ≤ w.drawn ∧ w.drawn < last_reset + L) ∧ (L ≤ 0 → q = 0)

/-- The number of resize notifications among tick inputs. -/
def resizes (ins : List (Option (Int × Int) × Option Int)) : Nat :=
  (ins.filter (fun i => i.1.isSome)).length

/-- The number of limit-triggered clears the claim predicts after `n` glyphs:
`floor (n / L)` for a limit `L > 0`, none otherwise. -/
def limit_clears (L : Int) (n : Nat) : Nat := if 0 < L then ((n : Int) / L).toNat else 0

/-- The pipes a tick steps: clamped to the new size when a resize was pending. -/
def tick_pipes (l : Loop) (resize : Option (Int × Int)) : List State :=
  if (checkResize l.w resize).1 then l.S.map (clamp (checkResize l.w resize).2) else l.S

/-- The glyphs drawn after `ticks` whole ticks of `pipes` pipes and the first `j`
pipes of the next tick. -/
def glyphs_after (ticks pipes j : Nat) : Nat := ticks * pipes + min j pipes

/-- Three ticks without resize or key. -/
def three_quiet_ticks : List (Option (Int × Int) × Option Int) :=
  [(none, none), (none, none), (none, none)]

/-- The frame loop at its start on an 80x24 terminal with draw-count limit 5 and
two pipes at the centre. -/
def two_pipes_limit_5 : Loop :=
  { w := start_world 80 24 { limit := 5 } [],
    S := [{ x := 40, y := 12 }, { x := 40, y := 12 }],
    last_reset := 0, slept := [] }

/-- The argument of `sleep_ms` in the frame loop: `max(1, 1000 / cfg.fps)`, with
the truncating division of C++. -/
def frame_ms (fps : Int) : Int := max 1 (Int.tdiv 1000 fps)

/-- The eight palette slots under the normal and under the vivid setting: the
sixteen colour escapes `ansi_color` can produce from slots `0..7`. -/
def sixteen_colours : List String :=
  (List.range 8).map (fun (c : Nat) => ansi_color { vivid := false } (c : Int)) ++
  (List.range 8).map (fun (c : Nat) => ansi_color { vivid := true } (c : Int))

/-! ## Start-up: command line, menu, pipe initialisation

`main` up to the frame loop.  Of the writes to the terminal only the clears and
the glyphs are recorded in `cout`; the text of the menu, of the help and of the
error messages is not. -/

/-- A C string (`argv[i]`, `std::string`): its `char`s in order. -/
abbrev CStr := List Char

/-- The C library conversions `atoi` and `atoll`, which are not part of the
repository: any pair of functions from strings to integers. -/
structure Libc where
  atoi : CStr → Int
  atoll : CStr → Int

/-- The loop that gathers the characters of a custom glyph set,
`while ((int)chars.size()<16 && i+1<argc && argv[i+1][0]!='-') chars += argv[++i];`
on the arguments that follow.  The result is the gathered string and the
arguments left.  (The first `char` of an empty argument is its terminator.) -/
def gather (chars : CStr) : List CStr → CStr × List CStr
  | [] => (chars, [])
  | a :: rest =>
    if chars.length < 16 ∧ a.head? ≠ some '-' then gather (chars ++ a) rest
    else (chars, a :: rest)

/-- The custom glyph set built from at least sixteen gathered characters:
`for (int k=0;k<16;k++){ string s; s+=chars[k]; custom.g[k]=s; }`
`custom.g[2]=" "; custom.g[7]=" "; custom.g[8]=" "; custom.g[13]=" ";` -/
def custom_type (chars : CStr) : PipeType :=
  let g := (chars.take 16).map (fun c => String.mk [c])
  ⟨(((g.set 2 " ").set 7 " ").set 8 " ").set 13 " "⟩

/-- One iteration of the argument loop of `main` on the argument `a = argv[i]`
with `rest` the arguments after it.  The result is the exit code of an early
`return`, or the globals, the new value of `use_menu` (every accepted option
sets it to `false`) and the arguments left for the next iteration.  `rest ≠ []` is `i+1<argc`; `rest.headD []` is `argv[++i]`. -/
def parse_option (libc : Libc) (w : World) (a : CStr) (rest : List CStr) :
    Except Int (World × Bool × List CStr) :=
  if a = "-h".toList ∨ a = "--help".toList then .error 0
  else if a = "-v".toList then .error 0
  else if a = "-p".toList ∧ rest ≠ [] then
    .ok ({ w with cfg := { w.cfg with p := max 1 (libc.atoi (rest.headD [])) } }, false,
      rest.tail)
  else if a = "-t".toList ∧ rest ≠ [] then
    let v := rest.headD []
    if v.head? = some 'c' then
      let gathered := gather (v.drop 1) rest.tail
      if gathered.1.length < 16 then .error 1
      else
        .ok ({ w with T := w.T.set 0 (custom_type gathered.1), activeTypes := [0] }, false,
          gathered.2)
    else
      .ok ({ w with activeTypes := [max 0 (min 9 (libc.atoi v))] }, false, rest.tail)
  else if a = "-c".toList ∧ rest ≠ [] then
    .ok ({ w with
            palette := w.palette ++
              [Int.tmod (Int.tmod (libc.atoi (rest.headD [])) 8 + 8) 8] }, false,
      rest.tail)
  else if a = "-f".toList ∧ rest ≠ [] then
    .ok ({ w with cfg := { w.cfg with fps := max 20 (min 100 (libc.atoi (rest.headD []))) } },
      false, rest.tail)
  else if a = "-s".toList ∧ rest ≠ [] then
    .ok ({ w with
            cfg := { w.cfg with straight := max 5 (min 15 (libc.atoi (rest.headD []))) } },
      false, rest.tail)
  else if a = "-r".toList then
    if rest ≠ [] ∧ (rest.headD []).head? ≠ some '-' then
      .ok ({ w with cfg := { w.cfg with limit := libc.atoll (rest.headD []) } }, false,
        rest.tail)
    else .ok ({ w with cfg := { w.cfg with limit := 0 } }, false, rest)
  else if a = "-R".toList then
    .ok ({ w with cfg := { w.cfg with randomStart := true } }, false, rest)
  else if a = "-B".toList then
    .ok ({ w with cfg := { w.cfg with noBold := true } }, false, rest)
  else if a = "-C".toList then
    .ok ({ w with cfg := { w.cfg with noColor := true } }, false, rest)
  else if a = "-K".toList then
    .ok ({ w with cfg := { w.cfg with keepOnEdge := true } }, false, rest)
  else .error 1

/-- The argument loop `for (int i=1;i<argc;i++)` of `main`.  Every iteration
consumes at least one argument, so `fuel` at least the number of arguments never
runs out (`parse_args_total`); `none` is the loop out of fuel. -/
def parse_args (libc : Libc) : Nat → World → Bool → List CStr → Option (Except Int (World × Bool))
  | _, w, use_menu, [] => some (.ok (w, use_menu))
  | 0, _, _, _ :: _ => none
  | fuel + 1, w, _, a :: rest =>
    match parse_option libc w a rest with
    | .error code => some (.error code)
    | .ok (w, use_menu, rest) => parse_args libc fuel w use_menu rest

/-- The palette `{1,2,3,4,5,6,7,0}` that `main` and `run_menu` install. -/
def default_palette : List Int := [1, 2, 3, 4, 5, 6, 7, 0]

/-- Mirrors `draw_menu` as far as it is recorded: it clears the screen and reads
`activeTypes.front()`. -/
def draw_menu (w : World) : Option World := do
  let _ ← w.activeTypes.head?
  pure { w with cout := w.cout ++ [Out.clear] }

/-- The key dispatch of `run_menu` for a key that is neither Enter nor a quit key. -/
def menu_key (w : World) (ch : Int) : Option World :=
  if ch = key 'A' ∨ ch = key 'a' then
    some { w with cfg := { w.cfg with p := max 1 (w.cfg.p + 1) } }
  else if ch = key 'Z' ∨ ch = key 'z' then
    some { w with cfg := { w.cfg with p := max 1 (w.cfg.p - 1) } }
  else if ch = key 'S' ∨ ch = key 's' then
    some { w with cfg := { w.cfg with straight := min 15 (w.cfg.straight + 1) } }
  else if ch = key 'X' ∨ ch = key 'x' then
    some { w with cfg := { w.cfg with straight := max 5 (w.cfg.straight - 1) } }
  else if ch = key 'F' ∨ ch = key 'f' then
    some { w with cfg := { w.cfg with fps := min 100 (w.cfg.fps + 5) } }
  else if ch = key 'D' ∨ ch = key 'd' then
    some { w with cfg := { w.cfg with fps := max 20 (w.cfg.fps - 5) } }
  else if ch = key 'R' ∨ ch = key 'r' then
    some { w with cfg := { w.cfg with randomStart := !w.cfg.randomStart } }
  else if ch = key 'K' ∨ ch = key 'k' then
    some { w with cfg := { w.cfg with keepOnEdge := !w.cfg.keepOnEdge } }
  else if ch = key 'C' ∨ ch = key 'c' then
    some { w with cfg := { w.cfg with noColor := !w.cfg.noColor } }
  else if ch = key 'V' ∨ ch = key 'v' then
    some { w with cfg := { w.cfg with vivid := !w.cfg.vivid } }
  else if ch = key 'T' ∨ ch = key 't' then do
    -- int v=activeTypes.front(); v=(v+1)%10; activeTypes[0]=v;
    let v ← w.activeTypes.head?
    pure { w with activeTypes := w.activeTypes.set 0 (Int.tmod (v + 1) 10) }
  else if ch = key 'L' ∨ ch = key 'l' then
    some { w with
      cfg := { w.cfg with
        limit := if w.cfg.limit = 0 then 1000 else min (w.cfg.limit * 10) 1000000000 } }
  else if ch = key 'J' ∨ ch = key 'j' then
    let limit := if w.cfg.limit = 0 then 1000 else w.cfg.limit
    let limit := max (Int.tdiv limit 10) 0
    some { w with cfg := { w.cfg with limit := if limit < 10 then 0 else limit } }
  else some w

/-- The `while (true)` loop of `run_menu` over a finite sequence of iterations,
each with its resize notification and the value of `getch_now()` (`-1`: no key).
The first component of the result is the value returned (`true`: Enter, start;
`false`: Esc or `q`), or `none` when the menu is still waiting for input. -/
def menu_loop (w : World) : List (Option (Int × Int) × Int) → Option (Option Bool × World)
  | [] => some (none, w)
  | (r, ch) :: rest => do
    -- if (term.checkResize()) draw_menu();
    let (resized, w) := checkResize w r
    let w ← if resized then draw_menu w else pure w
    -- if (ch == -1){ sleep_ms(10); continue; }
    if ch = -1 then menu_loop w rest
    -- Enter is 13 or 10, Esc is 27
    else if ch = 13 ∨ ch = 10 then pure (some true, w)
    else if ch = 27 ∨ ch = key 'q' ∨ ch = key 'Q' then pure (some false, w)
    else do
      let w ← menu_key w ch
      let w ← draw_menu w
      menu_loop w rest

/-- Mirrors `run_menu`: reset `activeTypes` and `palette`, draw, loop. -/
def run_menu (w : World) (inputs : List (Option (Int × Int) × Int)) :
    Option (Option Bool × World) := do
  let w := { w with activeTypes := [0], palette := default_palette }
  let w ← draw_menu w
  menu_loop w inputs

/-- The body of the initialisation loop `for (auto& s: S)` of `main`. -/
def init_pipe (w : World) (s : State) : Option (World × State) := do
  -- s.colorIndex = palette[rnd((int)palette.size())];
  let (k, w) ← rnd w w.palette.length
  let c ← index w.palette k
  let s := { s with colorIndex := c }
  -- s.typeIndex = rnd((int)activeTypes.size());
  let (t, w) ← rnd w w.activeTypes.length
  let s := { s with typeIndex := t }
  -- s.in = (Direction)rnd(4);
  let (d, w) ← rnd w 4
  let s := { s with in_ := Direction.cast d.toNat }
  -- if (cfg.randomStart){ s.x=rnd(term.W); s.y=rnd(term.H); } else { s.x=term.W/2; s.y=term.H/2; }
  if w.cfg.randomStart then do
    let (x, w) ← rnd w w.W
    let s := { s with x := x }
    let (y, w) ← rnd w w.H
    pure (w, { s with y := y })
  else pure (w, { s with x := Int.tdiv w.W 2, y := Int.tdiv w.H 2 })

/-- The initialisation loop over the pipes. -/
def init_pipes (w : World) : List State → Option (World × List State)
  | [] => some (w, [])
  | s :: rest => do
    let (w, s) ← init_pipe w s
    let (w, rest) ← init_pipes w rest
    pure (w, s :: rest)

/-- The globals when `main` starts, after `init_types()` and the two assignments
to `activeTypes` and `palette`; `rand` is the generator seeded by `srand`. -/
def boot_world (rand : Nat → Nat) : World :=
  { W := 80, H := 24, cfg := {}, T := init_types, activeTypes := [0],
    palette := default_palette, drawn := 0, rand := rand, randPos := 0, cout := [] }

/-- How far `main` gets before the frame loop: it has returned with an exit code,
it is still waiting in the menu, or it enters the frame loop. -/
inductive Startup where
  | exit (code : Int)
  | in_menu (w : World)
  | running (l : Loop)

/-- The part of `main` between the menu and the frame loop: the clear, the two
emptiness guards, and the creation and initialisation of the pipes. -/
def enter_loop (w : World) : Option Startup := do
  -- term.clear();
  let w := { w with cout := w.cout ++ [Out.clear] }
  -- if (palette.empty()) palette = {1,2,3,4,5,6,7,0};
  let w := if w.palette = [] then { w with palette := default_palette } else w
  -- if (activeTypes.empty()) activeTypes={0};
  let w := if w.activeTypes = [] then { w with activeTypes := [0] } else w
  -- vector<State> S(cfg.p);
  if w.cfg.p < 0 then none
  else do
    let (w, S) ← init_pipes w (List.replicate w.cfg.p.toNat {})
    -- long long last_reset = 0;
    pure (.running { w := w, S := S, last_reset := 0, slept := [] })

/-- The part of `main` that follows the argument loop: terminal initialisation
(`size` is what `updateSize` reads), the menu when no argument was given, and the
entry into the frame loop. -/
def start_loop (w : World) (use_menu : Bool) (size : Int × Int)
    (menu : List (Option (Int × Int) × Int)) : Option Startup := do
  -- Term t; term = t; term.init();
  let w := { w with W := size.1, H := size.2 }
  -- if (use_menu){ if (!run_menu()){ term.restore(); term.clear(); return 0; } }
  let (answer, w) ← if use_menu then run_menu w menu else pure (some true, w)
  match answer with
  | none => pure (.in_menu w)
  | some false => pure (.exit 0)
  | some true => enter_loop w

/-- Mirrors `main` up to the frame loop.  `args` is `argv[1..]`. -/
def main_start (libc : Libc) (args : List CStr) (rand : Nat → Nat) (size : Int × Int)
    (menu : List (Option (Int × Int) × Int)) : Option Startup := do
  -- bool use_menu = (argc==1);
  let parsed ← parse_args libc args.length (boot_world rand) args.isEmpty args
  match parsed with
  | .error code => pure (.exit code)
  | .ok (w, use_menu) => start_loop w use_menu size menu

/-- The states of the frame loop that the program can be in: the state in which
the loop is entered, the state after a tick, and the state after a step of any
one pipe. -/
inductive Reachable (libc : Libc) : Loop → Prop where
  | start (args : List CStr) (rand : Nat → Nat) (size : Int × Int)
      (menu : List (Option (Int × Int) × Int)) (l : Loop)
      (h : main_start libc args rand size menu = some (.running l)) : Reachable libc l
  | tick (l l1 : Loop) (r : Option (Int × Int)) (pending : Option Int) (thrown : Option String)
      (hl : Reachable libc l) (h : tick l r pending = some (thrown, l1)) : Reachable libc l1
  | step (l : Loop) (pre post : List State) (s s1 : State) (w1 : World)
      (hl : Reachable libc l) (hS : l.S = pre ++ s :: post)
      (h : draw_step l.w s = some (w1, s1)) :
      Reachable libc { l with w := w1, S := pre ++ s1 :: post }

/-- The configuration bounds: `5 ≤ straight ≤ 15`, `20 ≤ fps ≤ 100`, `p ≥ 1`. -/
def Bounds (cfg : Config) : Prop :=
  5 ≤ cfg.straight ∧ cfg.straight ≤ 15 ∧ 20 ≤ cfg.fps ∧ cfg.fps ≤ 100 ∧ 1 ≤ cfg.p

instance (cfg : Config) : Decidable (Bounds cfg) := by
  unfold Bounds; infer_instance

/-- A decimal `atoi`/`atoll` for evaluating examples: optional sign, then digits. -/
def atoi_digits (acc : Int) : CStr → Int
  | [] => acc
  | c :: rest => if c.isDigit then atoi_digits (acc * 10 + (c.toNat - 48 : Nat)) rest else acc

/-- The C library stand-in used in examples. -/
def libc_dec : Libc :=
  { atoi := fun s => match s with
      | '-' :: rest => - atoi_digits 0 rest
      | _ => atoi_digits 0 s
    atoll := fun s => match s with
      | '-' :: rest => - atoi_digits 0 rest
      | _ => atoi_digits 0 s }

/-- The ranges of the tables the glyph lookup goes through: a non-empty palette
with entries in `[0,7]`, non-empty `activeTypes` with entries in `[0,9]`, and ten
glyph sets of sixteen slots. -/
def TablesOK (w : World) : Prop :=
  w.palette ≠ [] ∧ (∀ c ∈ w.palette, 0 ≤ c ∧ c ≤ 7) ∧
  w.activeTypes ≠ [] ∧ (∀ t ∈ w.activeTypes, 0 ≤ t ∧ t ≤ 9) ∧
  w.T.length = 10 ∧ (∀ pt ∈ w.T, pt.g.length = 16)

/-- The ranges of a pipe's selectors: a colour index in `[0,7]` and a type index
that selects an entry of `activeTypes`. -/
def PipeOK (w : World) (s : State) : Prop :=
  0 ≤ s.colorIndex ∧ s.colorIndex ≤ 7 ∧ 0 ≤ s.typeIndex ∧ s.typeIndex < w.activeTypes.length

/-- The ranges of everything the glyph lookup of `draw_step` indexes with, for the
globals and for every pipe of the frame loop. -/
def InRange (l : Loop) : Prop := TablesOK l.w ∧ ∀ s ∈ l.S, PipeOK l.w s

/-- The frame loop entered by `pipes -p 2 -c -3 -t c0123456789abcdef` on an 80x24
terminal, as an example of a reachable state. -/
def demo_loop : Loop :=
  match main_start libc_dec
      ["-p".toList, "2".toList, "-c".toList, "-3".toList, "-t".toList,
        "c0123456789abcdef".toList]
      (stream [3, 0, 1]) (80, 24) [] with
  | some (.running l) => l
  | _ => { w := boot_world (stream []), S := [], last_reset := 0, slept := [] }

/-! ## The legacy engine (`legacy/original/pipes_gnu.cpp`)

`Direction`, `turn_left`, `turn_right`, `idx_from`, `PipeType`, `init_types` and
`Term::mv` are the same text in both files and are shared; what depends on the
legacy `Config` or `State` is embedded again. -/

namespace Legacy

/-- Mirrors `struct State` of `pipes_gnu.cpp`, with the deferred palette change
(`pendingColor`, `pendingType`; `-1`: nothing pending). -/
structure State where
  x : Int := 0
  y : Int := 0
  in_ : Direction := .RIGHT
  out : Direction := .RIGHT
  colorIndex : Int := 1
  typeIndex : Int := 0
  pendingColor : Int := -1
  pendingType : Int := -1
  deriving DecidableEq, Repr

/-- The globals of `pipes_gnu.cpp` that the engine reads and writes. -/
structure World where
  W : Int
  H : Int
  cfg : Config
  T : List PipeType
  activeTypes : List Int
  palette : List Int
  drawn : Int
  rand : Nat → Nat
  randPos : Nat
  cout : List Out

/-- Mirrors `rnd` of `pipes_gnu.cpp`. -/
def rnd (w : World) (n : Int) : Option (Int × World) :=
  if n = 0 then none
  else some (Int.tmod (w.rand w.randPos) n, { w with randPos := w.randPos + 1 })

/-- Mirrors `ansi_color` of `pipes_gnu.cpp`. -/
def ansi_color (cfg : Config) (c : Int) : String :=
  if cfg.noColor then ""
  else
    let base : Int := if cfg.vivid then 90 else 30
    "\x1b[" ++ toString (base + Int.land c 7) ++ "m"

/-- Mirrors `ansi_reset` of `pipes_gnu.cpp`. -/
def ansi_reset (cfg : Config) : String := if cfg.noColor then "" else "\x1b[0m"

/-- Mirrors `would_exit` of `pipes_gnu.cpp`. -/
def would_exit (w : World) (s : State) (nd : Direction) : Bool :=
  let nx := if nd = .UP then s.x else if nd = .DOWN then s.x else if nd = .LEFT then s.x - 1 else s.x + 1
  let ny := if nd = .UP then s.y - 1 else if nd = .DOWN then s.y + 1 else s.y
  decide (nx < 0 ∨ nx ≥ w.W ∨ ny < 0 ∨ ny ≥ w.H)

/-- The first two statements of the legacy `draw_step`, "apply deferred palette at
cell start":
`if (s.pendingColor>=0){ s.colorIndex=s.pendingColor; s.pendingColor=-1; }`
`if (s.pendingType >=0){ s.typeIndex =s.pendingType;  s.pendingType =-1; }` -/
def apply_pending (s : State) : State :=
  let s := if s.pendingColor ≥ 0 then { s with colorIndex := s.pendingColor, pendingColor := -1 }
    else s
  if s.pendingType ≥ 0 then { s with typeIndex := s.pendingType, pendingType := -1 } else s

/-- The tentative exit:
`s.out = s.in; if (rnd(20) >= cfg.straight) s.out = (rnd(2)? turn_left(s.in): turn_right(s.in));` -/
def tentative (w : World) (s : State) : State × World :=
  let s := { s with out := s.in_ }
  let r := Int.tmod (w.rand w.randPos) 20
  let w := { w with randPos := w.randPos + 1 }
  if r ≥ w.cfg.straight then
    let c := Int.tmod (w.rand w.randPos) 2
    let w := { w with randPos := w.randPos + 1 }
    ({ s with out := if c ≠ 0 then turn_left s.in_ else turn_right s.in_ }, w)
  else (s, w)

/-- Inside the edge check:
`if (!cfg.keepOnEdge){ s.pendingColor = palette[rnd((int)palette.size())]; s.pendingType = rnd((int)activeTypes.size()); }` -/
def schedule (w : World) (s : State) : Option (State × World) :=
  if !w.cfg.keepOnEdge then do
    let (k, w) ← rnd w w.palette.length
    let c ← index w.palette k
    let s := { s with pendingColor := c }
    let (t, w) ← rnd w w.activeTypes.length
    pure ({ s with pendingType := t }, w)
  else pure (s, w)

/-- Inside the edge check, after the scheduling: `L`, `R`, `okL`, `okR` and the
four-way choice of the exit. -/
def redecide (w : World) (s : State) : State × World :=
  let L := turn_left s.in_
  let R := turn_right s.in_
  let okL := !would_exit w s L
  let okR := !would_exit w s R
  if okL && okR then
    let c := Int.tmod (w.rand w.randPos) 2
    let w := { w with randPos := w.randPos + 1 }
    ({ s with out := if c ≠ 0 then L else R }, w)
  else if okL then ({ s with out := L }, w)
  else if okR then ({ s with out := R }, w)
  else ({ s with out := s.in_ }, w)

/-- The edge check `if (would_exit(s, s.out)) { ... }` of the legacy `draw_step`. -/
def edge_block (w : World) (s : State) : Option (State × World) :=
  if would_exit w s s.out then do
    let (s, w) ← schedule w s
    pure (redecide w s)
  else pure (s, w)

/-- The glyph lookup `T[ activeTypes[typeIndex] ].g[idx-1]`. -/
def lookup_glyph (w : World) (typeIndex idx : Int) : Option String := do
  let ty ← index w.activeTypes typeIndex
  let pt ← index w.T ty
  index pt.g (idx - 1)

/-- The tail of the legacy `draw_step`: turn index, glyph lookup, output, move, count. -/
def emit_move (w : World) (s : State) : Option (World × State) := do
  -- int idx = idx_from(s.in, s.out);
  let idx := idx_from s.in_ s.out
  -- const string& g = T[ activeTypes[s.typeIndex] ].g[idx-1];
  let g ← lookup_glyph w s.typeIndex idx
  -- term.mv(s.x, s.y); cout << ansi_color(s.colorIndex) << g << ansi_reset();
  let w := { w with
    cout := w.cout ++ [Out.glyph s.x s.y (ansi_color w.cfg s.colorIndex) g (ansi_reset w.cfg)] }
  -- s.in = s.out;
  let s := { s with in_ := s.out }
  -- if (s.in==UP) --s.y; else if (s.in==DOWN) ++s.y; else if (s.in==LEFT) --s.x; else ++s.x;
  let s := { s with x := (advance s.in_ s.x s.y).1, y := (advance s.in_ s.x s.y).2 }
  -- ++drawn;
  let w := { w with drawn := w.drawn + 1 }
  pure (w, s)

/-- Mirrors `draw_step` of `pipes_gnu.cpp`: apply the deferred change, decide,
draw, move. -/
def draw_step (w : World) (s : State) : Option (World × State) := do
  let s := apply_pending s
  let (s, w) := tentative w s
  let (s, w) ← edge_block w s
  emit_move w s

/-- The tables the legacy `draw_step` indexes are usable: a non-empty palette of
non-negative colours, non-empty `activeTypes` whose entries select a glyph set,
and sixteen slots in every glyph set. -/
def WFWorld (w : World) : Prop :=
  w.palette ≠ [] ∧ (∀ c ∈ w.palette, 0 ≤ c) ∧ w.activeTypes ≠ [] ∧
  (∀ t ∈ w.activeTypes, 0 ≤ t ∧ t < w.T.length) ∧
  (∀ pt ∈ w.T, pt.g.length = 16)

instance (w : World) : Decidable (WFWorld w) := by
  unfold WFWorld; infer_instance

/-- The type index in effect for the next step (the pending one, if any) selects
an entry of `activeTypes`, and the pending fields are `-1` or a scheduled value. -/
def WFState (w : World) (s : State) : Prop :=
  0 ≤ (apply_pending s).typeIndex ∧ (apply_pending s).typeIndex < w.activeTypes.length ∧
  -1 ≤ s.pendingColor ∧ -1 ≤ s.pendingType

instance (w : World) (s : State) : Decidable (WFState w s) := by
  unfold WFState; infer_instance

/-- The legacy globals right after start-up on a `W × H` terminal. -/
def start_world (W H : Int) (cfg : Config) (draws : List Nat) : World :=
  { W := W, H := H, cfg := cfg, T := init_types, activeTypes := [0],
    palette := [1, 2, 3, 4, 5, 6, 7, 0], drawn := 0, rand := stream draws, randPos := 0,
    cout := [] }

end Legacy

/-- The states of the frame loop that the program can be in while the terminal
keeps the size `W × H`: the state in which the loop is entered on a terminal of
that size, the state after a tick without a resize notification, and the state
after a step of any one pipe. -/
inductive ReachableOn (libc : Libc) (W H : Int) : Loop → Prop where
  | start (args : List CStr) (rand : Nat → Nat) (size : Int × Int)
      (menu : List (Option (Int × Int) × Int)) (l : Loop)
      (h : main_start libc args rand size menu = some (.running l))
      (hW : l.w.W = W) (hH : l.w.H = H) : ReachableOn libc W H l
  | tick (l l1 : Loop) (pending : Option Int) (thrown : Option String)
      (hl : ReachableOn libc W H l) (h : tick l none pending = some (thrown, l1)) :
      ReachableOn libc W H l1
  | step (l : Loop) (pre post : List State) (s s1 : State) (w1 : World)
      (hl : ReachableOn libc W H l) (hS : l.S = pre ++ s :: post)
      (h : draw_step l.w s = some (w1, s1)) :
      ReachableOn libc W H { l with w := w1, S := pre ++ s1 :: post }

/-- The frame loop entered by `pipes -R -p 1` on an 80x24 terminal when `rand()`
returns 3, 0, 1, 85, 30: an example of a random start. -/
def random_start_loop : Loop :=
  match main_start libc_dec ["-R".toList, "-p".toList, "1".toList]
      (stream [3, 0, 1, 85, 30]) (80, 24) [] with
  | some (.running l) => l
  | _ => { w := boot_world (stream []), S := [], last_reset := 0, slept := [] }

/-! ## Movement of the two engines

The movement a step shows, and the sequence of movements of `n` consecutive steps
of one pipe, for `draw_step` of `main.cpp` and for `draw_step` of `pipes_gnu.cpp`. -/

/-- What a step shows of the movement: the exit direction chosen, the turn code
`idx_from(in, out)`, the cell the glyph is written at, the position after the
step, and the number of `rand()` calls made so far. -/
structure Move where
  out : Direction
  code : Int
  cell : Option (Int × Int)
  pos : Int × Int
  draws : Nat
  deriving DecidableEq, Repr

/-- The cell an output event is written at. -/
def Out.cell : Out → Option (Int × Int)
  | .clear => none
  | .glyph x y _ _ _ => some (x, y)

/-- The movement of a step of `draw_step` that took the pipe `s` to the pipe `s1`
and left the globals `w1`: the turn code is `idx_from` of the entry direction the
step started with and the exit it chose, the cell is read off the last output
event. -/
def step_move (s : State) (w1 : World) (s1 : State) : Move :=
  { out := s1.out, code := idx_from s.in_ s1.out, cell := w1.cout.getLast?.bind Out.cell,
    pos := (s1.x, s1.y), draws := w1.randPos }

/-- The movements of `n` consecutive steps of `draw_step` on one pipe, with the
globals and the pipe they end in. -/
def moves (w : World) (s : State) : Nat → Option (List Move × World × State)
  | 0 => some ([], w, s)
  | n + 1 => do
    let (w1, s1) ← draw_step w s
    let (ms, wn, sn) ← moves w1 s1 n
    pure (step_move s w1 s1 :: ms, wn, sn)

namespace Legacy

/-- The movement of a step of the legacy `draw_step`, read off as for the current one. -/
def step_move (s : State) (w1 : World) (s1 : State) : Move :=
  { out := s1.out, code := idx_from s.in_ s1.out, cell := w1.cout.getLast?.bind Out.cell,
    pos := (s1.x, s1.y), draws := w1.randPos }

/-- The movements of `n` consecutive steps of the legacy `draw_step` on one pipe. -/
def moves (w : World) (s : State) : Nat → Option (List Move × World × State)
  | 0 => some ([], w, s)
  | n + 1 => do
    let (w1, s1) ← draw_step w s
    let (ms, wn, sn) ← moves w1 s1 n
    pure (step_move s w1 s1 :: ms, wn, sn)

end Legacy

/-- The two engines are in step: the current globals `w` and pipe `s` and the
legacy globals `lw` and pipe `ls` have the same grid, the same configuration as
far as `draw_step` reads it, the same tables, the same generator at the same
place of its sequence, and the pipes have the same position and entry direction. -/
def Aligned (w : World) (s : State) (lw : Legacy.World) (ls : Legacy.State) : Prop :=
  lw.W = w.W ∧ lw.H = w.H ∧
  lw.cfg.straight = w.cfg.straight ∧ lw.cfg.keepOnEdge = w.cfg.keepOnEdge ∧
  lw.cfg.noColor = w.cfg.noColor ∧ lw.cfg.vivid = w.cfg.vivid ∧
  lw.T = w.T ∧ lw.activeTypes = w.activeTypes ∧ lw.palette = w.palette ∧
  lw.rand = w.rand ∧ lw.randPos = w.randPos ∧
  ls.x = s.x ∧ ls.y = s.y ∧ ls.in_ = s.in_

/-- The colour index and the type index in effect for the next glyph are the same
in both engines: the legacy pipe's after its pending change is applied, the
current pipe's as they are. -/
def SameLook (s : State) (ls : Legacy.State) : Prop :=
  (Legacy.apply_pending ls).colorIndex = s.colorIndex ∧
  (Legacy.apply_pending ls).typeIndex = s.typeIndex

instance (s : State) (ls : Legacy.State) : Decidable (SameLook s ls) := by
  unfold SameLook; infer_instance

/-! ## Theorems -/

/-! ### Basic facts about the blocks of `draw_step` -/

theorem would_exit_congr {w w1 : World} {s s1 : State} (d : Direction)
    (hW : w1.W = w.W) (hH : w1.H = w.H) (hx : s1.x = s.x) (hy : s1.y = s.y) :
    would_exit w1 s1 d = would_exit w s d := by
  simp only [would_exit, hW, hH, hx, hy]

theorem would_exit_eq_true_iff (w : World) (s : State) (d : Direction) :
    would_exit w s d = true ↔ ¬ in_bounds w (advance d s.x s.y).1 (advance d s.x s.y).2 := by
  cases d <;> simp [would_exit, in_bounds, advance] <;> omega

theorem would_exit_eq_false_iff (w : World) (s : State) (d : Direction) :
    would_exit w s d = false ↔ in_bounds w (advance d s.x s.y).1 (advance d s.x s.y).2 := by
  rw [← Bool.not_eq_true, would_exit_eq_true_iff, not_not]

theorem index_some {α : Type} (v : List α) (i : Int) (h0 : 0 ≤ i) (h1 : i < v.length) :
    ∃ a, index v i = some a ∧ a ∈ v := by
  have hlt : i.toNat < v.length := by omega
  refine ⟨v[i.toNat], ?_, List.getElem_mem _⟩
  simp [index, h0, List.getElem?_eq_getElem hlt]

theorem rnd_range (r : Nat) (n : Nat) (hn : n ≠ 0) :
    0 ≤ Int.tmod (r : Int) (n : Int) ∧ Int.tmod (r : Int) (n : Int) < (n : Int) := by
  constructor
  · exact Int.tmod_nonneg _ (Int.ofNat_nonneg r)
  · exact Int.tmod_lt_of_pos _ (by omega)

theorem idx_from_range (i o : Direction) : 1 ≤ idx_from i o ∧ idx_from i o ≤ 16 := by
  cases i <;> cases o <;> decide

theorem lookup_glyph_some (w : World) (t idx : Int) (hw : WFWorld w)
    (ht : 0 ≤ t ∧ t < w.activeTypes.length) (hi : 1 ≤ idx ∧ idx ≤ 16) :
    ∃ g, lookup_glyph w t idx = some g := by
  obtain ⟨_, _, hT, hg⟩ := hw
  obtain ⟨ty, hty, hmem⟩ := index_some w.activeTypes t ht.1 ht.2
  obtain ⟨pt, hpt, hmem2⟩ := index_some w.T ty (hT ty hmem).1 (hT ty hmem).2
  obtain ⟨g, hgl, _⟩ := index_some pt.g (idx - 1) (by omega) (by rw [hg pt hmem2]; omega)
  exact ⟨g, by simp [lookup_glyph, hty, hpt, hgl]⟩

theorem tentative_fst (w : World) (s : State) :
    ((tentative w s).1.x = s.x ∧ (tentative w s).1.y = s.y ∧ (tentative w s).1.in_ = s.in_ ∧
      (tentative w s).1.colorIndex = s.colorIndex ∧ (tentative w s).1.typeIndex = s.typeIndex) ∧
    ((tentative w s).1.out = s.in_ ∨ (tentative w s).1.out = turn_left s.in_ ∨
      (tentative w s).1.out = turn_right s.in_) := by
  unfold tentative
  dsimp only
  split_ifs <;> simp

theorem tentative_snd (w : World) (s : State) :
    ∃ k, (tentative w s).2 = { w with randPos := w.randPos + k } := by
  unfold tentative
  dsimp only
  split
  · exact ⟨2, rfl⟩
  · exact ⟨1, rfl⟩

theorem redecide_fst (w : World) (s : State) :
    ((redecide w s).1.x = s.x ∧ (redecide w s).1.y = s.y ∧ (redecide w s).1.in_ = s.in_ ∧
      (redecide w s).1.colorIndex = s.colorIndex ∧ (redecide w s).1.typeIndex = s.typeIndex) ∧
    ((redecide w s).1.out = s.in_ ∨ (redecide w s).1.out = turn_left s.in_ ∨
      (redecide w s).1.out = turn_right s.in_) := by
  unfold redecide
  dsimp only
  split_ifs <;> simp

theorem redecide_snd (w : World) (s : State) :
    ∃ k, (redecide w s).2 = { w with randPos := w.randPos + k } := by
  unfold redecide
  dsimp only
  split
  · exact ⟨1, rfl⟩
  · split
    · exact ⟨0, rfl⟩
    · split
      · exact ⟨0, rfl⟩
      · exact ⟨0, rfl⟩

theorem recolor_keep (w : World) (s : State) (hk : w.cfg.keepOnEdge = true) :
    recolor w s = some (s, w) := by
  simp [recolor, hk]

theorem recolor_draw (w : World) (s : State) (hk : w.cfg.keepOnEdge = false) (hw : WFWorld w) :
    ∃ c, index w.palette (Int.tmod (w.rand w.randPos) w.palette.length) = some c ∧
      recolor w s = some
        ({ s with colorIndex := c,
                  typeIndex := Int.tmod (w.rand (w.randPos + 1)) w.activeTypes.length },
         { w with randPos := w.randPos + 2 }) := by
  obtain ⟨hp, ha, _, _⟩ := hw
  have hp1 : w.palette.length ≠ 0 := by simpa using hp
  have ha1 : w.activeTypes.length ≠ 0 := by simpa using ha
  obtain ⟨c, hc, _⟩ := index_some w.palette _ (rnd_range (w.rand w.randPos) _ hp1).1
    (rnd_range (w.rand w.randPos) _ hp1).2
  refine ⟨c, hc, ?_⟩
  simp [recolor, hk, rnd, hp, ha, hc]

theorem edge_block_inside (w : World) (s : State) (h : would_exit w s s.out = false) :
    edge_block w s = some (s, w) := by
  simp [edge_block, h]

theorem edge_block_keep (w : World) (s : State) (h : would_exit w s s.out = true)
    (hk : w.cfg.keepOnEdge = true) :
    edge_block w s = some (redecide w s) := by
  simp [edge_block, h, recolor_keep w s hk]

theorem edge_block_draw (w : World) (s : State) (h : would_exit w s s.out = true)
    (hk : w.cfg.keepOnEdge = false) (hw : WFWorld w) :
    ∃ c, index w.palette (Int.tmod (w.rand w.randPos) w.palette.length) = some c ∧
      edge_block w s = some (redecide { w with randPos := w.randPos + 2 }
        { s with colorIndex := c,
                 typeIndex := Int.tmod (w.rand (w.randPos + 1)) w.activeTypes.length }) := by
  obtain ⟨c, hc, hr⟩ := recolor_draw w s hk hw
  exact ⟨c, hc, by simp [edge_block, h, hr]⟩

theorem redecide_out (w : World) (s : State) :
    (redecide w s).1.out =
      redecided (!would_exit w s (turn_left s.in_)) (!would_exit w s (turn_right s.in_))
        (Int.tmod (w.rand w.randPos) 2) s.in_ := by
  unfold redecide redecided
  dsimp only
  split
  · rfl
  · split
    · rfl
    · split <;> rfl

/-- The exit chosen by the edge check when the tentative exit leaves the grid: the
four-way choice on the in-bounds flags of the two turns, the coin being the draw
that follows the two recolouring draws (none of them with keep-on-edge). -/
theorem edge_block_exit (w : World) (s : State) (hw : WFWorld w)
    (h : would_exit w s s.out = true) :
    ∃ p, edge_block w s = some p ∧
      p.1.out =
        redecided (!would_exit w s (turn_left s.in_)) (!would_exit w s (turn_right s.in_))
          (Int.tmod (w.rand (w.randPos + if w.cfg.keepOnEdge then 0 else 2)) 2) s.in_ := by
  cases hk : w.cfg.keepOnEdge
  · obtain ⟨c, _, he⟩ := edge_block_draw w s h hk hw
    refine ⟨_, he, ?_⟩
    rw [redecide_out]
    rfl
  · refine ⟨_, edge_block_keep w s h hk, ?_⟩
    rw [redecide_out]
    rfl

/-- On a grid at least two cells wide and high, one of the two turns of an
in-bounds pipe stays on the grid. -/
theorem turn_stays (w : World) (s : State) (d : Direction) (hW : 2 ≤ w.W) (hH : 2 ≤ w.H)
    (hb : in_bounds w s.x s.y) :
    would_exit w s (turn_left d) = false ∨ would_exit w s (turn_right d) = false := by
  unfold in_bounds at hb
  cases d <;> simp [would_exit, turn_left, turn_right, Direction.toNat, Direction.cast] <;> omega

theorem redecided_stays (w : World) (s : State) (d : Direction) (coin : Int)
    (h : would_exit w s (turn_left d) = false ∨ would_exit w s (turn_right d) = false) :
    would_exit w s
      (redecided (!would_exit w s (turn_left d)) (!would_exit w s (turn_right d)) coin d)
      = false := by
  unfold redecided
  cases hl : would_exit w s (turn_left d) <;> cases hr : would_exit w s (turn_right d) <;>
    simp_all
  split <;> assumption

/-- What the edge check leaves alone, whatever branch it takes. -/
theorem edge_block_facts (w : World) (s : State) (hw : WFWorld w) (hs : WFState w s) :
    ∃ p, edge_block w s = some p ∧
      p.1.x = s.x ∧ p.1.y = s.y ∧ p.1.in_ = s.in_ ∧
      (p.1.out = s.out ∨ p.1.out = s.in_ ∨ p.1.out = turn_left s.in_ ∨
        p.1.out = turn_right s.in_) ∧
      WFState w p.1 ∧ (∃ k, p.2 = { w with randPos := w.randPos + k }) := by
  cases h : would_exit w s s.out
  · exact ⟨(s, w), edge_block_inside w s h, rfl, rfl, rfl, Or.inl rfl, hs, 0, rfl⟩
  · cases hk : w.cfg.keepOnEdge
    · obtain ⟨c, _, he⟩ := edge_block_draw w s h hk hw
      have ha1 : w.activeTypes.length ≠ 0 := by simpa using hw.2.1
      have hr := rnd_range (w.rand (w.randPos + 1)) _ ha1
      obtain ⟨k, hk2⟩ := redecide_snd { w with randPos := w.randPos + 2 }
        { s with colorIndex := c,
                 typeIndex := Int.tmod (w.rand (w.randPos + 1)) w.activeTypes.length }
      obtain ⟨⟨h1, h2, h3, _, h5⟩, h6⟩ := redecide_fst { w with randPos := w.randPos + 2 }
        { s with colorIndex := c,
                 typeIndex := Int.tmod (w.rand (w.randPos + 1)) w.activeTypes.length }
      generalize redecide { w with randPos := w.randPos + 2 }
        { s with colorIndex := c,
                 typeIndex := Int.tmod (w.rand (w.randPos + 1)) w.activeTypes.length } = R
        at he hk2 h1 h2 h3 h5 h6
      refine ⟨R, he, h1, h2, h3, Or.inr h6, ?_, 2 + k, ?_⟩
      · unfold WFState
        rw [h5]; exact hr
      · rw [hk2]; simp [Nat.add_assoc]
    · obtain ⟨k, hk2⟩ := redecide_snd w s
      obtain ⟨⟨h1, h2, h3, _, h5⟩, h6⟩ := redecide_fst w s
      have he := edge_block_keep w s h hk
      generalize redecide w s = R at he hk2 h1 h2 h3 h5 h6
      refine ⟨R, he, h1, h2, h3, Or.inr h6, ?_, k, hk2⟩
      unfold WFState
      rw [h5]; exact hs

theorem draw_step_phases (w : World) (s : State) :
    draw_step w s =
      (edge_block (tentative w s).2 (tentative w s).1).bind (fun p => emit_move p.2 p.1) := by
  unfold draw_step
  generalize tentative w s = P
  obtain ⟨s0, w0⟩ := P
  dsimp only
  cases edge_block w0 s0 <;> rfl

theorem emit_move_eq (w : World) (s : State) (g : String)
    (hg : lookup_glyph w s.typeIndex (idx_from s.in_ s.out) = some g) :
    emit_move w s = some
      ({ w with
          cout := w.cout ++
            [Out.glyph s.x s.y (ansi_color w.cfg s.colorIndex) g (ansi_reset w.cfg)],
          drawn := w.drawn + 1 },
       { s with in_ := s.out, x := (advance s.out s.x s.y).1, y := (advance s.out s.x s.y).2 }) := by
  simp [emit_move, hg]

/-- The shape of every step of a well-formed pipe: the step returns, the globals
change only in `randPos`, `cout` and `drawn`, one glyph is written at the
pre-step cell, and the pipe moves one cell along the chosen exit. -/
theorem draw_step_spec (w : World) (s : State) (hw : WFWorld w) (hs : WFState w s) :
    ∃ p g, edge_block (tentative w s).2 (tentative w s).1 = some p ∧
      lookup_glyph w p.1.typeIndex (idx_from s.in_ p.1.out) = some g ∧
      draw_step w s = some
        ({ w with
            randPos := p.2.randPos,
            cout := w.cout ++
              [Out.glyph s.x s.y (ansi_color w.cfg p.1.colorIndex) g (ansi_reset w.cfg)],
            drawn := w.drawn + 1 },
         { s with in_ := p.1.out, out := p.1.out, colorIndex := p.1.colorIndex,
                  typeIndex := p.1.typeIndex,
                  x := (advance p.1.out s.x s.y).1, y := (advance p.1.out s.x s.y).2 }) ∧
      (p.1.out = s.in_ ∨ p.1.out = turn_left s.in_ ∨ p.1.out = turn_right s.in_) ∧
      WFState w p.1 ∧ w.randPos ≤ p.2.randPos := by
  rw [draw_step_phases]
  obtain ⟨⟨hx0, hy0, hin0, _, ht0⟩, ho⟩ := tentative_fst w s
  obtain ⟨k0, hk0⟩ := tentative_snd w s
  generalize tentative w s = P at hx0 hy0 hin0 ht0 ho hk0 ⊢
  have hw0 : WFWorld P.2 := by rw [hk0]; exact hw
  have hs0 : WFState P.2 P.1 := by
    unfold WFState; rw [hk0, ht0]; exact hs
  obtain ⟨p, he, hx, hy, hi, hout, hs1, k1, hk1⟩ := edge_block_facts P.2 P.1 hw0 hs0
  obtain ⟨s1, w1⟩ := p
  dsimp only at hx hy hi hout hs1 hk1 ⊢
  have hx1 : s1.x = s.x := by rw [hx, hx0]
  have hy1 : s1.y = s.y := by rw [hy, hy0]
  have hi1 : s1.in_ = s.in_ := by rw [hi, hin0]
  have hs1w : WFState w s1 := by rw [hk0] at hs1; exact hs1
  have hw1 : w1 = { w with randPos := w.randPos + (k0 + k1) } := by
    rw [hk1, hk0]; simp [Nat.add_assoc]
  obtain ⟨g, hg⟩ := lookup_glyph_some w s1.typeIndex (idx_from s.in_ s1.out) hw hs1w
    (idx_from_range _ _)
  have hg1 : lookup_glyph w1 s1.typeIndex (idx_from s1.in_ s1.out) = some g := by
    rw [hi1, ← hg, hw1]; rfl
  refine ⟨(s1, w1), g, he, hg, ?_, ?_, hs1w, ?_⟩
  · rw [he]
    simp only [Option.bind]
    rw [emit_move_eq w1 s1 g hg1, hw1]
    simp only [hx1, hy1, Option.some.injEq, Prod.mk.injEq, true_and]
  · rw [hin0] at hout
    rcases hout with h | h | h | h
    · rw [h]; exact ho
    · exact Or.inl h
    · exact Or.inr (Or.inl h)
    · exact Or.inr (Or.inr h)
  · rw [hw1]; simp

/-- C1. `idx_from` returns the fixed table value on each of the twelve geometrically
valid (entry, exit) pairs; these twelve pairs are exactly the pairs `(d, d)`,
`(d, turn_left d)`, `(d, turn_right d)`, and on them `idx_from` gives the
straight-through code, the left-turn entry and the right-turn entry of the table. -/
theorem idx_from_table :
    idx_from .UP .UP = 1 ∧ idx_from .UP .RIGHT = 2 ∧ idx_from .UP .LEFT = 4 ∧
    idx_from .RIGHT .UP = 5 ∧ idx_from .RIGHT .RIGHT = 6 ∧ idx_from .RIGHT .DOWN = 7 ∧
    idx_from .DOWN .RIGHT = 10 ∧ idx_from .DOWN .DOWN = 11 ∧ idx_from .DOWN .LEFT = 12 ∧
    idx_from .LEFT .UP = 13 ∧ idx_from .LEFT .DOWN = 15 ∧ idx_from .LEFT .LEFT = 16 ∧
    (∀ d o : Direction, in_table d o = true ↔ (o = d ∨ o = turn_left d ∨ o = turn_right d)) ∧
    (∀ d : Direction, idx_from d d = straight_code d) ∧
    idx_from .UP (turn_left .UP) = 4 ∧ idx_from .UP (turn_right .UP) = 2 ∧
    idx_from .RIGHT (turn_left .RIGHT) = 5 ∧ idx_from .RIGHT (turn_right .RIGHT) = 7 ∧
    idx_from .DOWN (turn_left .DOWN) = 10 ∧ idx_from .DOWN (turn_right .DOWN) = 12 ∧
    idx_from .LEFT (turn_left .LEFT) = 15 ∧ idx_from .LEFT (turn_right .LEFT) = 13 := by
  refine ⟨rfl, rfl, rfl, rfl, rfl, rfl, rfl, rfl, rfl, rfl, rfl, rfl, ?_, ?_,
    rfl, rfl, rfl, rfl, rfl, rfl, rfl, rfl⟩
  · intro d o
    cases d <;> cases o <;> decide
  · intro d
    cases d <;> rfl

/-- Well-formedness is kept by a step, which returns and leaves the tables alone. -/
theorem draw_step_wf (w : World) (s : State) (hw : WFWorld w) (hs : WFState w s) :
    ∃ w1 s1, draw_step w s = some (w1, s1) ∧ WFWorld w1 ∧ WFState w1 s1 ∧
      same_tables w w1 ∧ w1.drawn = w.drawn + 1 ∧ clears w1 = clears w := by
  obtain ⟨p, g, _, _, hd, _, hs1, _⟩ := draw_step_spec w s hw hs
  refine ⟨_, _, hd, hw, hs1, ⟨rfl, rfl, rfl, rfl, rfl, rfl, rfl⟩, rfl, ?_⟩
  simp [clears]

theorem tentative_would_exit (w : World) (s : State) (d : Direction) :
    would_exit (tentative w s).2 (tentative w s).1 d = would_exit w s d := by
  obtain ⟨⟨hx, hy, _, _, _⟩, _⟩ := tentative_fst w s
  obtain ⟨k, hk⟩ := tentative_snd w s
  exact would_exit_congr d (by rw [hk]) (by rw [hk]) hx hy

/-- The exit direction of a step, in terms of the tentative exit: kept when it
stays on the grid, and otherwise the four-way choice of the edge check. -/
theorem draw_step_out (w : World) (s : State) (hw : WFWorld w) (hs : WFState w s) :
    ∃ w1 s1, draw_step w s = some (w1, s1) ∧
      (s1.x, s1.y) = advance s1.out s.x s.y ∧
      (would_exit w s (tentative w s).1.out = false → s1.out = (tentative w s).1.out) ∧
      (would_exit w s (tentative w s).1.out = true →
        s1.out =
          redecided (!would_exit w s (turn_left s.in_)) (!would_exit w s (turn_right s.in_))
            (Int.tmod (w.rand ((tentative w s).2.randPos +
              if w.cfg.keepOnEdge then 0 else 2)) 2) s.in_) := by
  obtain ⟨p, g, he, _, hd, _, _, _⟩ := draw_step_spec w s hw hs
  obtain ⟨⟨_, _, hin0, _, _⟩, _⟩ := tentative_fst w s
  obtain ⟨k0, hk0⟩ := tentative_snd w s
  have hw0 : WFWorld (tentative w s).2 := by rw [hk0]; exact hw
  have hcfg : (tentative w s).2.cfg = w.cfg := by rw [hk0]
  have hrand : (tentative w s).2.rand = w.rand := by rw [hk0]
  refine ⟨_, _, hd, rfl, ?_, ?_⟩
  · intro h
    rw [← tentative_would_exit w s] at h
    rw [edge_block_inside _ _ h] at he
    rw [← Option.some.inj he]
  · intro h
    rw [← tentative_would_exit w s] at h
    obtain ⟨q, hq, hqo⟩ := edge_block_exit _ _ hw0 h
    rw [hq] at he
    rw [← Option.some.inj he]
    dsimp only
    rw [hqo, tentative_would_exit, tentative_would_exit, hin0, hcfg, hrand]

/-- On a grid at least two cells wide and high a step keeps an in-bounds pipe
in bounds, whatever the configuration and the draws. -/
theorem draw_step_in_bounds (w : World) (s : State) (hw : WFWorld w) (hs : WFState w s)
    (hW : 2 ≤ w.W) (hH : 2 ≤ w.H) (hb : in_bounds w s.x s.y) :
    ∃ w1 s1, draw_step w s = some (w1, s1) ∧ in_bounds w s1.x s1.y := by
  obtain ⟨w1, s1, hd, hpos, hin, hout⟩ := draw_step_out w s hw hs
  refine ⟨w1, s1, hd, ?_⟩
  have hx : s1.x = (advance s1.out s.x s.y).1 := congrArg Prod.fst hpos
  have hy : s1.y = (advance s1.out s.x s.y).2 := congrArg Prod.snd hpos
  rw [hx, hy, ← would_exit_eq_false_iff]
  cases h : would_exit w s (tentative w s).1.out
  · rw [hin h]; exact h
  · rw [hout h]
    exact redecided_stays w s s.in_ _ (turn_stays w s s.in_ hW hH hb)

/-- The colour and type in effect for the glyph of a step: the ones drawn in the
edge check when the tentative exit leaves the grid and keep-on-edge is off, and
the pipe's own ones otherwise.  They are also the pipe's colour and type after
the step. -/
theorem draw_step_colour (w : World) (s : State) (hw : WFWorld w) (hs : WFState w s) :
    ∃ w1 s1 g, draw_step w s = some (w1, s1) ∧
      lookup_glyph w s1.typeIndex (idx_from s.in_ s1.out) = some g ∧
      w1.cout = w.cout ++
        [Out.glyph s.x s.y (ansi_color w.cfg s1.colorIndex) g (ansi_reset w.cfg)] ∧
      (would_exit w s (tentative w s).1.out = true → w.cfg.keepOnEdge = false →
        index w.palette (Int.tmod (w.rand (tentative w s).2.randPos) w.palette.length)
          = some s1.colorIndex ∧
        s1.typeIndex =
          Int.tmod (w.rand ((tentative w s).2.randPos + 1)) w.activeTypes.length) ∧
      (would_exit w s (tentative w s).1.out = false ∨ w.cfg.keepOnEdge = true →
        s1.colorIndex = s.colorIndex ∧ s1.typeIndex = s.typeIndex) := by
  obtain ⟨p, g, he, hg, hd, _, _, _⟩ := draw_step_spec w s hw hs
  obtain ⟨⟨_, _, _, hc0, ht0⟩, _⟩ := tentative_fst w s
  obtain ⟨k0, hk0⟩ := tentative_snd w s
  have hw0 : WFWorld (tentative w s).2 := by rw [hk0]; exact hw
  have hcfg : (tentative w s).2.cfg = w.cfg := by rw [hk0]
  have hrand : (tentative w s).2.rand = w.rand := by rw [hk0]
  have hpal : (tentative w s).2.palette = w.palette := by rw [hk0]
  have hact : (tentative w s).2.activeTypes = w.activeTypes := by rw [hk0]
  refine ⟨_, _, g, hd, hg, rfl, ?_, ?_⟩
  · intro h hk
    rw [← tentative_would_exit w s] at h
    rw [← hcfg] at hk
    obtain ⟨c, hc, hq⟩ := edge_block_draw _ _ h hk hw0
    rw [hq] at he
    rw [← Option.some.inj he]
    obtain ⟨⟨_, _, _, h4, h5⟩, _⟩ := redecide_fst
      { (tentative w s).2 with randPos := (tentative w s).2.randPos + 2 }
      { (tentative w s).1 with
          colorIndex := c,
          typeIndex := Int.tmod ((tentative w s).2.rand ((tentative w s).2.randPos + 1))
            (tentative w s).2.activeTypes.length }
    dsimp only at h4 h5 ⊢
    rw [h4, h5, ← hrand, ← hpal, ← hact]
    exact ⟨hc, rfl⟩
  · intro h
    rcases h with h | hk
    · rw [← tentative_would_exit w s] at h
      rw [edge_block_inside _ _ h] at he
      rw [← Option.some.inj he]
      exact ⟨hc0, ht0⟩
    · cases h : would_exit (tentative w s).2 (tentative w s).1 (tentative w s).1.out
      · rw [edge_block_inside _ _ h] at he
        rw [← Option.some.inj he]
        exact ⟨hc0, ht0⟩
      · rw [← hcfg] at hk
        rw [edge_block_keep _ _ h hk] at he
        rw [← Option.some.inj he]
        obtain ⟨⟨_, _, _, h4, h5⟩, _⟩ := redecide_fst (tentative w s).2 (tentative w s).1
        dsimp only
        rw [h4, h5]
        exact ⟨hc0, ht0⟩

/-! ### Direction choice and movement -/

/-- C2. For every well-formed pipe, configuration, grid size and every outcome of
the random draws, `draw_step` returns and the exit direction it chose is the entry
direction or its left or right turn, never the reversal; the pair (entry, exit) is
one of the twelve table pairs, so the glyph written is the one at a table code and
the fallback returns of `idx_from` are not reached. -/
theorem draw_step_never_reverses (w : World) (s : State) (hw : WFWorld w) (hs : WFState w s) :
    ∃ w1 s1 g, draw_step w s = some (w1, s1) ∧
      (s1.out = s.in_ ∨ s1.out = turn_left s.in_ ∨ s1.out = turn_right s.in_) ∧
      s1.out ≠ reverse s.in_ ∧
      in_table s.in_ s1.out = true ∧
      lookup_glyph w s1.typeIndex (idx_from s.in_ s1.out) = some g ∧
      w1.cout = w.cout ++
        [Out.glyph s.x s.y (ansi_color w.cfg s1.colorIndex) g (ansi_reset w.cfg)] := by
  obtain ⟨p, g, _, hg, hd, ho, _, _⟩ := draw_step_spec w s hw hs
  refine ⟨_, _, g, hd, ho, ?_, ?_, hg, rfl⟩
  · dsimp only
    rcases ho with h | h | h <;> rw [h] <;> cases s.in_ <;> decide
  · dsimp only
    rcases ho with h | h | h <;> rw [h] <;> cases s.in_ <;> decide

theorem draw_step_never_reverses_witness :
    WFWorld (start_world 3 3 {} [19, 1]) ∧ WFState (start_world 3 3 {} [19, 1]) { x := 1, y := 1 } ∧
    ∃ w1 s1 g, draw_step (start_world 3 3 {} [19, 1]) { x := 1, y := 1 } = some (w1, s1) ∧
      (s1.out = Direction.RIGHT ∨ s1.out = turn_left Direction.RIGHT ∨
        s1.out = turn_right Direction.RIGHT) ∧
      s1.out ≠ reverse Direction.RIGHT ∧
      in_table Direction.RIGHT s1.out = true ∧
      lookup_glyph (start_world 3 3 {} [19, 1]) s1.typeIndex
        (idx_from Direction.RIGHT s1.out) = some g ∧
      w1.cout = [] ++ [Out.glyph 1 1 (ansi_color {} s1.colorIndex) g (ansi_reset {})] :=
  ⟨by decide, by decide,
    draw_step_never_reverses (start_world 3 3 {} [19, 1]) { x := 1, y := 1 } (by decide) (by decide)⟩

/-- C3. After every step of a well-formed pipe the entry direction equals the exit
direction chosen in that step, and the new position is the pre-step position moved
by exactly one cell in that direction (UP: y-1, DOWN: y+1, LEFT: x-1, RIGHT: x+1,
the other coordinate unchanged).  Hence in two consecutive steps the second one
uses the first one's exit as its entry: its turn code is `idx_from` of that exit
and its own exit, and its glyph is written at the cell the first step moved to. -/
theorem draw_step_entry_follows_exit (w : World) (s : State) (hw : WFWorld w)
    (hs : WFState w s) :
    ∃ w1 s1, draw_step w s = some (w1, s1) ∧
      s1.in_ = s1.out ∧
      (s1.x, s1.y) = advance s1.out s.x s.y ∧
      (s1.out = Direction.UP → s1.x = s.x ∧ s1.y = s.y - 1) ∧
      (s1.out = Direction.DOWN → s1.x = s.x ∧ s1.y = s.y + 1) ∧
      (s1.out = Direction.LEFT → s1.x = s.x - 1 ∧ s1.y = s.y) ∧
      (s1.out = Direction.RIGHT → s1.x = s.x + 1 ∧ s1.y = s.y) ∧
      ∃ w2 s2 g, draw_step w1 s1 = some (w2, s2) ∧
        (s2.out = s1.out ∨ s2.out = turn_left s1.out ∨ s2.out = turn_right s1.out) ∧
        lookup_glyph w1 s2.typeIndex (idx_from s1.out s2.out) = some g ∧
        w2.cout = w1.cout ++
          [Out.glyph s1.x s1.y (ansi_color w1.cfg s2.colorIndex) g (ansi_reset w1.cfg)] ∧
        s2.in_ = s2.out ∧ (s2.x, s2.y) = advance s2.out s1.x s1.y := by
  obtain ⟨p, g, _, _, hd, _, hs1, _⟩ := draw_step_spec w s hw hs
  refine ⟨_, _, hd, rfl, rfl, ?_, ?_, ?_, ?_, ?_⟩
  · intro h; dsimp only at h ⊢; rw [h]; exact ⟨rfl, rfl⟩
  · intro h; dsimp only at h ⊢; rw [h]; exact ⟨rfl, rfl⟩
  · intro h; dsimp only at h ⊢; rw [h]; exact ⟨rfl, rfl⟩
  · intro h; dsimp only at h ⊢; rw [h]; exact ⟨rfl, rfl⟩
  · obtain ⟨w1, s1, hd1, hw1, hs1w, _⟩ := draw_step_wf w s hw hs
    rw [hd] at hd1
    obtain ⟨h1, h2⟩ := Prod.mk.inj (Option.some.inj hd1)
    rw [h1, h2]
    obtain ⟨q, g2, _, hg2, hd2, ho2, _, _⟩ := draw_step_spec w1 s1 hw1 hs1w
    have hio : s1.in_ = s1.out := by rw [← h2]
    rw [hio] at hg2 ho2
    exact ⟨_, _, g2, hd2, ho2, hg2, rfl, rfl, rfl⟩

theorem draw_step_entry_follows_exit_witness :
    WFWorld (start_world 10 10 {} [19, 1, 19, 0]) ∧
    WFState (start_world 10 10 {} [19, 1, 19, 0]) { x := 5, y := 5 } ∧
    ∃ w1 s1, draw_step (start_world 10 10 {} [19, 1, 19, 0]) { x := 5, y := 5 } = some (w1, s1) ∧
      s1.in_ = s1.out ∧
      (s1.x, s1.y) = advance s1.out 5 5 ∧
      (s1.out = Direction.UP → s1.x = 5 ∧ s1.y = 5 - 1) ∧
      (s1.out = Direction.DOWN → s1.x = 5 ∧ s1.y = 5 + 1) ∧
      (s1.out = Direction.LEFT → s1.x = 5 - 1 ∧ s1.y = 5) ∧
      (s1.out = Direction.RIGHT → s1.x = 5 + 1 ∧ s1.y = 5) ∧
      ∃ w2 s2 g, draw_step w1 s1 = some (w2, s2) ∧
        (s2.out = s1.out ∨ s2.out = turn_left s1.out ∨ s2.out = turn_right s1.out) ∧
        lookup_glyph w1 s2.typeIndex (idx_from s1.out s2.out) = some g ∧
        w2.cout = w1.cout ++
          [Out.glyph s1.x s1.y (ansi_color w1.cfg s2.colorIndex) g (ansi_reset w1.cfg)] ∧
        s2.in_ = s2.out ∧ (s2.x, s2.y) = advance s2.out s1.x s1.y :=
  ⟨by decide, by decide,
    draw_step_entry_follows_exit (start_world 10 10 {} [19, 1, 19, 0]) { x := 5, y := 5 }
      (by decide) (by decide)⟩

/-! ### The edge policy -/

/-- C4, the claim as stated fails on a grid one cell wide: at `(0,0)` facing UP on a
`1 × 3` grid with keep-on-edge disabled, neither turn stays on the grid, the step
continues straight and the pipe ends at `(0,-1)`. -/
theorem draw_step_leaves_narrow_grid :
    WFWorld (start_world 1 3 {} [0]) ∧
    WFState (start_world 1 3 {} [0]) { x := 0, y := 0, in_ := Direction.UP } ∧
    in_bounds (start_world 1 3 {} [0]) 0 0 ∧
    (start_world 1 3 {} [0]).cfg.keepOnEdge = false ∧
    (draw_step (start_world 1 3 {} [0]) { x := 0, y := 0, in_ := Direction.UP }).map
      (fun r => (r.2.x, r.2.y)) = some (0, -1) ∧
    ¬ in_bounds (start_world 1 3 {} [0]) 0 (-1) := by
  decide

/-- C4 (amended). On every grid at least two cells wide and two cells high, for
every well-formed pipe inside `[0,W) × [0,H)` and every outcome of the random
draws, with keep-on-edge disabled the step returns and the position after it lies
inside `[0,W) × [0,H)`. -/
theorem draw_step_stays_on_grid (w : World) (s : State) (hw : WFWorld w) (hs : WFState w s)
    (hW : 2 ≤ w.W) (hH : 2 ≤ w.H) (hb : in_bounds w s.x s.y)
    (hk : w.cfg.keepOnEdge = false) :
    ∃ w1 s1, draw_step w s = some (w1, s1) ∧ w1.cfg.keepOnEdge = false ∧
      in_bounds w s1.x s1.y ∧ in_bounds w1 s1.x s1.y := by
  obtain ⟨w1, s1, hd, hb1⟩ := draw_step_in_bounds w s hw hs hW hH hb
  obtain ⟨w2, s2, hd2, _, _, ht, _⟩ := draw_step_wf w s hw hs
  rw [hd] at hd2
  obtain ⟨h1, _⟩ := Prod.mk.inj (Option.some.inj hd2)
  obtain ⟨hW2, hH2, hc2, _⟩ := ht
  refine ⟨w1, s1, hd, ?_, hb1, ?_⟩
  · rw [h1, hc2]; exact hk
  · unfold in_bounds at hb1 ⊢
    rw [h1, hW2, hH2]; exact hb1

theorem draw_step_stays_on_grid_witness :
    WFWorld (start_world 3 3 {} [0, 3, 1, 1]) ∧
    WFState (start_world 3 3 {} [0, 3, 1, 1]) { x := 2, y := 1 } ∧
    (2 : Int) ≤ (start_world 3 3 {} [0, 3, 1, 1]).W ∧
    (2 : Int) ≤ (start_world 3 3 {} [0, 3, 1, 1]).H ∧
    in_bounds (start_world 3 3 {} [0, 3, 1, 1]) 2 1 ∧
    ∃ w1 s1, draw_step (start_world 3 3 {} [0, 3, 1, 1]) { x := 2, y := 1 } = some (w1, s1) ∧
      w1.cfg.keepOnEdge = false ∧
      in_bounds (start_world 3 3 {} [0, 3, 1, 1]) s1.x s1.y ∧ in_bounds w1 s1.x s1.y :=
  ⟨by decide, by decide, by decide, by decide, by decide,
    draw_step_stays_on_grid (start_world 3 3 {} [0, 3, 1, 1]) { x := 2, y := 1 }
      (by decide) (by decide) (by decide) (by decide) (by decide) (by decide)⟩

/-- C5. Edge re-decision: whenever moving one cell in the tentative exit direction
would leave the grid, the final exit of the step is (a) the left or the right turn,
selected by the coin draw `rnd(2)` made after the recolouring draws (non-zero: left),
when both turns stay in bounds, (b) the single in-bounds turn when exactly one
stays in bounds, and (c) the entry direction only when neither does.  In particular
on a 3x3 grid a pipe at `(2,1)` with entry RIGHT and keep-on-edge disabled exits UP
or DOWN for every outcome of the draws, never RIGHT. -/
theorem edge_redecision (w : World) (s : State) (hw : WFWorld w) (hs : WFState w s) :
    ∃ w1 s1, draw_step w s = some (w1, s1) ∧
      (would_exit w s (tentative w s).1.out = true →
        (would_exit w s (turn_left s.in_) = false → would_exit w s (turn_right s.in_) = false →
          s1.out =
            if Int.tmod (w.rand ((tentative w s).2.randPos +
                if w.cfg.keepOnEdge then 0 else 2)) 2 ≠ 0
            then turn_left s.in_ else turn_right s.in_) ∧
        (would_exit w s (turn_left s.in_) = false → would_exit w s (turn_right s.in_) = true →
          s1.out = turn_left s.in_) ∧
        (would_exit w s (turn_left s.in_) = true → would_exit w s (turn_right s.in_) = false →
          s1.out = turn_right s.in_) ∧
        (would_exit w s (turn_left s.in_) = true → would_exit w s (turn_right s.in_) = true →
          s1.out = s.in_)) ∧
      (w.W = 3 → w.H = 3 → s.x = 2 → s.y = 1 → s.in_ = Direction.RIGHT →
        w.cfg.keepOnEdge = false →
        (s1.out = Direction.UP ∨ s1.out = Direction.DOWN) ∧ s1.out ≠ Direction.RIGHT) := by
  obtain ⟨w1, s1, hd, _, hin, hout⟩ := draw_step_out w s hw hs
  refine ⟨w1, s1, hd, ?_, ?_⟩
  · intro h
    have ho := hout h
    refine ⟨?_, ?_, ?_, ?_⟩ <;> intro hl hr <;> rw [ho, hl, hr] <;> simp [redecided]
  · intro hW hH hx hy hi _
    have hL : would_exit w s (turn_left s.in_) = false := by
      rw [hi]; simp [would_exit, turn_left, Direction.toNat, Direction.cast, hW, hH, hx, hy]
    have hR : would_exit w s (turn_right s.in_) = false := by
      rw [hi]; simp [would_exit, turn_right, Direction.toNat, Direction.cast, hW, hH, hx, hy]
    have hl : turn_left s.in_ = Direction.UP := by rw [hi]; rfl
    have hr : turn_right s.in_ = Direction.DOWN := by rw [hi]; rfl
    have key : s1.out = Direction.UP ∨ s1.out = Direction.DOWN := by
      cases h : would_exit w s (tentative w s).1.out
      · have ho := hin h
        rcases (tentative_fst w s).2 with ht | ht | ht
        · rw [ht, hi] at h
          simp [would_exit, hW, hH, hx, hy] at h
        · left; rw [ho, ht, hl]
        · right; rw [ho, ht, hr]
      · have ho := hout h
        rw [hL, hR] at ho
        simp only [redecided, Bool.not_false, Bool.and_self, if_true] at ho
        rw [hl, hr] at ho
        by_cases hc : Int.tmod (w.rand ((tentative w s).2.randPos +
            if w.cfg.keepOnEdge then 0 else 2)) 2 ≠ 0
        · left; rw [ho, if_pos hc]
        · right; rw [ho, if_neg hc]
    refine ⟨key, ?_⟩
    rcases key with h | h <;> rw [h] <;> decide

theorem edge_redecision_witness :
    WFWorld (start_world 3 3 {} [0, 3, 1, 1]) ∧
    WFState (start_world 3 3 {} [0, 3, 1, 1]) { x := 2, y := 1 } ∧
    would_exit (start_world 3 3 {} [0, 3, 1, 1]) { x := 2, y := 1 }
      (tentative (start_world 3 3 {} [0, 3, 1, 1]) { x := 2, y := 1 }).1.out = true ∧
    would_exit (start_world 3 3 {} [0, 3, 1, 1]) { x := 2, y := 1 }
      (turn_left Direction.RIGHT) = false ∧
    would_exit (start_world 3 3 {} [0, 3, 1, 1]) { x := 2, y := 1 }
      (turn_right Direction.RIGHT) = false ∧
    (draw_step (start_world 3 3 {} [0, 3, 1, 1]) { x := 2, y := 1 }).map (fun r => r.2.out)
      = some Direction.UP ∧
    ∃ w1 s1, draw_step (start_world 3 3 {} [0, 3, 1, 1]) { x := 2, y := 1 } = some (w1, s1) ∧
      s1.out ≠ Direction.RIGHT :=
  ⟨by decide, by decide, by decide, by decide, by decide, by decide,
    (edge_redecision (start_world 3 3 {} [0, 3, 1, 1]) { x := 2, y := 1 }
      (by decide) (by decide)).elim fun w1 h => h.elim fun s1 h =>
        ⟨w1, s1, h.1, (h.2.2 rfl rfl rfl rfl rfl rfl).2⟩⟩

/-- C6, the claim as stated fails on `main.cpp`: on a 3x3 grid the pipe at `(2,1)`
facing RIGHT in colour 1 hits the east edge with keep-on-edge disabled; the draw
`palette[3] = 4` is assigned to `colorIndex` before the glyph is written, so the
glyph of that same step, at the vacated cell `(2,1)`, already comes out in colour 4. -/
theorem recolour_shows_in_same_step :
    would_exit (start_world 3 3 {} [0, 3, 1, 1]) { x := 2, y := 1 }
      (tentative (start_world 3 3 {} [0, 3, 1, 1]) { x := 2, y := 1 }).1.out = true ∧
    (start_world 3 3 {} [0, 3, 1, 1]).cfg.keepOnEdge = false ∧
    ({ x := 2, y := 1 } : State).colorIndex = 1 ∧
    (draw_step (start_world 3 3 {} [0, 3, 1, 1]) { x := 2, y := 1 }).map (fun r => r.1.cout)
      = some [Out.glyph 2 1 (ansi_color {} 4) "┛" (ansi_reset {})] ∧
    ansi_color {} 4 ≠ ansi_color {} 1 := by
  decide

/-- C6 (amended). In `draw_step` of `main.cpp`, for every step of a well-formed pipe
in which the tentative exit would leave the grid and keep-on-edge is disabled, the
colour/type randomisation is applied at once: the glyph written in that same step,
at the cell being vacated, is drawn in the newly drawn colour
`palette[rnd(palette.size())]` from the glyph set of the newly drawn type index
`rnd(activeTypes.size())`, and these are the pipe's colour and type after the step. -/
theorem recolour_is_immediate (w : World) (s : State) (hw : WFWorld w) (hs : WFState w s)
    (hexit : would_exit w s (tentative w s).1.out = true)
    (hk : w.cfg.keepOnEdge = false) :
    ∃ w1 s1 g, draw_step w s = some (w1, s1) ∧
      index w.palette (Int.tmod (w.rand (tentative w s).2.randPos) w.palette.length)
        = some s1.colorIndex ∧
      s1.typeIndex = Int.tmod (w.rand ((tentative w s).2.randPos + 1)) w.activeTypes.length ∧
      lookup_glyph w s1.typeIndex (idx_from s.in_ s1.out) = some g ∧
      w1.cout = w.cout ++
        [Out.glyph s.x s.y (ansi_color w.cfg s1.colorIndex) g (ansi_reset w.cfg)] := by
  obtain ⟨w1, s1, g, hd, hg, hc, hnew, _⟩ := draw_step_colour w s hw hs
  exact ⟨w1, s1, g, hd, (hnew hexit hk).1, (hnew hexit hk).2, hg, hc⟩

theorem recolour_is_immediate_witness :
    WFWorld (start_world 3 3 {} [0, 3, 1, 1]) ∧
    WFState (start_world 3 3 {} [0, 3, 1, 1]) { x := 2, y := 1 } ∧
    ∃ w1 s1 g, draw_step (start_world 3 3 {} [0, 3, 1, 1]) { x := 2, y := 1 } = some (w1, s1) ∧
      index (start_world 3 3 {} [0, 3, 1, 1]).palette
        (Int.tmod ((start_world 3 3 {} [0, 3, 1, 1]).rand
          (tentative (start_world 3 3 {} [0, 3, 1, 1]) { x := 2, y := 1 }).2.randPos)
          (start_world 3 3 {} [0, 3, 1, 1]).palette.length) = some s1.colorIndex ∧
      s1.typeIndex = Int.tmod ((start_world 3 3 {} [0, 3, 1, 1]).rand
          ((tentative (start_world 3 3 {} [0, 3, 1, 1]) { x := 2, y := 1 }).2.randPos + 1))
          (start_world 3 3 {} [0, 3, 1, 1]).activeTypes.length ∧
      lookup_glyph (start_world 3 3 {} [0, 3, 1, 1]) s1.typeIndex
        (idx_from Direction.RIGHT s1.out) = some g ∧
      w1.cout = [] ++ [Out.glyph 2 1 (ansi_color {} s1.colorIndex) g (ansi_reset {})] :=
  ⟨by decide, by decide,
    recolour_is_immediate (start_world 3 3 {} [0, 3, 1, 1]) { x := 2, y := 1 }
      (by decide) (by decide) (by decide) (by decide)⟩

/-- C7, the claim as stated fails: with keep-on-edge enabled on a 3x3 grid, the pipe
at `(2,1)` facing RIGHT has the tentative exit RIGHT, which leaves the grid; the
step still re-decides, exits UP and ends on the grid at `(2,0)`. -/
theorem keep_on_edge_still_turns :
    (start_world 3 3 { keepOnEdge := true } [0, 1]).cfg.keepOnEdge = true ∧
    in_bounds (start_world 3 3 { keepOnEdge := true } [0, 1]) 2 1 ∧
    (tentative (start_world 3 3 { keepOnEdge := true } [0, 1]) { x := 2, y := 1 }).1.out
      = Direction.RIGHT ∧
    would_exit (start_world 3 3 { keepOnEdge := true } [0, 1]) { x := 2, y := 1 }
      Direction.RIGHT = true ∧
    (draw_step (start_world 3 3 { keepOnEdge := true } [0, 1]) { x := 2, y := 1 }).map
      (fun r => (r.2.out, r.2.x, r.2.y)) = some (Direction.UP, 2, 0) ∧
    in_bounds (start_world 3 3 { keepOnEdge := true } [0, 1]) 2 0 := by
  decide

/-- C7 (amended). With keep-on-edge enabled the direction is still re-decided: for
every well-formed pipe whose tentative exit would leave the grid, the exit of the
step is the four-way choice of the edge check (both turns in bounds: the coin,
drawn right after the tentative draws; one in bounds: that turn; none: straight),
so on a grid at least two cells wide and high an in-bounds pipe stays on the grid.
What keep-on-edge switches off is the recolouring: the pipe keeps its colour index
and type index, and the glyph of the step is drawn with them. -/
theorem keep_on_edge_keeps_colour (w : World) (s : State) (hw : WFWorld w) (hs : WFState w s)
    (hexit : would_exit w s (tentative w s).1.out = true)
    (hk : w.cfg.keepOnEdge = true) :
    ∃ w1 s1 g, draw_step w s = some (w1, s1) ∧
      s1.out =
        redecided (!would_exit w s (turn_left s.in_)) (!would_exit w s (turn_right s.in_))
          (Int.tmod (w.rand (tentative w s).2.randPos) 2) s.in_ ∧
      (2 ≤ w.W → 2 ≤ w.H → in_bounds w s.x s.y → in_bounds w s1.x s1.y) ∧
      s1.colorIndex = s.colorIndex ∧ s1.typeIndex = s.typeIndex ∧
      lookup_glyph w s.typeIndex (idx_from s.in_ s1.out) = some g ∧
      w1.cout = w.cout ++
        [Out.glyph s.x s.y (ansi_color w.cfg s.colorIndex) g (ansi_reset w.cfg)] := by
  obtain ⟨w1, s1, g, hd, hg, hc, _, hsame⟩ := draw_step_colour w s hw hs
  obtain ⟨w2, s2, hd2, _, _, hout⟩ := draw_step_out w s hw hs
  rw [hd] at hd2
  obtain ⟨_, h2⟩ := Prod.mk.inj (Option.some.inj hd2)
  rw [← h2] at hout
  obtain ⟨hci, hti⟩ := hsame (Or.inr hk)
  have ho := hout hexit
  rw [hk] at ho
  simp only [if_true, Nat.add_zero] at ho
  rw [hci] at hc
  rw [hti] at hg
  refine ⟨w1, s1, g, hd, ho, ?_, hci, hti, hg, hc⟩
  · intro hW hH hb
    obtain ⟨w3, s3, hd3, hb3⟩ := draw_step_in_bounds w s hw hs hW hH hb
    rw [hd] at hd3
    obtain ⟨_, h3⟩ := Prod.mk.inj (Option.some.inj hd3)
    rw [h3]; exact hb3

theorem keep_on_edge_keeps_colour_witness :
    WFWorld (start_world 3 3 { keepOnEdge := true } [0, 1]) ∧
    WFState (start_world 3 3 { keepOnEdge := true } [0, 1]) { x := 2, y := 1 } ∧
    ∃ w1 s1 g,
      draw_step (start_world 3 3 { keepOnEdge := true } [0, 1]) { x := 2, y := 1 }
        = some (w1, s1) ∧
      s1.out =
        redecided
          (!would_exit (start_world 3 3 { keepOnEdge := true } [0, 1]) { x := 2, y := 1 }
            (turn_left Direction.RIGHT))
          (!would_exit (start_world 3 3 { keepOnEdge := true } [0, 1]) { x := 2, y := 1 }
            (turn_right Direction.RIGHT))
          (Int.tmod ((start_world 3 3 { keepOnEdge := true } [0, 1]).rand
            (tentative (start_world 3 3 { keepOnEdge := true } [0, 1])
              { x := 2, y := 1 }).2.randPos) 2) Direction.RIGHT ∧
      ((2 : Int) ≤ 3 → (2 : Int) ≤ 3 →
        in_bounds (start_world 3 3 { keepOnEdge := true } [0, 1]) 2 1 →
        in_bounds (start_world 3 3 { keepOnEdge := true } [0, 1]) s1.x s1.y) ∧
      s1.colorIndex = 1 ∧ s1.typeIndex = 0 ∧
      lookup_glyph (start_world 3 3 { keepOnEdge := true } [0, 1]) 0
        (idx_from Direction.RIGHT s1.out) = some g ∧
      w1.cout = [] ++
        [Out.glyph 2 1 (ansi_color { keepOnEdge := true } 1) g
          (ansi_reset { keepOnEdge := true })] :=
  ⟨by decide, by decide,
    keep_on_edge_keeps_colour (start_world 3 3 { keepOnEdge := true } [0, 1]) { x := 2, y := 1 }
      (by decide) (by decide) (by decide) (by decide)⟩

/-! ### Straight runs -/

theorem advance_eq_delta (d : Direction) (x y : Int) :
    advance d x y = (x + (delta d).1, y + (delta d).2) := by
  cases d <;> simp [advance, delta] <;> rfl

theorem straight_trail_succ (x y : Int) (d : Direction) (color g reset : String) (n : Nat) :
    straight_trail x y d color g reset (n + 1) =
      Out.glyph x y color g reset ::
        straight_trail (x + (delta d).1) (y + (delta d).2) d color g reset n := by
  unfold straight_trail
  rw [List.range_succ_eq_map, List.map_cons, List.map_map]
  congr 1
  · simp
  · apply List.map_congr_left
    intro k _
    simp only [Function.comp, Nat.succ_eq_add_one]
    congr 1 <;> (push_cast; ring)

/-- One step that draws "straight" and does not meet the edge. -/
theorem draw_step_straight (w : World) (s : State) (g : String)
    (hr : Int.tmod (w.rand w.randPos) 20 < w.cfg.straight)
    (hin : would_exit w s s.in_ = false)
    (hg : lookup_glyph w s.typeIndex (straight_code s.in_) = some g) :
    draw_step w s = some
      ({ w with
          randPos := w.randPos + 1,
          cout := w.cout ++
            [Out.glyph s.x s.y (ansi_color w.cfg s.colorIndex) g (ansi_reset w.cfg)],
          drawn := w.drawn + 1 },
       { s with out := s.in_, x := s.x + (delta s.in_).1, y := s.y + (delta s.in_).2 }) := by
  have ht : tentative w s = ({ s with out := s.in_ }, { w with randPos := w.randPos + 1 }) := by
    unfold tentative
    dsimp only
    rw [if_neg (by omega)]
  have hcode : idx_from s.in_ s.in_ = straight_code s.in_ := by
    cases s.in_ <;> rfl
  rw [draw_step_phases, ht]
  dsimp only
  rw [edge_block_inside _ _ (by rw [← hin]; rfl)]
  simp only [Option.bind]
  rw [emit_move_eq _ _ g (by rw [← hg, ← hcode]; rfl)]
  simp [advance_eq_delta]

/-- A straight run as output events: `n` steps whose turn draws are all below the
threshold, over cells that are in bounds, write one glyph event per vacated cell
and move the pipe `n` cells along its entry direction. -/
theorem straight_run_events (n : Nat) (w : World) (s : State) (g : String)
    (hcells : ∀ k : Nat, k ≤ n → in_bounds w (s.x + k * (delta s.in_).1) (s.y + k * (delta s.in_).2))
    (hdraws : ∀ k : Nat, k < n → Int.tmod (w.rand (w.randPos + k)) 20 < w.cfg.straight)
    (hg : lookup_glyph w s.typeIndex (straight_code s.in_) = some g) :
    ∃ w1 s1, draw_steps w s n = some (w1, s1) ∧
      s1.x = s.x + n * (delta s.in_).1 ∧ s1.y = s.y + n * (delta s.in_).2 ∧
      s1.in_ = s.in_ ∧ s1.colorIndex = s.colorIndex ∧ s1.typeIndex = s.typeIndex ∧
      w1.cout = w.cout ++
        straight_trail s.x s.y s.in_ (ansi_color w.cfg s.colorIndex) g (ansi_reset w.cfg) n ∧
      w1.randPos = w.randPos + n ∧ w1.drawn = w.drawn + n ∧ same_tables w w1 := by
  induction n generalizing w s with
  | zero =>
    exact ⟨w, s, rfl, by simp, by simp, rfl, rfl, rfl, by simp [straight_trail], rfl,
      by simp, ⟨rfl, rfl, rfl, rfl, rfl, rfl, rfl⟩⟩
  | succ n ih =>
    have h1 := hcells 1 (by omega)
    have hexit : would_exit w s s.in_ = false := by
      rw [would_exit_eq_false_iff, advance_eq_delta]
      simpa using h1
    have hstep := draw_step_straight w s g (by simpa using hdraws 0 (by omega)) hexit hg
    obtain ⟨w1, s1, hrun, hx, hy, hi, hc, ht, hout, hpos, hdr, htab⟩ :=
      ih { w with
            randPos := w.randPos + 1,
            cout := w.cout ++
              [Out.glyph s.x s.y (ansi_color w.cfg s.colorIndex) g (ansi_reset w.cfg)],
            drawn := w.drawn + 1 }
         { s with out := s.in_, x := s.x + (delta s.in_).1, y := s.y + (delta s.in_).2 }
         (by
           intro k hk
           have hk1 := hcells (k + 1) (by omega)
           have ex : s.x + (delta s.in_).1 + (k : Int) * (delta s.in_).1
               = s.x + ((k + 1 : Nat) : Int) * (delta s.in_).1 := by push_cast; ring
           have ey : s.y + (delta s.in_).2 + (k : Int) * (delta s.in_).2
               = s.y + ((k + 1 : Nat) : Int) * (delta s.in_).2 := by push_cast; ring
           unfold in_bounds at hk1 ⊢
           dsimp only
           rw [ex, ey]
           exact hk1)
         (by
           intro k hk
           have := hdraws (k + 1) (by omega)
           dsimp only
           rw [Nat.add_assoc, Nat.add_comm 1 k]
           exact this)
         hg
    dsimp only at hx hy hi hc ht hout hpos hdr
    obtain ⟨t1, t2, t3, t4, t5, t6, t7⟩ := htab
    refine ⟨w1, s1, ?_, ?_, ?_, hi, hc, ht, ?_, ?_, ?_, ⟨t1, t2, t3, t4, t5, t6, t7⟩⟩
    · simp only [draw_steps, hstep, bind, Option.bind]
      exact hrun
    · rw [hx]; push_cast; ring
    · rw [hy]; push_cast; ring
    · rw [hout, List.append_assoc, straight_trail_succ]
      rfl
    · rw [hpos]; omega
    · rw [hdr]; push_cast; ring

/-- The characters a glyph event puts on `cout`: the cursor-position escape of
`Term::mv` for the cell (row `y+1`, then column `x+1`), the colour escape, the
glyph and the reset. -/
theorem glyph_bytes (x y : Int) (color g reset : String) :
    Out.bytes (Out.glyph x y color g reset) =
      "\x1b[" ++ toString (y + 1) ++ ";" ++ toString (x + 1) ++ "H" ++ color ++ g ++ reset :=
  rfl

/-- C8. Straight run: for every grid, direction `d`, `n` and pipe with entry
direction `d` whose cell and the `n` cells ahead of it along `d` are in bounds, `n`
consecutive steps in which every turn draw `rnd(20)` is below the straight
threshold move the pipe exactly `n` cells along `d`; the `k`-th step writes, at the
`k`-th vacated cell, the glyph at the straight-through code of `d` (1 UP, 6 RIGHT,
11 DOWN, 16 LEFT) of the pipe's unchanged glyph set in its unchanged colour, and
each step consumes exactly one draw.  The characters the `k`-th step puts on
`cout` are the cursor move `ESC [ row ; column H` to the `k`-th vacated cell
(one-based, row first), then the colour escape, the glyph and the reset. -/
theorem straight_run (n : Nat) (w : World) (s : State) (g : String)
    (hcells : ∀ k : Nat, k ≤ n → in_bounds w (s.x + k * (delta s.in_).1) (s.y + k * (delta s.in_).2))
    (hdraws : ∀ k : Nat, k < n → Int.tmod (w.rand (w.randPos + k)) 20 < w.cfg.straight)
    (hg : lookup_glyph w s.typeIndex (straight_code s.in_) = some g) :
    ∃ w1 s1, draw_steps w s n = some (w1, s1) ∧
      s1.x = s.x + n * (delta s.in_).1 ∧ s1.y = s.y + n * (delta s.in_).2 ∧
      s1.in_ = s.in_ ∧ s1.colorIndex = s.colorIndex ∧ s1.typeIndex = s.typeIndex ∧
      w1.cout = w.cout ++
        straight_trail s.x s.y s.in_ (ansi_color w.cfg s.colorIndex) g (ansi_reset w.cfg) n ∧
      w1.randPos = w.randPos + n ∧ w1.drawn = w.drawn + n ∧ same_tables w w1 ∧
      (w1.cout.drop w.cout.length).map Out.bytes =
        (List.range n).map (fun (k : Nat) =>
          "\x1b[" ++ toString (s.y + (k : Int) * (delta s.in_).2 + 1) ++ ";" ++
            toString (s.x + (k : Int) * (delta s.in_).1 + 1) ++ "H" ++
            ansi_color w.cfg s.colorIndex ++ g ++ ansi_reset w.cfg) := by
  obtain ⟨w1, s1, hrun, hx, hy, hi, hc, ht, hout, hpos, hdr, htab⟩ :=
    straight_run_events n w s g hcells hdraws hg
  refine ⟨w1, s1, hrun, hx, hy, hi, hc, ht, hout, hpos, hdr, htab, ?_⟩
  rw [hout, List.drop_left]
  unfold straight_trail
  rw [List.map_map]
  apply List.map_congr_left
  intro k _
  exact glyph_bytes _ _ _ _ _

theorem straight_run_witness :
    (∀ k : Nat, k ≤ 4 →
      in_bounds (start_world 10 10 {} []) ((5 : Int) + k * (delta Direction.RIGHT).1)
        ((5 : Int) + k * (delta Direction.RIGHT).2)) ∧
    (∀ k : Nat, k < 4 →
      Int.tmod ((start_world 10 10 {} []).rand ((start_world 10 10 {} []).randPos + k)) 20
        < (start_world 10 10 {} []).cfg.straight) ∧
    lookup_glyph (start_world 10 10 {} []) 0 (straight_code Direction.RIGHT) = some "━" ∧
    (draw_steps (start_world 10 10 {} []) { x := 5, y := 5 } 4).map
        (fun r => (r.2.x, r.2.y, r.1.cout))
      = some (9, 5,
          [Out.glyph 5 5 "\x1b[91m" "━" "\x1b[0m", Out.glyph 6 5 "\x1b[91m" "━" "\x1b[0m",
           Out.glyph 7 5 "\x1b[91m" "━" "\x1b[0m", Out.glyph 8 5 "\x1b[91m" "━" "\x1b[0m"]) ∧
    (draw_steps (start_world 10 10 {} []) { x := 5, y := 5 } 4).map
        (fun r => r.1.cout.map Out.bytes)
      = some ["\x1b[6;6H\x1b[91m━\x1b[0m", "\x1b[6;7H\x1b[91m━\x1b[0m",
              "\x1b[6;8H\x1b[91m━\x1b[0m", "\x1b[6;9H\x1b[91m━\x1b[0m"] ∧
    ∃ w1 s1, draw_steps (start_world 10 10 {} []) { x := 5, y := 5 } 4 = some (w1, s1) ∧
      s1.x = 5 + (4 : Nat) * (delta Direction.RIGHT).1 ∧
      s1.y = 5 + (4 : Nat) * (delta Direction.RIGHT).2 ∧
      s1.in_ = Direction.RIGHT ∧ s1.colorIndex = 1 ∧ s1.typeIndex = 0 ∧
      w1.cout = [] ++
        straight_trail 5 5 Direction.RIGHT (ansi_color {} 1) "━" (ansi_reset {}) 4 ∧
      w1.randPos = 0 + 4 ∧ w1.drawn = 0 + (4 : Nat) ∧
      same_tables (start_world 10 10 {} []) w1 ∧
      (w1.cout.drop ([] : List Out).length).map Out.bytes =
        (List.range 4).map (fun (k : Nat) =>
          "\x1b[" ++ toString ((5 : Int) + (k : Int) * (delta Direction.RIGHT).2 + 1) ++ ";" ++
            toString ((5 : Int) + (k : Int) * (delta Direction.RIGHT).1 + 1) ++ "H" ++
            ansi_color {} 1 ++ "━" ++ ansi_reset {}) :=
  have hc : ∀ k : Nat, k ≤ 4 →
      in_bounds (start_world 10 10 {} []) ((5 : Int) + k * (delta Direction.RIGHT).1)
        ((5 : Int) + k * (delta Direction.RIGHT).2) := by
    intro k hk
    simp only [in_bounds, start_world, delta]
    omega
  have hd : ∀ k : Nat, k < 4 →
      Int.tmod ((start_world 10 10 {} []).rand ((start_world 10 10 {} []).randPos + k)) 20
        < (start_world 10 10 {} []).cfg.straight := by
    intro k _
    simp [start_world, stream]
  ⟨hc, hd, by decide, by decide, by decide,
    straight_run 4 (start_world 10 10 {} []) { x := 5, y := 5 } "━" hc hd (by decide)⟩

/-! ### The draw-count limit -/

theorem handle_keys_once_limit (cfg : Config) (pending : Option Int) :
    (handle_keys_once cfg pending).2.limit = cfg.limit ∧
    (0 < cfg.fps → 0 < (handle_keys_once cfg pending).2.fps) := by
  unfold handle_keys_once
  cases pending with
  | none => exact ⟨rfl, id⟩
  | some ch =>
    dsimp only
    split_ifs <;> refine ⟨rfl, ?_⟩ <;> intro h <;> dsimp only <;> omega

/-- One pipe of the `for` loop: a step and the limit check keep the bookkeeping. -/
theorem limit_check_counted (L : Int) (base : Nat) (w w1 : World) (lr : Int)
    (hc : Counted L base w lr) (htab : same_tables w w1) (hd : w1.drawn = w.drawn + 1)
    (hcl : clears w1 = clears w) :
    Counted L base (limit_check w1 lr).1 (limit_check w1 lr).2 ∧
    same_tables w (limit_check w1 lr).1 ∧ (limit_check w1 lr).1.drawn = w.drawn + 1 := by
  obtain ⟨hl, q, hq, hclq, hpos, hneg⟩ := hc
  obtain ⟨t1, t2, t3, t4, t5, t6, t7⟩ := htab
  have hl1 : w1.cfg.limit = L := by rw [t3, hl]
  unfold limit_check
  rw [hl1]
  split
  · rename_i h
    obtain ⟨hL, hge⟩ := h
    obtain ⟨h1, h2⟩ := hpos hL
    refine ⟨⟨hl1, q + 1, ?_, ?_, ?_, ?_⟩, ⟨t1, t2, t3, t4, t5, t6, t7⟩, hd⟩
    · dsimp only
      push_cast
      have : L * (q : Int) + L = L * ((q : Int) + 1) := by ring
      rw [← this]
      omega
    · simp only [clears, List.count_append] at hcl hclq ⊢
      rw [hcl, hclq]
      simp [Nat.add_assoc]
    · intro _
      dsimp only
      omega
    · intro h0
      omega
  · rename_i h
    refine ⟨⟨hl1, q, hq, by rw [hcl, hclq], ?_, hneg⟩, ⟨t1, t2, t3, t4, t5, t6, t7⟩, hd⟩
    intro hL
    obtain ⟨h1, h2⟩ := hpos hL
    dsimp only
    have : ¬ (w1.drawn - lr ≥ L) := fun hge => h ⟨hL, hge⟩
    omega

theorem WFState_of_tables {w w1 : World} (h : same_tables w w1) (s : State) :
    WFState w1 s ↔ WFState w s := by
  unfold WFState
  rw [h.2.2.2.2.1]

theorem WFWorld_of_tables {w w1 : World} (h : same_tables w w1) :
    WFWorld w1 ↔ WFWorld w := by
  unfold WFWorld
  rw [h.2.2.2.2.1, h.2.2.2.1, h.2.2.2.2.2.1]

theorem same_tables_trans {a b c : World} (h1 : same_tables a b) (h2 : same_tables b c) :
    same_tables a c := by
  obtain ⟨a1, a2, a3, a4, a5, a6, a7⟩ := h1
  obtain ⟨b1, b2, b3, b4, b5, b6, b7⟩ := h2
  exact ⟨b1.trans a1, b2.trans a2, b3.trans a3, b4.trans a4, b5.trans a5, b6.trans a6,
    b7.trans a7⟩

/-- The `for` loop over the pipes returns, steps every pipe once and keeps the
bookkeeping of the limit. -/
theorem pipes_loop_counted (L : Int) (base : Nat) (S : List State) (w : World) (lr : Int)
    (hw : WFWorld w) (hS : WFStates w S) (hc : Counted L base w lr) :
    ∃ w1 lr1 S1, pipes_loop w lr S = some (w1, lr1, S1) ∧
      Counted L base w1 lr1 ∧ same_tables w w1 ∧ w1.drawn = w.drawn + S.length ∧
      WFStates w1 S1 ∧ S1.length = S.length := by
  induction S generalizing w lr with
  | nil =>
    exact ⟨w, lr, [], rfl, hc, ⟨rfl, rfl, rfl, rfl, rfl, rfl, rfl⟩, by simp,
      fun _ h => absurd h (List.not_mem_nil _), rfl⟩
  | cons s rest ih =>
    obtain ⟨w1, s1, hd, hw1, hs1, htab, hdr, hcl⟩ :=
      draw_step_wf w s hw (hS s (List.mem_cons_self _ _))
    obtain ⟨hc2, htab2, hdr2⟩ := limit_check_counted L base w w1 lr hc htab hdr hcl
    have hw2 : WFWorld (limit_check w1 lr).1 := (WFWorld_of_tables htab2).2 hw
    have hrest : WFStates (limit_check w1 lr).1 rest := fun t ht =>
      (WFState_of_tables htab2 t).2 (hS t (List.mem_cons_of_mem _ ht))
    obtain ⟨w3, lr3, S3, hp, hc3, htab3, hdr3, hS3, hlen⟩ :=
      ih (limit_check w1 lr).1 (limit_check w1 lr).2 hw2 hrest hc2
    have htab13 : same_tables w w3 := same_tables_trans htab2 htab3
    obtain ⟨ty, hty, hmem⟩ := index_some w.activeTypes s.typeIndex
      (hS s (List.mem_cons_self _ _)).1 (hS s (List.mem_cons_self _ _)).2
    obtain ⟨pt, hpt, _⟩ := index_some w.T ty (hw.2.2.1 ty hmem).1 (hw.2.2.1 ty hmem).2
    refine ⟨w3, lr3, s1 :: S3, ?_, hc3, htab13, ?_, ?_, ?_⟩
    · simp only [pipes_loop, hty, hpt, hd, hp, bind, Option.bind, pure]
    · rw [hdr3, hdr2]; simp only [List.length_cons]; push_cast; ring
    · intro t ht
      rcases List.mem_cons.1 ht with h | h
      · rw [h]
        exact (WFState_of_tables htab13 s1).2 ((WFState_of_tables htab s1).1 hs1)
      · exact hS3 t h
    · simp [hlen]

/-- The resize handling at the top of a tick: one more clear when a resize was
pending, and nothing else that the limit bookkeeping depends on. -/
theorem resize_counted (L : Int) (base : Nat) (l : Loop) (r : Option (Int × Int))
    (hw : WFWorld l.w) (hS : WFStates l.w l.S) (hc : Counted L base l.w l.last_reset) :
    WFWorld (checkResize l.w r).2 ∧ WFStates (checkResize l.w r).2 (tick_pipes l r) ∧
    Counted L (base + if r.isSome then 1 else 0) (checkResize l.w r).2 l.last_reset ∧
    (checkResize l.w r).2.drawn = l.w.drawn ∧ (tick_pipes l r).length = l.S.length ∧
    (checkResize l.w r).2.cfg = l.w.cfg := by
  cases r with
  | none =>
    refine ⟨hw, hS, ?_, rfl, rfl, rfl⟩
    simpa using hc
  | some p =>
    obtain ⟨W, H⟩ := p
    refine ⟨hw, ?_, ?_, rfl, ?_, rfl⟩
    · intro t ht
      simp only [tick_pipes, checkResize, if_true, List.mem_map] at ht
      obtain ⟨u, hu, rfl⟩ := ht
      exact hS u hu
    · obtain ⟨hl, q, hq, hclq, hpos, hneg⟩ := hc
      refine ⟨hl, q, hq, ?_, hpos, hneg⟩
      simp only [clears, checkResize, List.count_append, Option.isSome_some, if_true] at hclq ⊢
      rw [hclq]
      simp only [List.count_singleton, beq_self_eq_true, if_true]
      omega
    · simp [tick_pipes, checkResize]

theorem tick_counted (L : Int) (base : Nat) (l : Loop) (r : Option (Int × Int))
    (pending : Option Int)
    (hw : WFWorld l.w) (hS : WFStates l.w l.S) (hfps : 0 < l.w.cfg.fps)
    (hc : Counted L base l.w l.last_reset)
    (hq : ∀ cfg, (handle_keys_once cfg pending).1 = none) :
    ∃ l1, tick l r pending = some (none, l1) ∧
      WFWorld l1.w ∧ WFStates l1.w l1.S ∧ 0 < l1.w.cfg.fps ∧
      Counted L (base + if r.isSome then 1 else 0) l1.w l1.last_reset ∧
      l1.w.drawn = l.w.drawn + l.S.length ∧ l1.S.length = l.S.length := by
  obtain ⟨hw0, hS0, hc0, hd0, hlen0, hcfg0⟩ := resize_counted L base l r hw hS hc
  obtain ⟨w1, lr1, S1, hp, hc1, htab1, hdr1, hS1, hlen1⟩ :=
    pipes_loop_counted L _ (tick_pipes l r) (checkResize l.w r).2 l.last_reset hw0 hS0 hc0
  have hcfg1 : w1.cfg = l.w.cfg := by rw [htab1.2.2.1, hcfg0]
  obtain ⟨hlim, hfp⟩ := handle_keys_once_limit w1.cfg pending
  have hfps1 : 0 < (handle_keys_once w1.cfg pending).2.fps := hfp (by rw [hcfg1]; exact hfps)
  have hne : (handle_keys_once w1.cfg pending).2.fps ≠ 0 := by omega
  refine ⟨{ w := { w1 with cfg := (handle_keys_once w1.cfg pending).2 }, S := S1,
            last_reset := lr1,
            slept := l.slept ++ [max 1 (Int.tdiv 1000 (handle_keys_once w1.cfg pending).2.fps)] },
    ?_, (WFWorld_of_tables htab1).2 hw0, hS1, hfps1, ?_, ?_, ?_⟩
  · unfold tick
    have hp2 : pipes_loop (checkResize l.w r).2 l.last_reset
        (if (checkResize l.w r).1 = true then List.map (clamp (checkResize l.w r).2) l.S
          else l.S) = some (w1, lr1, S1) := hp
    simp only [hp2, bind, Option.bind, pure, hq w1.cfg, hne, if_false]
  · obtain ⟨hl, q, hq1, hclq, hpos, hneg⟩ := hc1
    exact ⟨by rw [← hl]; exact hlim, q, hq1, hclq, hpos, hneg⟩
  · show w1.drawn = _
    rw [hdr1, hd0, hlen0]
  · show S1.length = _
    rw [hlen1, hlen0]

/-- The frame loop over tick inputs without a quitting key returns without an
exception, steps every pipe once per tick and keeps the limit bookkeeping. -/
theorem run_counted (L : Int) (ins : List (Option (Int × Int) × Option Int)) (base : Nat)
    (l : Loop) (hw : WFWorld l.w) (hS : WFStates l.w l.S) (hfps : 0 < l.w.cfg.fps)
    (hc : Counted L base l.w l.last_reset)
    (hq : ∀ i ∈ ins, ∀ cfg, (handle_keys_once cfg i.2).1 = none) :
    ∃ l1, run l ins = some (none, l1) ∧
      WFWorld l1.w ∧ WFStates l1.w l1.S ∧ 0 < l1.w.cfg.fps ∧
      Counted L (base + resizes ins) l1.w l1.last_reset ∧
      l1.w.drawn = l.w.drawn + ins.length * l.S.length ∧ l1.S.length = l.S.length := by
  induction ins generalizing base l with
  | nil =>
    exact ⟨l, rfl, hw, hS, hfps, by simpa [resizes] using hc, by simp, rfl⟩
  | cons i rest ih =>
    obtain ⟨l1, ht, hw1, hS1, hfps1, hc1, hd1, hlen1⟩ :=
      tick_counted L base l i.1 i.2 hw hS hfps hc (hq i (List.mem_cons_self _ _))
    obtain ⟨l2, hr, hw2, hS2, hfps2, hc2, hd2, hlen2⟩ :=
      ih _ l1 hw1 hS1 hfps1 hc1 (fun j hj => hq j (List.mem_cons_of_mem _ hj))
    refine ⟨l2, ?_, hw2, hS2, hfps2, ?_, ?_, by rw [hlen2, hlen1]⟩
    · simp only [run, ht, hr, bind, Option.bind]
    · have e : base + resizes (i :: rest)
          = base + (if i.1.isSome then 1 else 0) + resizes rest := by
        simp only [resizes, List.filter_cons]
        cases i.1.isSome
        · simp
        · simp; omega
      rw [e]; exact hc2
    · rw [hd2, hd1, hlen1]; simp only [List.length_cons]; push_cast; ring

theorem limit_clears_of_counted (L : Int) (q n : Nat)
    (hpos : 0 < L → L * (q : Int) ≤ n ∧ (n : Int) < L * q + L) (hneg : L ≤ 0 → q = 0) :
    limit_clears L n = q := by
  unfold limit_clears
  split
  · rename_i hL
    obtain ⟨h1, h2⟩ := hpos hL
    have := (Int.ediv_emod_unique (a := (n : Int)) (b := L) (r := n - L * q) (q := q) hL).2
      ⟨by ring, by omega, by omega⟩
    rw [this.1]
    simp
  · rename_i hL
    exact (hneg (by omega)).symm

/-- C9. Draw-count limit in the frame loop: with a constant limit `L`, starting
from `drawn = 0` and `last_reset = 0`, after any number of whole ticks (with any
resize notifications and any non-quitting keys) followed by the first `j` pipe
steps of the next tick, that is after `n` glyphs with the check made after every
single pipe step, the loop has returned normally, `drawn = n`, the clears written
to the terminal are the resize clears plus `floor (n / L)` limit-triggered ones
when `L > 0` and the resize clears alone when `L = 0` (or negative),
`last_reset = L * floor (n / L)`, and for `L > 0`, `0 ≤ drawn - last_reset < L`. -/
theorem draw_count_limit (L : Int) (l0 : Loop) (ins : List (Option (Int × Int) × Option Int))
    (r : Option (Int × Int)) (j : Nat)
    (hw : WFWorld l0.w) (hS : WFStates l0.w l0.S) (hfps : 0 < l0.w.cfg.fps)
    (hL : l0.w.cfg.limit = L) (hd : l0.w.drawn = 0) (hlr : l0.last_reset = 0)
    (hq : ∀ i ∈ ins, ∀ cfg, (handle_keys_once cfg i.2).1 = none) :
    ∃ l1 w2 lr2 S2, run l0 ins = some (none, l1) ∧
      pipes_loop (checkResize l1.w r).2 l1.last_reset ((tick_pipes l1 r).take j)
        = some (w2, lr2, S2) ∧
      w2.cfg.limit = L ∧
      w2.drawn = glyphs_after ins.length l0.S.length j ∧
      clears w2 = clears l0.w + resizes (ins ++ [(r, none)])
        + limit_clears L (glyphs_after ins.length l0.S.length j) ∧
      lr2 = L * limit_clears L (glyphs_after ins.length l0.S.length j) ∧
      (0 < L → 0 ≤ w2.drawn - lr2 ∧ w2.drawn - lr2 < L) := by
  have hc0 : Counted L (clears l0.w) l0.w l0.last_reset := by
    refine ⟨hL, 0, by rw [hlr]; simp, by simp, ?_, fun _ => rfl⟩
    intro h
    rw [hlr, hd]
    omega
  obtain ⟨l1, hrun, hw1, hS1, _, hc1, hd1, hlen1⟩ :=
    run_counted L ins (clears l0.w) l0 hw hS hfps hc0 hq
  obtain ⟨hw2, hS2, hc2, hd2, hlen2, _⟩ := resize_counted L _ l1 r hw1 hS1 hc1
  have hS2j : WFStates (checkResize l1.w r).2 ((tick_pipes l1 r).take j) :=
    fun t ht => hS2 t (List.mem_of_mem_take ht)
  obtain ⟨w2, lr2, S2, hp, hc3, _, hd3, _, _⟩ :=
    pipes_loop_counted L _ ((tick_pipes l1 r).take j) (checkResize l1.w r).2 l1.last_reset
      hw2 hS2j hc2
  have hn : w2.drawn = glyphs_after ins.length l0.S.length j := by
    rw [hd3, hd2, hd1, hd]
    simp only [glyphs_after, List.length_take, hlen2, hlen1]
    push_cast
    ring
  obtain ⟨hl3, q, hq3, hcl3, hpos3, hneg3⟩ := hc3
  have hqn : limit_clears L (glyphs_after ins.length l0.S.length j) = q := by
    apply limit_clears_of_counted
    · intro h
      obtain ⟨h1, h2⟩ := hpos3 h
      rw [hq3, hn] at h1 h2
      exact ⟨h1, h2⟩
    · exact hneg3
  refine ⟨l1, w2, lr2, S2, hrun, hp, hl3, hn, ?_, ?_, ?_⟩
  · rw [hcl3, hqn]
    simp only [resizes, List.filter_append, List.length_append, List.filter_cons,
      List.filter_nil]
    cases r
    · simp
    · simp; omega
  · rw [hqn]; exact hq3
  · intro h
    obtain ⟨h1, h2⟩ := hpos3 h
    omega

theorem draw_count_limit_witness :
    WFWorld two_pipes_limit_5.w ∧ WFStates two_pipes_limit_5.w two_pipes_limit_5.S ∧
    (run two_pipes_limit_5 three_quiet_ticks).map
        (fun p => (p.1, p.2.w.drawn, clears p.2.w, p.2.last_reset))
      = some (none, 6, 1, 5) ∧
    ∃ l1 w2 lr2 S2, run two_pipes_limit_5 three_quiet_ticks = some (none, l1) ∧
      pipes_loop (checkResize l1.w none).2 l1.last_reset ((tick_pipes l1 none).take 0)
        = some (w2, lr2, S2) ∧
      w2.cfg.limit = 5 ∧
      w2.drawn = glyphs_after 3 2 0 ∧
      clears w2 = 0 + 0 + limit_clears 5 6 ∧
      lr2 = 5 * limit_clears 5 6 ∧
      ((0 : Int) < 5 → 0 ≤ w2.drawn - lr2 ∧ w2.drawn - lr2 < 5) :=
  ⟨by decide, by decide, by decide,
    draw_count_limit 5 two_pipes_limit_5 three_quiet_ticks none 0 (by decide) (by decide)
      (by decide) (by decide) (by decide) (by decide)
      (by
        intro i hi cfg
        simp only [three_quiet_ticks, List.mem_cons, List.mem_singleton, List.not_mem_nil,
          or_false, or_self] at hi
        rw [hi]
        rfl)⟩

/-! ### Hotkeys -/

/-- C10, the claim as stated fails on `main.cpp`: the key `B` is none of the six
listed hotkeys, yet it does not end the run; it toggles `noBold`. -/
theorem key_B_does_not_quit :
    key 'B' ≠ -1 ∧
    key 'B' ∉ [key 'P', key 'O', key 'F', key 'D', key 'C', key 'K'] ∧
    (handle_keys_once {} (some (key 'B'))).1 = none ∧
    (handle_keys_once {} (some (key 'B'))).2 = { noBold := false } := by
  decide

/-- C10 (amended). Hotkey dispatch: in `main.cpp` a delivered keystroke ends the run
(throws "quit") if and only if it is none of `P`, `O` (turn bias), `F`, `D` (frame
rate), `B` (bold), `C` (colour), `K` (edge-keep); in the legacy `pipes_gnu.cpp`, which
has no `B`, if and only if it is none of `P`, `O`, `F`, `D`, `C`, `K`.  Every other
key, lowercase variants included, ends the run, and a quit leaves the configuration
unchanged. -/
theorem hotkey_dispatch (cfg : Config) (lcfg : Legacy.Config) (ch : Int) (hch : ch ≠ -1) :
    ((handle_keys_once cfg (some ch)).1 = some "quit" ↔
      ch ∉ [key 'P', key 'O', key 'F', key 'D', key 'B', key 'C', key 'K']) ∧
    ((handle_keys_once cfg (some ch)).1 = none ↔
      ch ∈ [key 'P', key 'O', key 'F', key 'D', key 'B', key 'C', key 'K']) ∧
    ((handle_keys_once cfg (some ch)).1 = some "quit" →
      (handle_keys_once cfg (some ch)).2 = cfg) ∧
    ((Legacy.handle_keys_once lcfg (some ch)).1 = some "quit" ↔
      ch ∉ [key 'P', key 'O', key 'F', key 'D', key 'C', key 'K']) ∧
    ((Legacy.handle_keys_once lcfg (some ch)).1 = none ↔
      ch ∈ [key 'P', key 'O', key 'F', key 'D', key 'C', key 'K']) ∧
    ((Legacy.handle_keys_once lcfg (some ch)).1 = some "quit" →
      (Legacy.handle_keys_once lcfg (some ch)).2 = lcfg) := by
  unfold handle_keys_once Legacy.handle_keys_once
  simp only [hch, if_false, List.mem_cons, List.mem_singleton, List.not_mem_nil, or_false,
    not_or]
  refine ⟨?_, ?_, ?_, ?_, ?_, ?_⟩ <;> split_ifs <;> simp_all

theorem hotkey_dispatch_witness :
    key 'p' ≠ -1 ∧
    (handle_keys_once {} (some (key 'p'))).1 = some "quit" ∧
    (Legacy.handle_keys_once {} (some (key 'B'))).1 = some "quit" ∧
    (((handle_keys_once {} (some (key 'p'))).1 = some "quit" ↔
      key 'p' ∉ [key 'P', key 'O', key 'F', key 'D', key 'B', key 'C', key 'K']) ∧
    ((handle_keys_once {} (some (key 'p'))).1 = none ↔
      key 'p' ∈ [key 'P', key 'O', key 'F', key 'D', key 'B', key 'C', key 'K']) ∧
    ((handle_keys_once {} (some (key 'p'))).1 = some "quit" →
      (handle_keys_once {} (some (key 'p'))).2 = {}) ∧
    ((Legacy.handle_keys_once {} (some (key 'p'))).1 = some "quit" ↔
      key 'p' ∉ [key 'P', key 'O', key 'F', key 'D', key 'C', key 'K']) ∧
    ((Legacy.handle_keys_once {} (some (key 'p'))).1 = none ↔
      key 'p' ∈ [key 'P', key 'O', key 'F', key 'D', key 'C', key 'K']) ∧
    ((Legacy.handle_keys_once {} (some (key 'p'))).1 = some "quit" →
      (Legacy.handle_keys_once {} (some (key 'p'))).2 = {})) :=
  ⟨by decide, by decide, by decide, hotkey_dispatch {} {} (key 'p') (by decide)⟩

/-! ### The direction model -/

/-- C11. `idx_from` is total with range inside `[1,16]`: on all sixteen (entry, exit)
pairs the result is in `[1,16]`, and on the four 180-degree reversal pairs it falls
back to the straight-through code of the entry direction: UP->DOWN = 1,
DOWN->UP = 11, RIGHT->LEFT = 6, LEFT->RIGHT = 16. -/
theorem idx_from_total :
    (∀ i o : Direction, 1 ≤ idx_from i o ∧ idx_from i o ≤ 16) ∧
    idx_from .UP .DOWN = 1 ∧ idx_from .DOWN .UP = 11 ∧
    idx_from .RIGHT .LEFT = 6 ∧ idx_from .LEFT .RIGHT = 16 ∧
    (∀ d : Direction, idx_from d (reverse d) = straight_code d ∧
      idx_from d (reverse d) = idx_from d d) ∧
    (∀ i o : Direction, in_table i o = false ↔ o = reverse i) := by
  refine ⟨idx_from_range, rfl, rfl, rfl, rfl, ?_, ?_⟩
  · intro d
    cases d <;> exact ⟨rfl, rfl⟩
  · intro i o
    cases i <;> cases o <;> decide

/-- C12. `turn_left` and `turn_right` are total quarter-turn rotations of the cyclic
order UP, RIGHT, DOWN, LEFT: `turn_right d` is `(d+1) mod 4` and `turn_left d` is
`(d+3) mod 4`; they are inverse to each other; applying either four times returns
`d`; and `turn_left d`, `turn_right d` differ from `d`, from each other and from
the 180-degree reversal `(d+2) mod 4`. -/
theorem turn_rotations (d : Direction) :
    (turn_right d).toNat = (d.toNat + 1) % 4 ∧
    (turn_left d).toNat = (d.toNat + 3) % 4 ∧
    (reverse d).toNat = (d.toNat + 2) % 4 ∧
    turn_left (turn_right d) = d ∧ turn_right (turn_left d) = d ∧
    turn_left (turn_left (turn_left (turn_left d))) = d ∧
    turn_right (turn_right (turn_right (turn_right d))) = d ∧
    turn_left d ≠ d ∧ turn_right d ≠ d ∧ turn_left d ≠ turn_right d ∧
    turn_left d ≠ reverse d ∧ turn_right d ≠ reverse d ∧
    turn_right Direction.UP = Direction.RIGHT ∧ turn_right Direction.RIGHT = Direction.DOWN ∧
    turn_right Direction.DOWN = Direction.LEFT ∧ turn_right Direction.LEFT = Direction.UP := by
  cases d <;> decide

/-! ### Resize, colour and sleep -/

/-- C13. Resize clamp: for every new grid size `W ≥ 1`, `H ≥ 1` and every pipe
state, off-grid positions included, the clamp `x := min(max(0,x), W-1)`,
`y := min(max(0,y), H-1)` puts the position inside `[0,W) × [0,H)`, leaves an
in-bounds position unchanged, is idempotent, and changes no other field of the
pipe; a tick with a pending resize applies exactly this clamp to every pipe. -/
theorem resize_clamp (w : World) (s : State) (hW : 1 ≤ w.W) (hH : 1 ≤ w.H) :
    in_bounds w (clamp w s).x (clamp w s).y ∧
    (in_bounds w s.x s.y → clamp w s = s) ∧
    clamp w (clamp w s) = clamp w s ∧
    (clamp w s).in_ = s.in_ ∧ (clamp w s).out = s.out ∧
    (clamp w s).colorIndex = s.colorIndex ∧ (clamp w s).typeIndex = s.typeIndex ∧
    (∀ (l : Loop) (W H : Int),
      tick_pipes l (some (W, H)) = l.S.map (clamp (checkResize l.w (some (W, H))).2) ∧
      (checkResize l.w (some (W, H))).2.W = W ∧ (checkResize l.w (some (W, H))).2.H = H) := by
  have hx : 0 ≤ min (max 0 s.x) (w.W - 1) ∧ min (max 0 s.x) (w.W - 1) < w.W := by
    constructor <;> omega
  have hy : 0 ≤ min (max 0 s.y) (w.H - 1) ∧ min (max 0 s.y) (w.H - 1) < w.H := by
    constructor <;> omega
  refine ⟨⟨hx.1, hx.2, hy.1, hy.2⟩, ?_, ?_, rfl, rfl, rfl, rfl, ?_⟩
  · intro hb
    obtain ⟨h1, h2, h3, h4⟩ := hb
    have ex : min (max 0 s.x) (w.W - 1) = s.x := by omega
    have ey : min (max 0 s.y) (w.H - 1) = s.y := by omega
    simp only [clamp, ex, ey]
  · have ex : min (max 0 (min (max 0 s.x) (w.W - 1))) (w.W - 1) = min (max 0 s.x) (w.W - 1) := by
      omega
    have ey : min (max 0 (min (max 0 s.y) (w.H - 1))) (w.H - 1) = min (max 0 s.y) (w.H - 1) := by
      omega
    simp only [clamp, ex, ey]
  · intro l W H
    exact ⟨rfl, rfl, rfl⟩

theorem resize_clamp_witness :
    (1 : Int) ≤ (start_world 3 3 {} []).W ∧ (1 : Int) ≤ (start_world 3 3 {} []).H ∧
    clamp (start_world 3 3 {} []) { x := 9, y := -4, in_ := Direction.UP, colorIndex := 5 }
      = { x := 2, y := 0, in_ := Direction.UP, colorIndex := 5 } ∧
    in_bounds (start_world 3 3 {} [])
      (clamp (start_world 3 3 {} []) { x := 9, y := -4, in_ := Direction.UP, colorIndex := 5 }).x
      (clamp (start_world 3 3 {} []) { x := 9, y := -4, in_ := Direction.UP, colorIndex := 5 }).y :=
  ⟨by decide, by decide, by decide,
    (resize_clamp (start_world 3 3 {} [])
      { x := 9, y := -4, in_ := Direction.UP, colorIndex := 5 } (by decide) (by decide)).1⟩

/-- C14. Colour encoding: with colour enabled `ansi_color c` is the escape
`ESC[<base + (c & 7)>m` with base 90 when vivid and 30 otherwise, so the eight
palette slots under the two vivid settings give the sixteen pairwise distinct codes
30..37 and 90..97, and `ansi_reset` is `ESC[0m`; with colour disabled both are the
empty string for every `c`, so the glyph is written after the cursor move with no
escape sequence.  The output depends only on `c` and on the flags `noColor` and
`vivid`. -/
theorem colour_encoding :
    (∀ (cfg : Config) (c : Int),
      ansi_color { cfg with noColor := false, vivid := true } c
        = "\x1b[" ++ toString (90 + Int.land c 7) ++ "m" ∧
      ansi_color { cfg with noColor := false, vivid := false } c
        = "\x1b[" ++ toString (30 + Int.land c 7) ++ "m" ∧
      ansi_reset { cfg with noColor := false } = "\x1b[0m" ∧
      ansi_color { cfg with noColor := true } c = "" ∧
      ansi_reset { cfg with noColor := true } = "") ∧
    sixteen_colours =
      ["\x1b[30m", "\x1b[31m", "\x1b[32m", "\x1b[33m", "\x1b[34m", "\x1b[35m", "\x1b[36m",
       "\x1b[37m", "\x1b[90m", "\x1b[91m", "\x1b[92m", "\x1b[93m", "\x1b[94m", "\x1b[95m",
       "\x1b[96m", "\x1b[97m"] ∧
    sixteen_colours.Nodup ∧
    (∀ (cfg : Config) (x y c : Int) (g : String),
      Out.bytes (Out.glyph x y (ansi_color { cfg with noColor := true } c) g
        (ansi_reset { cfg with noColor := true })) = mv x y ++ g) ∧
    (∀ (cfg cfg1 : Config) (c : Int),
      ansi_color cfg c =
        ansi_color { cfg1 with noColor := cfg.noColor, vivid := cfg.vivid } c ∧
      ansi_reset cfg = ansi_reset { cfg1 with noColor := cfg.noColor }) := by
  refine ⟨?_, by decide, by decide, ?_, ?_⟩
  · intro cfg c
    refine ⟨rfl, rfl, rfl, rfl, rfl⟩
  · intro cfg x y c g
    simp [Out.bytes, ansi_color, ansi_reset]
  · intro cfg cfg1 c
    exact ⟨rfl, rfl⟩

theorem index_mem {α : Type} (v : List α) (i : Int) (a : α) (h : index v i = some a) :
    a ∈ v := by
  unfold index at h
  split at h
  · cases h
  · exact List.getElem?_mem h

/-- A property of colours that every palette entry has is kept by a step, together
with well-formedness. -/
theorem draw_step_keeps (Q : Int → Prop) (w : World) (s : State) (hw : WFWorld w)
    (hQ : ∀ c ∈ w.palette, Q c) (hs : WFState w s) (hc : Q s.colorIndex) :
    ∃ w1 s1, draw_step w s = some (w1, s1) ∧ WFWorld w1 ∧ same_tables w w1 ∧
      WFState w1 s1 ∧ Q s1.colorIndex := by
  obtain ⟨w1, s1, hd, hw1, hs1, htab, _, _⟩ := draw_step_wf w s hw hs
  obtain ⟨w2, s2, g, hd2, _, _, hnew, hsame⟩ := draw_step_colour w s hw hs
  rw [hd] at hd2
  obtain ⟨_, h2⟩ := Prod.mk.inj (Option.some.inj hd2)
  rw [← h2] at hnew hsame
  refine ⟨w1, s1, hd, hw1, htab, hs1, ?_⟩
  cases hx : would_exit w s (tentative w s).1.out
  · rw [(hsame (Or.inl hx)).1]; exact hc
  · cases hk : w.cfg.keepOnEdge
    · exact hQ _ (index_mem _ _ _ (hnew hx hk).1)
    · rw [(hsame (Or.inr hk)).1]; exact hc

/-- The `for` loop over the pipes returns and keeps well-formedness and any
property of colours that every palette entry has. -/
theorem pipes_loop_keeps (Q : Int → Prop) (S : List State) (w : World) (lr : Int)
    (hw : WFWorld w) (hQ : ∀ c ∈ w.palette, Q c)
    (hS : ∀ s ∈ S, WFState w s ∧ Q s.colorIndex) :
    ∃ w1 lr1 S1, pipes_loop w lr S = some (w1, lr1, S1) ∧ same_tables w w1 ∧
      (∀ s ∈ S1, WFState w1 s ∧ Q s.colorIndex) ∧ S1.length = S.length := by
  induction S generalizing w lr with
  | nil =>
    exact ⟨w, lr, [], rfl, ⟨rfl, rfl, rfl, rfl, rfl, rfl, rfl⟩,
      fun _ h => absurd h (List.not_mem_nil _), rfl⟩
  | cons s rest ih =>
    obtain ⟨hs, hc⟩ := hS s (List.mem_cons_self _ _)
    obtain ⟨w1, s1, hd, hw1, htab, hs1, hc1⟩ := draw_step_keeps Q w s hw hQ hs hc
    have htab2 : same_tables w (limit_check w1 lr).1 := by
      unfold limit_check
      split
      · exact htab
      · exact htab
    have hw2 : WFWorld (limit_check w1 lr).1 := (WFWorld_of_tables htab2).2 hw
    have hQ2 : ∀ c ∈ (limit_check w1 lr).1.palette, Q c := by
      rw [htab2.2.2.2.2.2.1]; exact hQ
    have hrest : ∀ t ∈ rest, WFState (limit_check w1 lr).1 t ∧ Q t.colorIndex := fun t ht =>
      ⟨(WFState_of_tables htab2 t).2 (hS t (List.mem_cons_of_mem _ ht)).1,
        (hS t (List.mem_cons_of_mem _ ht)).2⟩
    obtain ⟨w3, lr3, S3, hp, htab3, hS3, hlen⟩ :=
      ih (limit_check w1 lr).1 (limit_check w1 lr).2 hw2 hQ2 hrest
    have htab13 : same_tables w w3 := same_tables_trans htab2 htab3
    obtain ⟨ty, hty, hmem⟩ := index_some w.activeTypes s.typeIndex hs.1 hs.2
    obtain ⟨pt, hpt, _⟩ := index_some w.T ty (hw.2.2.1 ty hmem).1 (hw.2.2.1 ty hmem).2
    refine ⟨w3, lr3, s1 :: S3, ?_, htab13, ?_, ?_⟩
    · simp only [pipes_loop, hty, hpt, hd, hp, bind, Option.bind, pure]
    · intro t ht
      rcases List.mem_cons.1 ht with h | h
      · rw [h]
        exact ⟨(WFState_of_tables htab13 s1).2 ((WFState_of_tables htab s1).1 hs1), hc1⟩
      · exact hS3 t h
    · simp [hlen]

/-- The outcome of one tick of a well-formed loop: it returns unless the sleep
would divide by zero, and the loop variables are the ones the pipes loop and the
hotkey leave. -/
theorem tick_keeps (Q : Int → Prop) (l : Loop) (r : Option (Int × Int)) (pending : Option Int)
    (hw : WFWorld l.w) (hQ : ∀ c ∈ l.w.palette, Q c)
    (hS : ∀ s ∈ l.S, WFState l.w s ∧ Q s.colorIndex)
    (hfps : (handle_keys_once l.w.cfg pending).2.fps ≠ 0) :
    ∃ w1 lr1 S1, same_tables (checkResize l.w r).2 w1 ∧
      (∀ s ∈ S1, WFState w1 s ∧ Q s.colorIndex) ∧ S1.length = l.S.length ∧
      tick l r pending = some
        ((handle_keys_once l.w.cfg pending).1,
         { w := { w1 with cfg := (handle_keys_once l.w.cfg pending).2 }, S := S1,
           last_reset := lr1,
           slept := match (handle_keys_once l.w.cfg pending).1 with
             | some _ => l.slept
             | none => l.slept ++ [frame_ms (handle_keys_once l.w.cfg pending).2.fps] }) := by
  have hSr : ∀ s ∈ tick_pipes l r, WFState (checkResize l.w r).2 s ∧ Q s.colorIndex := by
    cases r with
    | none => exact hS
    | some p =>
      obtain ⟨W, H⟩ := p
      intro t ht
      simp only [tick_pipes, checkResize, if_true, List.mem_map] at ht
      obtain ⟨u, hu, rfl⟩ := ht
      exact hS u hu
  have hwr : WFWorld (checkResize l.w r).2 := by
    cases r with
    | none => exact hw
    | some p => exact hw
  have hQr : ∀ c ∈ (checkResize l.w r).2.palette, Q c := by
    cases r with
    | none => exact hQ
    | some p => exact hQ
  have hcfgr : (checkResize l.w r).2.cfg = l.w.cfg := by
    cases r with
    | none => rfl
    | some p => rfl
  have hlenr : (tick_pipes l r).length = l.S.length := by
    cases r with
    | none => rfl
    | some p => simp [tick_pipes, checkResize]
  obtain ⟨w1, lr1, S1, hp, htab, hS1, hlen⟩ :=
    pipes_loop_keeps Q (tick_pipes l r) (checkResize l.w r).2 l.last_reset hwr hQr hSr
  have hcfg1 : w1.cfg = l.w.cfg := by rw [htab.2.2.1, hcfgr]
  refine ⟨w1, lr1, S1, htab, hS1, by rw [hlen, hlenr], ?_⟩
  have hp2 : pipes_loop (checkResize l.w r).2 l.last_reset
      (if (checkResize l.w r).1 = true then List.map (clamp (checkResize l.w r).2) l.S
        else l.S) = some (w1, lr1, S1) := hp
  unfold tick
  simp only [hp2, bind, Option.bind, pure, hcfg1]
  cases hk : (handle_keys_once l.w.cfg pending).1 with
  | some e => rfl
  | none =>
    simp only [hfps, if_false]
    rfl

theorem frame_ms_antitone (f1 f2 : Int) (h1 : 0 < f1) (h2 : f1 ≤ f2) :
    frame_ms f2 ≤ frame_ms f1 := by
  unfold frame_ms
  rw [Int.tdiv_eq_ediv (by omega) (by omega), Int.tdiv_eq_ediv (by omega) (by omega)]
  have hq : 0 ≤ 1000 / f2 := Int.ediv_nonneg (by omega) (by omega)
  have hm : 1000 / f2 * f2 ≤ 1000 := Int.ediv_mul_le 1000 (by omega)
  have hle : 1000 / f2 ≤ 1000 / f1 := by
    apply Int.le_ediv_of_mul_le h1
    nlinarith
  omega

theorem frame_ms_range (f : Int) (h1 : 20 ≤ f) (h2 : f ≤ 100) :
    frame_ms f = 1000 / f ∧ 10 ≤ frame_ms f ∧ frame_ms f ≤ 50 := by
  have e : Int.tdiv 1000 f = 1000 / f := Int.tdiv_eq_ediv (by omega) (by omega)
  have h50 := frame_ms_antitone 20 f (by omega) h1
  have h10 := frame_ms_antitone f 100 (by omega) h2
  have e20 : frame_ms 20 = 50 := by decide
  have e100 : frame_ms 100 = 10 := by decide
  rw [e20] at h50
  rw [e100] at h10
  refine ⟨?_, h10, h50⟩
  unfold frame_ms at h10 ⊢
  rw [e] at h10 ⊢
  omega

theorem handle_keys_once_fps (cfg : Config) (pending : Option Int)
    (h1 : 20 ≤ cfg.fps) (h2 : cfg.fps ≤ 100) :
    20 ≤ (handle_keys_once cfg pending).2.fps ∧ (handle_keys_once cfg pending).2.fps ≤ 100 := by
  unfold handle_keys_once
  cases pending with
  | none => exact ⟨h1, h2⟩
  | some ch =>
    dsimp only
    split_ifs <;> dsimp only <;> omega

/-- C18. Per-tick sleep: a tick that is not left by a quit suspends for
`max(1, 1000 / fps)` milliseconds, `fps` being the frame rate after the hotkey of
that tick, with integer division; for every frame rate within the configuration
bounds `20 ≤ fps ≤ 100` the division is not by zero (the tick returns), the sleep
equals `1000 / fps`, lies in `[10, 50]` and is non-increasing in `fps`. -/
theorem per_tick_sleep (l : Loop) (r : Option (Int × Int)) (pending : Option Int)
    (hw : WFWorld l.w) (hS : WFStates l.w l.S)
    (h1 : 20 ≤ l.w.cfg.fps) (h2 : l.w.cfg.fps ≤ 100)
    (hq : ∀ cfg, (handle_keys_once cfg pending).1 = none) :
    ∃ l1, tick l r pending = some (none, l1) ∧
      l1.slept = l.slept ++ [frame_ms l1.w.cfg.fps] ∧
      l1.w.cfg.fps ≠ 0 ∧ 20 ≤ l1.w.cfg.fps ∧ l1.w.cfg.fps ≤ 100 ∧
      frame_ms l1.w.cfg.fps = 1000 / l1.w.cfg.fps ∧
      10 ≤ frame_ms l1.w.cfg.fps ∧ frame_ms l1.w.cfg.fps ≤ 50 ∧
      (∀ f1 f2 : Int, 20 ≤ f1 → f1 ≤ f2 → f2 ≤ 100 → frame_ms f2 ≤ frame_ms f1) := by
  obtain ⟨hf1, hf2⟩ := handle_keys_once_fps l.w.cfg pending h1 h2
  obtain ⟨w1, lr1, S1, _, _, _, ht⟩ := tick_keeps (fun _ => True) l r pending hw
    (fun _ _ => trivial) (fun s hs => ⟨hS s hs, trivial⟩) (by omega)
  rw [hq l.w.cfg] at ht
  obtain ⟨e, h10, h50⟩ := frame_ms_range _ hf1 hf2
  exact ⟨_, ht, rfl, by dsimp only; omega, hf1, hf2, e, h10, h50,
    fun f1 f2 a b _ => frame_ms_antitone f1 f2 (by omega) b⟩

theorem per_tick_sleep_witness :
    WFWorld two_pipes_limit_5.w ∧ WFStates two_pipes_limit_5.w two_pipes_limit_5.S ∧
    (tick two_pipes_limit_5 none (some (key 'F'))).map (fun p => (p.1, p.2.slept, p.2.w.cfg.fps))
      = some (none, [12], 80) ∧
    ∃ l1, tick two_pipes_limit_5 none (some (key 'F')) = some (none, l1) ∧
      l1.slept = [] ++ [frame_ms l1.w.cfg.fps] ∧
      l1.w.cfg.fps ≠ 0 ∧ 20 ≤ l1.w.cfg.fps ∧ l1.w.cfg.fps ≤ 100 ∧
      frame_ms l1.w.cfg.fps = 1000 / l1.w.cfg.fps ∧
      10 ≤ frame_ms l1.w.cfg.fps ∧ frame_ms l1.w.cfg.fps ≤ 50 ∧
      (∀ f1 f2 : Int, 20 ≤ f1 → f1 ≤ f2 → f2 ≤ 100 → frame_ms f2 ≤ frame_ms f1) :=
  ⟨by decide, by decide, by decide,
    per_tick_sleep two_pipes_limit_5 none (some (key 'F')) (by decide) (by decide)
      (by decide) (by decide) (fun _ => rfl)⟩

/-! ### Start-up -/

theorem tmod8_range (a : Int) : -7 ≤ Int.tmod a 8 ∧ Int.tmod a 8 ≤ 7 := by
  rcases Int.le_total 0 a with h | h
  · rw [Int.tmod_eq_emod h (by omega)]; omega
  · have e : a = -(-a) := by omega
    rw [Int.tmod_def, e, Int.neg_tdiv, Int.tdiv_eq_ediv (by omega) (by omega)]
    omega

theorem colour_arg_range (a : Int) :
    0 ≤ Int.tmod (Int.tmod a 8 + 8) 8 ∧ Int.tmod (Int.tmod a 8 + 8) 8 ≤ 7 := by
  have h := tmod8_range a
  rw [Int.tmod_eq_emod (by omega) (by omega)]
  omega

theorem gather_length (chars : CStr) (rest : List CStr) :
    (gather chars rest).2.length ≤ rest.length := by
  induction rest generalizing chars with
  | nil => simp [gather]
  | cons a rest ih =>
    unfold gather
    split
    · exact Nat.le_succ_of_le (ih _)
    · exact Nat.le_refl _

theorem custom_type_length (chars : CStr) (h : 16 ≤ chars.length) :
    (custom_type chars).g.length = 16 := by
  simp [custom_type, h]

/-- An accepted option keeps the tables and the configuration within their ranges
and consumes at least itself. -/
theorem parse_option_ok (libc : Libc) (w w1 : World) (a : CStr) (rest rest1 : List CStr)
    (um : Bool) (ht : TablesOK w) (hb : Bounds w.cfg)
    (h : parse_option libc w a rest = .ok (w1, um, rest1)) :
    TablesOK w1 ∧ Bounds w1.cfg ∧ rest1.length ≤ rest.length := by
  obtain ⟨hp, hpr, ha, har, hT, hg⟩ := ht
  obtain ⟨b1, b2, b3, b4, b5⟩ := hb
  have htail : rest.tail.length ≤ rest.length := by
    rw [List.length_tail]; omega
  unfold parse_option at h
  by_cases c1 : a = "-h".toList ∨ a = "--help".toList
  · rw [if_pos c1] at h; cases h
  rw [if_neg c1] at h
  by_cases c2 : a = "-v".toList
  · rw [if_pos c2] at h; cases h
  rw [if_neg c2] at h
  by_cases c3 : a = "-p".toList ∧ rest ≠ []
  · rw [if_pos c3] at h
    injection h with h; injection h with hw h2; injection h2 with _ hr
    subst hw hr
    exact ⟨⟨hp, hpr, ha, har, hT, hg⟩, ⟨b1, b2, b3, b4, le_max_left _ _⟩, htail⟩
  rw [if_neg c3] at h
  by_cases c4 : a = "-t".toList ∧ rest ≠ []
  · rw [if_pos c4] at h
    dsimp only at h
    by_cases c41 : (rest.headD []).head? = some 'c'
    · rw [if_pos c41] at h
      by_cases c42 : (gather ((rest.headD []).drop 1) rest.tail).1.length < 16
      · rw [if_pos c42] at h; cases h
      rw [if_neg c42] at h
      injection h with h; injection h with hw h2; injection h2 with _ hr
      subst hw hr
      refine ⟨⟨hp, hpr, by simp, ?_, by simpa using hT, ?_⟩, ⟨b1, b2, b3, b4, b5⟩, ?_⟩
      · intro t ht
        simp only [List.mem_singleton] at ht
        omega
      · intro pt hpt
        rcases List.mem_or_eq_of_mem_set hpt with h1 | h1
        · exact hg pt h1
        · rw [h1]; exact custom_type_length _ (by omega)
      · exact Nat.le_trans (gather_length _ _) htail
    · rw [if_neg c41] at h
      injection h with h; injection h with hw h2; injection h2 with _ hr
      subst hw hr
      refine ⟨⟨hp, hpr, by simp, ?_, hT, hg⟩, ⟨b1, b2, b3, b4, b5⟩, htail⟩
      intro t ht
      simp only [List.mem_singleton] at ht
      omega
  rw [if_neg c4] at h
  by_cases c5 : a = "-c".toList ∧ rest ≠ []
  · rw [if_pos c5] at h
    injection h with h; injection h with hw h2; injection h2 with _ hr
    subst hw hr
    refine ⟨⟨by simp, ?_, ha, har, hT, hg⟩, ⟨b1, b2, b3, b4, b5⟩, htail⟩
    intro c hc
    rcases List.mem_append.1 hc with h1 | h1
    · exact hpr c h1
    · simp only [List.mem_singleton] at h1
      rw [h1]; exact colour_arg_range _
  rw [if_neg c5] at h
  by_cases c6 : a = "-f".toList ∧ rest ≠ []
  · rw [if_pos c6] at h
    injection h with h; injection h with hw h2; injection h2 with _ hr
    subst hw hr
    refine ⟨⟨hp, hpr, ha, har, hT, hg⟩, ⟨b1, b2, ?_, ?_, b5⟩, htail⟩ <;> dsimp only <;> omega
  rw [if_neg c6] at h
  by_cases c7 : a = "-s".toList ∧ rest ≠ []
  · rw [if_pos c7] at h
    injection h with h; injection h with hw h2; injection h2 with _ hr
    subst hw hr
    refine ⟨⟨hp, hpr, ha, har, hT, hg⟩, ⟨?_, ?_, b3, b4, b5⟩, htail⟩ <;> dsimp only <;> omega
  rw [if_neg c7] at h
  by_cases c8 : a = "-r".toList
  · rw [if_pos c8] at h
    by_cases c81 : rest ≠ [] ∧ (rest.headD []).head? ≠ some '-'
    · rw [if_pos c81] at h
      injection h with h; injection h with hw h2; injection h2 with _ hr
      subst hw hr
      exact ⟨⟨hp, hpr, ha, har, hT, hg⟩, ⟨b1, b2, b3, b4, b5⟩, htail⟩
    · rw [if_neg c81] at h
      injection h with h; injection h with hw h2; injection h2 with _ hr
      subst hw hr
      exact ⟨⟨hp, hpr, ha, har, hT, hg⟩, ⟨b1, b2, b3, b4, b5⟩, Nat.le_refl _⟩
  rw [if_neg c8] at h
  by_cases c9 : a = "-R".toList
  · rw [if_pos c9] at h
    injection h with h; injection h with hw h2; injection h2 with _ hr
    subst hw hr
    exact ⟨⟨hp, hpr, ha, har, hT, hg⟩, ⟨b1, b2, b3, b4, b5⟩, Nat.le_refl _⟩
  rw [if_neg c9] at h
  by_cases c10 : a = "-B".toList
  · rw [if_pos c10] at h
    injection h with h; injection h with hw h2; injection h2 with _ hr
    subst hw hr
    exact ⟨⟨hp, hpr, ha, har, hT, hg⟩, ⟨b1, b2, b3, b4, b5⟩, Nat.le_refl _⟩
  rw [if_neg c10] at h
  by_cases c11 : a = "-C".toList
  · rw [if_pos c11] at h
    injection h with h; injection h with hw h2; injection h2 with _ hr
    subst hw hr
    exact ⟨⟨hp, hpr, ha, har, hT, hg⟩, ⟨b1, b2, b3, b4, b5⟩, Nat.le_refl _⟩
  rw [if_neg c11] at h
  by_cases c12 : a = "-K".toList
  · rw [if_pos c12] at h
    injection h with h; injection h with hw h2; injection h2 with _ hr
    subst hw hr
    exact ⟨⟨hp, hpr, ha, har, hT, hg⟩, ⟨b1, b2, b3, b4, b5⟩, Nat.le_refl _⟩
  rw [if_neg c12] at h
  cases h

/-- The argument loop never runs out of fuel when given at least the number of
arguments. -/
theorem parse_args_total (libc : Libc) (fuel : Nat) (w : World) (um : Bool) (args : List CStr)
    (ht : TablesOK w) (hb : Bounds w.cfg) (hf : args.length ≤ fuel) :
    ∃ r, parse_args libc fuel w um args = some r := by
  induction fuel generalizing w um args with
  | zero =>
    cases args with
    | nil => exact ⟨_, rfl⟩
    | cons a rest => simp at hf
  | succ fuel ih =>
    cases args with
    | nil => exact ⟨_, rfl⟩
    | cons a rest =>
      unfold parse_args
      cases hpo : parse_option libc w a rest with
      | error code => exact ⟨_, rfl⟩
      | ok res =>
        obtain ⟨w1, um1, rest1⟩ := res
        obtain ⟨ht1, hb1, hlen⟩ := parse_option_ok libc w w1 a rest rest1 um1 ht hb hpo
        simp only [List.length_cons] at hf
        exact ih w1 um1 rest1 ht1 hb1 (by omega)

/-- An accepted command line leaves the tables and the configuration within their
ranges. -/
theorem parse_args_ok (libc : Libc) (fuel : Nat) (w w1 : World) (um um1 : Bool)
    (args : List CStr) (ht : TablesOK w) (hb : Bounds w.cfg)
    (h : parse_args libc fuel w um args = some (.ok (w1, um1))) :
    TablesOK w1 ∧ Bounds w1.cfg := by
  induction fuel generalizing w um args with
  | zero =>
    cases args with
    | nil =>
      simp only [parse_args, Option.some.injEq, Except.ok.injEq, Prod.mk.injEq] at h
      rw [← h.1]; exact ⟨ht, hb⟩
    | cons a rest => simp [parse_args] at h
  | succ fuel ih =>
    cases args with
    | nil =>
      simp only [parse_args, Option.some.injEq, Except.ok.injEq, Prod.mk.injEq] at h
      rw [← h.1]; exact ⟨ht, hb⟩
    | cons a rest =>
      unfold parse_args at h
      cases hpo : parse_option libc w a rest with
      | error code => rw [hpo] at h; simp at h
      | ok res =>
        obtain ⟨w2, um2, rest2⟩ := res
        rw [hpo] at h
        obtain ⟨ht2, hb2, _⟩ := parse_option_ok libc w w2 a rest rest2 um2 ht hb hpo
        exact ih w2 um2 rest2 ht2 hb2 h

theorem boot_world_ok (rand : Nat → Nat) :
    TablesOK (boot_world rand) ∧ Bounds (boot_world rand).cfg := by
  refine ⟨⟨?_, ?_, ?_, ?_, ?_, ?_⟩, ?_⟩
  · show default_palette ≠ []
    decide
  · show ∀ c ∈ default_palette, 0 ≤ c ∧ c ≤ 7
    decide
  · show ([0] : List Int) ≠ []
    decide
  · show ∀ t ∈ ([0] : List Int), 0 ≤ t ∧ t ≤ 9
    decide
  · show init_types.length = 10
    decide
  · show ∀ pt ∈ init_types, pt.g.length = 16
    decide
  · show Bounds {}
    decide

theorem draw_menu_ok (w w1 : World) (h : draw_menu w = some w1) :
    w1 = { w with cout := w.cout ++ [Out.clear] } := by
  unfold draw_menu at h
  cases hh : w.activeTypes.head? with
  | none => rw [hh] at h; simp at h
  | some v =>
    rw [hh] at h
    simp only [bind, Option.bind, pure, Option.some.injEq] at h
    exact h.symm

theorem draw_menu_some (w : World) (ha : w.activeTypes ≠ []) :
    draw_menu w = some { w with cout := w.cout ++ [Out.clear] } := by
  unfold draw_menu
  cases hh : w.activeTypes with
  | nil => exact absurd hh ha
  | cons v rest => rfl

/-- A menu key keeps the tables and the configuration within their ranges. -/
theorem menu_key_ok (w w1 : World) (ch : Int) (ht : TablesOK w) (hb : Bounds w.cfg)
    (h : menu_key w ch = some w1) : TablesOK w1 ∧ Bounds w1.cfg := by
  obtain ⟨hp, hpr, ha, har, hT, hg⟩ := ht
  obtain ⟨b1, b2, b3, b4, b5⟩ := hb
  unfold menu_key at h
  by_cases k0 : ch = key 'A' ∨ ch = key 'a'
  · rw [if_pos k0] at h
    injection h with h
    subst h
    refine ⟨⟨hp, hpr, ha, har, hT, hg⟩, ?_, ?_, ?_, ?_, ?_⟩ <;> dsimp only <;> omega
  rw [if_neg k0] at h
  by_cases k1 : ch = key 'Z' ∨ ch = key 'z'
  · rw [if_pos k1] at h
    injection h with h
    subst h
    refine ⟨⟨hp, hpr, ha, har, hT, hg⟩, ?_, ?_, ?_, ?_, ?_⟩ <;> dsimp only <;> omega
  rw [if_neg k1] at h
  by_cases k2 : ch = key 'S' ∨ ch = key 's'
  · rw [if_pos k2] at h
    injection h with h
    subst h
    refine ⟨⟨hp, hpr, ha, har, hT, hg⟩, ?_, ?_, ?_, ?_, ?_⟩ <;> dsimp only <;> omega
  rw [if_neg k2] at h
  by_cases k3 : ch = key 'X' ∨ ch = key 'x'
  · rw [if_pos k3] at h
    injection h with h
    subst h
    refine ⟨⟨hp, hpr, ha, har, hT, hg⟩, ?_, ?_, ?_, ?_, ?_⟩ <;> dsimp only <;> omega
  rw [if_neg k3] at h
  by_cases k4 : ch = key 'F' ∨ ch = key 'f'
  · rw [if_pos k4] at h
    injection h with h
    subst h
    refine ⟨⟨hp, hpr, ha, har, hT, hg⟩, ?_, ?_, ?_, ?_, ?_⟩ <;> dsimp only <;> omega
  rw [if_neg k4] at h
  by_cases k5 : ch = key 'D' ∨ ch = key 'd'
  · rw [if_pos k5] at h
    injection h with h
    subst h
    refine ⟨⟨hp, hpr, ha, har, hT, hg⟩, ?_, ?_, ?_, ?_, ?_⟩ <;> dsimp only <;> omega
  rw [if_neg k5] at h
  by_cases k6 : ch = key 'R' ∨ ch = key 'r'
  · rw [if_pos k6] at h
    injection h with h
    subst h
    refine ⟨⟨hp, hpr, ha, har, hT, hg⟩, ?_, ?_, ?_, ?_, ?_⟩ <;> dsimp only <;> omega
  rw [if_neg k6] at h
  by_cases k7 : ch = key 'K' ∨ ch = key 'k'
  · rw [if_pos k7] at h
    injection h with h
    subst h
    refine ⟨⟨hp, hpr, ha, har, hT, hg⟩, ?_, ?_, ?_, ?_, ?_⟩ <;> dsimp only <;> omega
  rw [if_neg k7] at h
  by_cases k8 : ch = key 'C' ∨ ch = key 'c'
  · rw [if_pos k8] at h
    injection h with h
    subst h
    refine ⟨⟨hp, hpr, ha, har, hT, hg⟩, ?_, ?_, ?_, ?_, ?_⟩ <;> dsimp only <;> omega
  rw [if_neg k8] at h
  by_cases k9 : ch = key 'V' ∨ ch = key 'v'
  · rw [if_pos k9] at h
    injection h with h
    subst h
    refine ⟨⟨hp, hpr, ha, har, hT, hg⟩, ?_, ?_, ?_, ?_, ?_⟩ <;> dsimp only <;> omega
  rw [if_neg k9] at h
  by_cases kt : ch = key 'T' ∨ ch = key 't'
  · rw [if_pos kt] at h
    cases hh : w.activeTypes with
    | nil => exact absurd hh ha
    | cons v rest =>
      rw [hh] at h har
      simp only [List.head?_cons, bind, Option.bind, pure, Option.some.injEq,
        List.set_cons_zero] at h
      subst h
      have hv := har v (List.mem_cons_self _ _)
      refine ⟨⟨hp, hpr, by simp, ?_, hT, hg⟩, b1, b2, b3, b4, b5⟩
      intro t ht
      rcases List.mem_cons.1 ht with h1 | h1
      · rw [h1, Int.tmod_eq_emod (by omega) (by omega)]; omega
      · exact har t (List.mem_cons_of_mem _ h1)
  rw [if_neg kt] at h
  by_cases kl : ch = key 'L' ∨ ch = key 'l'
  · rw [if_pos kl] at h
    injection h with h
    subst h
    exact ⟨⟨hp, hpr, ha, har, hT, hg⟩, b1, b2, b3, b4, b5⟩
  rw [if_neg kl] at h
  by_cases kj : ch = key 'J' ∨ ch = key 'j'
  · rw [if_pos kj] at h
    injection h with h
    subst h
    exact ⟨⟨hp, hpr, ha, har, hT, hg⟩, b1, b2, b3, b4, b5⟩
  rw [if_neg kj] at h
  injection h with h
  subst h
  exact ⟨⟨hp, hpr, ha, har, hT, hg⟩, b1, b2, b3, b4, b5⟩

theorem menu_loop_ok (inputs : List (Option (Int × Int) × Int)) (w w1 : World)
    (ans : Option Bool) (ht : TablesOK w) (hb : Bounds w.cfg)
    (h : menu_loop w inputs = some (ans, w1)) : TablesOK w1 ∧ Bounds w1.cfg := by
  induction inputs generalizing w with
  | nil =>
    simp only [menu_loop, Option.some.injEq, Prod.mk.injEq] at h
    rw [← h.2]; exact ⟨ht, hb⟩
  | cons i rest ih =>
    obtain ⟨r, ch⟩ := i
    -- the world after the resize check and the redraw it may cause
    have hstep : ∃ w0, TablesOK w0 ∧ Bounds w0.cfg ∧
        menu_loop w ((r, ch) :: rest) =
          (if ch = -1 then menu_loop w0 rest
           else if ch = 13 ∨ ch = 10 then some (some true, w0)
           else if ch = 27 ∨ ch = key 'q' ∨ ch = key 'Q' then some (some false, w0)
           else (menu_key w0 ch).bind fun w2 => (draw_menu w2).bind fun w3 =>
             menu_loop w3 rest) := by
      cases r with
      | none => exact ⟨w, ht, hb, rfl⟩
      | some p =>
        obtain ⟨W, H⟩ := p
        refine ⟨{ w with W := W, H := H, cout := w.cout ++ [Out.clear] ++ [Out.clear] },
          ht, hb, ?_⟩
        have hd : draw_menu { w with W := W, H := H, cout := w.cout ++ [Out.clear] }
            = some { w with W := W, H := H, cout := w.cout ++ [Out.clear] ++ [Out.clear] } :=
          draw_menu_some _ ht.2.2.1
        simp only [menu_loop, checkResize, if_true, hd, bind, Option.bind, pure]
    obtain ⟨w0, ht0, hb0, he⟩ := hstep
    rw [he] at h
    by_cases c1 : ch = -1
    · rw [if_pos c1] at h
      exact ih w0 ht0 hb0 h
    rw [if_neg c1] at h
    by_cases c2 : ch = 13 ∨ ch = 10
    · rw [if_pos c2] at h
      simp only [Option.some.injEq, Prod.mk.injEq] at h
      rw [← h.2]; exact ⟨ht0, hb0⟩
    rw [if_neg c2] at h
    by_cases c3 : ch = 27 ∨ ch = key 'q' ∨ ch = key 'Q'
    · rw [if_pos c3] at h
      simp only [Option.some.injEq, Prod.mk.injEq] at h
      rw [← h.2]; exact ⟨ht0, hb0⟩
    rw [if_neg c3] at h
    cases hk : menu_key w0 ch with
    | none => rw [hk] at h; simp at h
    | some w2 =>
      rw [hk] at h
      obtain ⟨ht2, hb2⟩ := menu_key_ok w0 w2 ch ht0 hb0 hk
      rw [Option.some_bind, draw_menu_some w2 ht2.2.2.1, Option.some_bind] at h
      exact ih { w2 with cout := w2.cout ++ [Out.clear] } ht2 hb2 h

theorem run_menu_ok (inputs : List (Option (Int × Int) × Int)) (w w1 : World)
    (ans : Option Bool) (ht : TablesOK w) (hb : Bounds w.cfg)
    (h : run_menu w inputs = some (ans, w1)) : TablesOK w1 ∧ Bounds w1.cfg := by
  obtain ⟨_, _, _, _, hT, hg⟩ := ht
  have ht0 : TablesOK { w with activeTypes := [0], palette := default_palette,
                               cout := w.cout ++ [Out.clear] } :=
    ⟨(by decide : default_palette ≠ []), (by decide : ∀ c ∈ default_palette, 0 ≤ c ∧ c ≤ 7),
      (by decide : ([0] : List Int) ≠ []), (by decide : ∀ t ∈ ([0] : List Int), 0 ≤ t ∧ t ≤ 9),
      hT, hg⟩
  have hd : draw_menu { w with activeTypes := [0], palette := default_palette }
      = some { w with activeTypes := [0], palette := default_palette,
                      cout := w.cout ++ [Out.clear] } := draw_menu_some _ (by simp)
  simp only [run_menu, hd, bind, Option.bind] at h
  exact menu_loop_ok inputs _ w1 ans ht0 hb h

/-- A pipe as the initialisation loop leaves it has its selectors in range. -/
theorem init_pipe_ok (w w1 : World) (s s1 : State) (ht : TablesOK w)
    (h : init_pipe w s = some (w1, s1)) : same_tables w w1 ∧ PipeOK w s1 := by
  obtain ⟨hp, hpr, ha, har, hT, hg⟩ := ht
  have hp1 : (w.palette.length : Int) ≠ 0 := by
    have : w.palette.length ≠ 0 := by simpa using hp
    omega
  have ha1 : w.activeTypes.length ≠ 0 := by simpa using ha
  have ha2 : (w.activeTypes.length : Int) ≠ 0 := by omega
  obtain ⟨c, hc, hmem⟩ := index_some w.palette _
    (rnd_range (w.rand w.randPos) _ (by simpa using hp)).1
    (rnd_range (w.rand w.randPos) _ (by simpa using hp)).2
  have ht := rnd_range (w.rand (w.randPos + 1)) _ ha1
  unfold init_pipe at h
  simp only [rnd, hp1, ha2, if_false, bind, Option.bind, pure, hc, show ((4 : Int) = 0) = False
    from by simp] at h
  by_cases hr : w.cfg.randomStart = true
  · rw [if_pos hr] at h
    by_cases hW : w.W = 0
    · rw [if_pos hW] at h; simp at h
    rw [if_neg hW] at h
    dsimp only at h
    by_cases hH : w.H = 0
    · rw [if_pos hH] at h; simp at h
    rw [if_neg hH] at h
    simp only [Option.some.injEq, Prod.mk.injEq] at h
    obtain ⟨rfl, rfl⟩ := h
    exact ⟨⟨rfl, rfl, rfl, rfl, rfl, rfl, rfl⟩, (hpr c hmem).1, (hpr c hmem).2, ht.1, ht.2⟩
  · rw [if_neg hr] at h
    simp only [Option.some.injEq, Prod.mk.injEq] at h
    obtain ⟨rfl, rfl⟩ := h
    exact ⟨⟨rfl, rfl, rfl, rfl, rfl, rfl, rfl⟩, (hpr c hmem).1, (hpr c hmem).2, ht.1, ht.2⟩

theorem TablesOK_of_tables {w w1 : World} (h : same_tables w w1) (ht : TablesOK w) :
    TablesOK w1 := by
  obtain ⟨_, _, _, t4, t5, t6, _⟩ := h
  unfold TablesOK
  rw [t4, t5, t6]
  exact ht

theorem PipeOK_of_tables {w w1 : World} (h : same_tables w w1) (s : State)
    (hs : PipeOK w s) : PipeOK w1 s := by
  unfold PipeOK
  rw [h.2.2.2.2.1]
  exact hs

theorem init_pipes_ok (S S1 : List State) (w w1 : World) (ht : TablesOK w)
    (h : init_pipes w S = some (w1, S1)) :
    same_tables w w1 ∧ (∀ s ∈ S1, PipeOK w1 s) ∧ S1.length = S.length := by
  induction S generalizing w w1 S1 with
  | nil =>
    simp only [init_pipes, Option.some.injEq, Prod.mk.injEq] at h
    obtain ⟨rfl, rfl⟩ := h
    exact ⟨⟨rfl, rfl, rfl, rfl, rfl, rfl, rfl⟩, fun _ hm => absurd hm (List.not_mem_nil _), rfl⟩
  | cons s rest ih =>
    unfold init_pipes at h
    cases h1 : init_pipe w s with
    | none => rw [h1] at h; simp at h
    | some p =>
      obtain ⟨w2, s2⟩ := p
      simp only [h1, bind, Option.bind] at h
      obtain ⟨htab2, hs2⟩ := init_pipe_ok w w2 s s2 ht h1
      cases h3 : init_pipes w2 rest with
      | none => rw [h3] at h; simp at h
      | some q =>
        obtain ⟨w3, S3⟩ := q
        rw [h3] at h
        simp only [pure, Option.some.injEq, Prod.mk.injEq] at h
        obtain ⟨rfl, rfl⟩ := h
        obtain ⟨htab3, hS3, hlen⟩ := ih S3 w2 w3 (TablesOK_of_tables htab2 ht) h3
        refine ⟨same_tables_trans htab2 htab3, ?_, by simp [hlen]⟩
        intro t ht1
        rcases List.mem_cons.1 ht1 with h4 | h4
        · rw [h4]
          exact PipeOK_of_tables htab3 s2 (PipeOK_of_tables htab2 s2 hs2)
        · exact hS3 t h4

theorem enter_loop_ok (w : World) (l : Loop) (ht : TablesOK w) (hb : Bounds w.cfg)
    (h : enter_loop w = some (.running l)) : InRange l ∧ Bounds l.w.cfg := by
  have hp : ¬ (w.palette = []) := ht.1
  have ha : ¬ (w.activeTypes = []) := ht.2.2.1
  have hpp : ¬ (w.cfg.p < 0) := by
    have := hb.2.2.2.2
    omega
  unfold enter_loop at h
  simp only [hp, ha, hpp, if_false, bind, Option.bind, pure] at h
  cases hi : init_pipes { w with cout := w.cout ++ [Out.clear] }
      (List.replicate w.cfg.p.toNat {}) with
  | none => rw [hi] at h; simp at h
  | some q =>
    obtain ⟨w1, S1⟩ := q
    rw [hi] at h
    simp only [Option.some.injEq, Startup.running.injEq] at h
    subst h
    obtain ⟨htab, hS, _⟩ := init_pipes_ok _ S1 { w with cout := w.cout ++ [Out.clear] } w1 ht hi
    exact ⟨⟨TablesOK_of_tables htab ht, hS⟩, by
      show Bounds w1.cfg
      rw [htab.2.2.1]; exact hb⟩

/-- The frame loop is entered with the tables, the pipes and the configuration
within their ranges. -/
theorem start_loop_ok (w : World) (um : Bool) (size : Int × Int)
    (menu : List (Option (Int × Int) × Int)) (l : Loop) (ht : TablesOK w) (hb : Bounds w.cfg)
    (h : start_loop w um size menu = some (.running l)) :
    InRange l ∧ Bounds l.w.cfg := by
  unfold start_loop at h
  cases um with
  | false =>
    simp only [Bool.false_eq_true, if_false, bind, Option.bind, pure] at h
    exact enter_loop_ok { w with W := size.1, H := size.2 } l ht hb h
  | true =>
    simp only [if_true, bind, Option.bind] at h
    cases hm : run_menu { w with W := size.1, H := size.2 } menu with
    | none => rw [hm] at h; simp at h
    | some q =>
      obtain ⟨ans, w1⟩ := q
      rw [hm] at h
      obtain ⟨ht1, hb1⟩ := run_menu_ok menu { w with W := size.1, H := size.2 } w1 ans ht hb hm
      cases ans with
      | none => simp [pure] at h
      | some b =>
        cases b with
        | false => simp [pure] at h
        | true => exact enter_loop_ok w1 l ht1 hb1 h

theorem main_start_ok (libc : Libc) (args : List CStr) (rand : Nat → Nat) (size : Int × Int)
    (menu : List (Option (Int × Int) × Int)) (l : Loop)
    (h : main_start libc args rand size menu = some (.running l)) :
    InRange l ∧ Bounds l.w.cfg := by
  unfold main_start at h
  obtain ⟨ht0, hb0⟩ := boot_world_ok rand
  cases hp : parse_args libc args.length (boot_world rand) args.isEmpty args with
  | none => rw [hp] at h; simp at h
  | some r =>
    rw [hp] at h
    cases r with
    | error code => simp [pure] at h
    | ok res =>
      obtain ⟨w1, um1⟩ := res
      obtain ⟨ht1, hb1⟩ := parse_args_ok libc _ _ w1 _ um1 args ht0 hb0 hp
      exact start_loop_ok w1 um1 size menu l ht1 hb1 h

theorem WFWorld_of_TablesOK (w : World) (ht : TablesOK w) : WFWorld w := by
  obtain ⟨hp, _, ha, har, hT, hg⟩ := ht
  refine ⟨hp, ha, ?_, hg⟩
  intro t htm
  have := har t htm
  rw [hT]
  omega

theorem handle_keys_once_bounds (cfg : Config) (pending : Option Int) (hb : Bounds cfg) :
    Bounds (handle_keys_once cfg pending).2 := by
  obtain ⟨b1, b2, b3, b4, b5⟩ := hb
  unfold handle_keys_once
  cases pending with
  | none => exact ⟨b1, b2, b3, b4, b5⟩
  | some ch =>
    dsimp only
    split_ifs <;> refine ⟨?_, ?_, ?_, ?_, ?_⟩ <;> dsimp only <;> omega

/-- Every reachable state of the frame loop has its tables, its pipes and its
configuration within their ranges. -/
theorem reachable_inv (libc : Libc) (l : Loop) (h : Reachable libc l) :
    InRange l ∧ Bounds l.w.cfg := by
  induction h with
  | start args rand size menu l h => exact main_start_ok libc args rand size menu l h
  | tick l l1 r pending thrown _ h ih =>
    obtain ⟨⟨ht, hS⟩, hb⟩ := ih
    have hb1 := handle_keys_once_bounds l.w.cfg pending hb
    obtain ⟨w1, lr1, S1, htab, hS1, _, htick⟩ :=
      tick_keeps (fun c => 0 ≤ c ∧ c ≤ 7) l r pending (WFWorld_of_TablesOK l.w ht) ht.2.1
        (fun s hs => ⟨⟨(hS s hs).2.2.1, (hS s hs).2.2.2⟩, (hS s hs).1, (hS s hs).2.1⟩)
        (by have := hb1.2.2.1; omega)
    rw [htick] at h
    obtain ⟨_, h2⟩ := Prod.mk.inj (Option.some.inj h)
    subst h2
    have htr : TablesOK (checkResize l.w r).2 := by
      cases r with
      | none => exact ht
      | some p => exact ht
    have ht1 : TablesOK w1 := TablesOK_of_tables htab htr
    refine ⟨⟨ht1, ?_⟩, hb1⟩
    intro s hs
    obtain ⟨⟨h1, h2⟩, h3, h4⟩ := hS1 s hs
    exact ⟨h3, h4, h1, h2⟩
  | step l pre post s s1 w1 _ hS h ih =>
    obtain ⟨⟨ht, hP⟩, hb⟩ := ih
    have hs : s ∈ l.S := by rw [hS]; simp
    obtain ⟨w2, s2, hd, _, htab, hs2, hc2⟩ :=
      draw_step_keeps (fun c => 0 ≤ c ∧ c ≤ 7) l.w s (WFWorld_of_TablesOK l.w ht) ht.2.1
        ⟨(hP s hs).2.2.1, (hP s hs).2.2.2⟩ ⟨(hP s hs).1, (hP s hs).2.1⟩
    rw [hd] at h
    obtain ⟨h1, h2⟩ := Prod.mk.inj (Option.some.inj h)
    subst h1 h2
    refine ⟨⟨TablesOK_of_tables htab ht, ?_⟩, by
      show Bounds w2.cfg
      rw [htab.2.2.1]; exact hb⟩
    intro t ht1
    have ht2 : t ∈ pre ++ s2 :: post := ht1
    rcases List.mem_append.1 ht2 with h3 | h3
    · exact PipeOK_of_tables htab t (hP t (by rw [hS]; exact List.mem_append_left _ h3))
    · rcases List.mem_cons.1 h3 with h4 | h4
      · rw [h4]
        exact ⟨hc2.1, hc2.2, hs2.1, hs2.2⟩
      · exact PipeOK_of_tables htab t
          (hP t (by rw [hS]; exact List.mem_append_right _ (List.mem_cons_of_mem _ h4)))

theorem main_start_menu_ok (libc : Libc) (args : List CStr) (rand : Nat → Nat)
    (size : Int × Int) (menu : List (Option (Int × Int) × Int)) (w : World)
    (h : main_start libc args rand size menu = some (.in_menu w)) :
    TablesOK w ∧ Bounds w.cfg := by
  unfold main_start at h
  obtain ⟨ht0, hb0⟩ := boot_world_ok rand
  cases hp : parse_args libc args.length (boot_world rand) args.isEmpty args with
  | none => rw [hp] at h; simp at h
  | some r =>
    rw [hp] at h
    cases r with
    | error code => simp [pure] at h
    | ok res =>
      obtain ⟨w1, um1⟩ := res
      obtain ⟨ht1, hb1⟩ := parse_args_ok libc _ _ w1 _ um1 args ht0 hb0 hp
      have h2 : start_loop w1 um1 size menu = some (.in_menu w) := h
      unfold start_loop at h2
      cases um1 with
      | false =>
        simp only [Bool.false_eq_true, if_false, bind, Option.bind, pure] at h2
        have hp : ¬ (w1.palette = []) := ht1.1
        have ha : ¬ (w1.activeTypes = []) := ht1.2.2.1
        simp only [enter_loop, hp, ha, if_false, bind, Option.bind, pure] at h2
        split at h2
        · simp at h2
        · split at h2 <;> simp at h2
      | true =>
        simp only [if_true, bind, Option.bind] at h2
        cases hm : run_menu { w1 with W := size.1, H := size.2 } menu with
        | none => rw [hm] at h2; simp at h2
        | some q =>
          obtain ⟨ans, w2⟩ := q
          rw [hm] at h2
          obtain ⟨ht2, hb2⟩ :=
            run_menu_ok menu { w1 with W := size.1, H := size.2 } w2 ans ht1 hb1 hm
          cases ans with
          | none =>
            simp only [pure, Option.some.injEq, Startup.in_menu.injEq] at h2
            rw [← h2]; exact ⟨ht2, hb2⟩
          | some b =>
            cases b with
            | false => simp [pure] at h2
            | true =>
              have hp : ¬ (w2.palette = []) := ht2.1
              have ha : ¬ (w2.activeTypes = []) := ht2.2.2.1
              simp only [enter_loop, hp, ha, if_false, bind, Option.bind, pure] at h2
              split at h2
              · simp at h2
              · split at h2 <;> simp at h2

theorem demo_loop_reachable : Reachable libc_dec demo_loop :=
  Reachable.start
    ["-p".toList, "2".toList, "-c".toList, "-3".toList, "-t".toList, "c0123456789abcdef".toList]
    (stream [3, 0, 1]) (80, 24) [] demo_loop rfl

/-! ### The custom glyph set -/

theorem sixteen_chars (chars : CStr) (h : 16 ≤ chars.length) :
    ∃ c0 c1 c2 c3 c4 c5 c6 c7 c8 c9 c10 c11 c12 c13 c14 c15 tail,
      chars = c0 :: c1 :: c2 :: c3 :: c4 :: c5 :: c6 :: c7 :: c8 :: c9 :: c10 :: c11 :: c12 :: c13 :: c14 :: c15 :: tail := by
  rcases chars with _ | ⟨c0, _ | ⟨c1, _ | ⟨c2, _ | ⟨c3, _ | ⟨c4, _ | ⟨c5, _ | ⟨c6, _ | ⟨c7, _ | ⟨c8, _ | ⟨c9, _ | ⟨c10, _ | ⟨c11, _ | ⟨c12, _ | ⟨c13, _ | ⟨c14, _ | ⟨c15, tail⟩⟩⟩⟩⟩⟩⟩⟩⟩⟩⟩⟩⟩⟩⟩⟩
  all_goals first
    | (simp only [List.length_cons, List.length_nil] at h; omega)
    | exact ⟨c0, c1, c2, c3, c4, c5, c6, c7, c8, c9, c10, c11, c12, c13, c14, c15, tail, rfl⟩

/-- The custom glyph set spelled out: the supplied character in twelve slots and a
blank in slots 3, 8, 9 and 14. -/
theorem custom_type_cons (c0 c1 c2 c3 c4 c5 c6 c7 c8 c9 c10 c11 c12 c13 c14 c15 : Char) (tail : CStr) :
    custom_type (c0 :: c1 :: c2 :: c3 :: c4 :: c5 :: c6 :: c7 :: c8 :: c9 :: c10 :: c11 :: c12 :: c13 :: c14 :: c15 :: tail) =
      ⟨[String.mk [c0], String.mk [c1], " ", String.mk [c3], String.mk [c4], String.mk [c5],
        String.mk [c6], " ", " ", String.mk [c9], String.mk [c10], String.mk [c11],
        String.mk [c12], " ", String.mk [c14], String.mk [c15]]⟩ := rfl



/-- C15. Custom glyph set validation in the argument loop: for an option `-t c<chars>`
the option is rejected, and `main` returns exit status 1 before the terminal is
initialised and before the frame loop, if and only if the characters gathered (the
text after `c` plus the following arguments that do not start with `-`, appended
while fewer than 16 are gathered) number fewer than 16.  Whenever the option is
accepted, the argument loop goes on with a custom set installed as `T[0]` that has
all 16 slots filled with one-character strings, and `activeTypes = {0}`. -/
theorem custom_set_validation (libc : Libc) (w : World) (v : CStr) (rest : List CStr)
    (hv : v.head? = some 'c') :
    (parse_option libc w "-t".toList (v :: rest) = .error 1 ↔
      (gather (v.drop 1) rest).1.length < 16) ∧
    ((gather (v.drop 1) rest).1.length < 16 →
      (∀ (fuel : Nat) (um : Bool),
        parse_args libc (fuel + 1) w um ("-t".toList :: v :: rest) = some (.error 1)) ∧
      (∀ (rand : Nat → Nat) (size : Int × Int) (menu : List (Option (Int × Int) × Int)),
        main_start libc ("-t".toList :: v :: rest) rand size menu = some (.exit 1))) ∧
    (16 ≤ (gather (v.drop 1) rest).1.length →
      parse_option libc w "-t".toList (v :: rest) =
        .ok ({ w with T := w.T.set 0 (custom_type (gather (v.drop 1) rest).1),
                      activeTypes := [0] }, false, (gather (v.drop 1) rest).2) ∧
      (∀ (fuel : Nat) (um : Bool),
        parse_args libc (fuel + 1) w um ("-t".toList :: v :: rest) =
          parse_args libc fuel
            { w with T := w.T.set 0 (custom_type (gather (v.drop 1) rest).1),
                     activeTypes := [0] } false (gather (v.drop 1) rest).2) ∧
      (custom_type (gather (v.drop 1) rest).1).g.length = 16 ∧
      (∀ k : Nat, k < 16 →
        ∃ c : Char, (custom_type (gather (v.drop 1) rest).1).g[k]? = some (String.mk [c]))) := by
  have hpo : ∀ w : World, parse_option libc w "-t".toList (v :: rest) =
      if (gather (v.drop 1) rest).1.length < 16 then .error 1
      else .ok ({ w with T := w.T.set 0 (custom_type (gather (v.drop 1) rest).1),
                         activeTypes := [0] }, false, (gather (v.drop 1) rest).2) := by
    intro w
    unfold parse_option
    rw [if_neg (by decide), if_neg (by decide), if_neg (fun h => absurd h.1 (by decide)),
      if_pos ⟨rfl, List.cons_ne_nil _ _⟩]
    dsimp only [List.headD, List.tail]
    rw [if_pos hv]
  refine ⟨?_, ?_, ?_⟩
  · rw [hpo w]
    constructor
    · intro h
      by_cases c : (gather (v.drop 1) rest).1.length < 16
      · exact c
      · rw [if_neg c] at h; cases h
    · intro c
      rw [if_pos c]
  · intro c
    simp only [if_pos c] at hpo
    constructor
    · intro fuel um
      simp only [parse_args, hpo]
    · intro rand size menu
      simp only [main_start, List.length_cons, parse_args, hpo, bind, Option.bind, pure]
  · intro c
    have c1 : ¬ (gather (v.drop 1) rest).1.length < 16 := by omega
    simp only [if_neg c1] at hpo
    refine ⟨hpo w, ?_, custom_type_length _ c, ?_⟩
    · intro fuel um
      simp only [parse_args, hpo]
    · intro k hk
      obtain ⟨c0, c1, c2, c3, c4, c5, c6, c7, c8, c9, c10, c11, c12, c13, c14, c15, tail, he⟩ :=
        sixteen_chars _ c
      rw [he, custom_type_cons]
      interval_cases k
      all_goals exact ⟨_, rfl⟩

theorem custom_set_validation_witness :
    ("c0123456".toList).head? = some 'c' ∧
    (gather ("c0123456".toList.drop 1) ["789".toList, "-K".toList]).1 = "0123456789".toList ∧
    (gather ("c0123456789abcdefgh".toList.drop 1) ["ij".toList]).1
      = "0123456789abcdefgh".toList ∧
    main_start libc_dec ["-t".toList, "c0123456".toList, "789".toList, "-K".toList]
      (stream []) (80, 24) [] = some (.exit 1) :=
  ⟨by decide, by decide, by decide,
    (((custom_set_validation libc_dec (boot_world (stream [])) "c0123456".toList
      ["789".toList, "-K".toList] (by decide)).2.1 (by decide)).2 (stream []) (80, 24) [])⟩

/-- C16. Unused turn codes: the codes in `1..16` that `idx_from` returns for no
(entry, exit) pair are exactly 3, 8, 9 and 14; these are exactly the four slots of
a custom glyph set that are forced to a blank whatever characters are supplied, its
other twelve slots holding the supplied character of the same position; and each
of the ten built-in glyph sets holds a blank in those four slots. -/
theorem unused_turn_codes :
    (∀ c : Int, (1 ≤ c ∧ c ≤ 16 ∧ ∀ i o : Direction, idx_from i o ≠ c) ↔
      (c = 3 ∨ c = 8 ∨ c = 9 ∨ c = 14)) ∧
    (∀ (c0 c1 c2 c3 c4 c5 c6 c7 c8 c9 c10 c11 c12 c13 c14 c15 : Char) (tail : CStr),
      (custom_type (c0 :: c1 :: c2 :: c3 :: c4 :: c5 :: c6 :: c7 :: c8 :: c9 :: c10 :: c11 ::
          c12 :: c13 :: c14 :: c15 :: tail)).g =
        [String.mk [c0], String.mk [c1], " ", String.mk [c3], String.mk [c4], String.mk [c5],
          String.mk [c6], " ", " ", String.mk [c9], String.mk [c10], String.mk [c11],
          String.mk [c12], " ", String.mk [c14], String.mk [c15]]) ∧
    init_types.length = 10 ∧
    init_types.map (fun pt => [pt.g[2]?, pt.g[7]?, pt.g[8]?, pt.g[13]?])
      = List.replicate 10 [some " ", some " ", some " ", some " "] := by
  refine ⟨?_, ?_, by decide, by decide⟩
  · intro c
    constructor
    · rintro ⟨h1, h2, h⟩
      have a1 : (1 : Int) ≠ c := h .UP .UP
      have a2 : (2 : Int) ≠ c := h .UP .RIGHT
      have a4 : (4 : Int) ≠ c := h .UP .LEFT
      have a5 : (5 : Int) ≠ c := h .RIGHT .UP
      have a6 : (6 : Int) ≠ c := h .RIGHT .RIGHT
      have a7 : (7 : Int) ≠ c := h .RIGHT .DOWN
      have a10 : (10 : Int) ≠ c := h .DOWN .RIGHT
      have a11 : (11 : Int) ≠ c := h .DOWN .DOWN
      have a12 : (12 : Int) ≠ c := h .DOWN .LEFT
      have a13 : (13 : Int) ≠ c := h .LEFT .UP
      have a15 : (15 : Int) ≠ c := h .LEFT .DOWN
      have a16 : (16 : Int) ≠ c := h .LEFT .LEFT
      omega
    · intro h
      refine ⟨by omega, by omega, ?_⟩
      intro i o
      rcases h with h | h | h | h <;> rw [h] <;> cases i <;> cases o <;> decide
  · intro c0 c1 c2 c3 c4 c5 c6 c7 c8 c9 c10 c11 c12 c13 c14 c15 tail
    rfl

/-! ### Reachable states -/

/-- C17. Configuration bounds are an invariant: the defaults are `p = 5`,
`fps = 75`, `straight = 15`, and in every state reached from them through any
command line (the options `-p`, `-f`, `-s` included), any menu keys and any
run-time hotkeys, in the menu as well as in the frame loop,
`5 ≤ straight ≤ 15`, `20 ≤ fps ≤ 100` and `p ≥ 1`; an increase at the upper bound
or a decrease at the lower bound, by a hotkey or by a menu key, leaves the value
unchanged. -/
theorem config_bounds (libc : Libc) (l : Loop) (h : Reachable libc l) :
    (({} : Config).p = 5 ∧ ({} : Config).fps = 75 ∧ ({} : Config).straight = 15) ∧
    Bounds l.w.cfg ∧
    (∀ pending : Option Int, Bounds (handle_keys_once l.w.cfg pending).2) ∧
    (∀ (args : List CStr) (rand : Nat → Nat) (size : Int × Int)
        (menu : List (Option (Int × Int) × Int)) (w : World),
      main_start libc args rand size menu = some (.in_menu w) → Bounds w.cfg) ∧
    (∀ cfg : Config,
      (cfg.straight = 15 → (handle_keys_once cfg (some (key 'P'))).2 = cfg) ∧
      (cfg.straight = 5 → (handle_keys_once cfg (some (key 'O'))).2 = cfg) ∧
      (cfg.fps = 100 → (handle_keys_once cfg (some (key 'F'))).2 = cfg) ∧
      (cfg.fps = 20 → (handle_keys_once cfg (some (key 'D'))).2 = cfg)) ∧
    (∀ w : World,
      (w.cfg.straight = 15 → menu_key w (key 'S') = some w) ∧
      (w.cfg.straight = 5 → menu_key w (key 'X') = some w) ∧
      (w.cfg.fps = 100 → menu_key w (key 'F') = some w) ∧
      (w.cfg.fps = 20 → menu_key w (key 'D') = some w) ∧
      (w.cfg.p = 1 → menu_key w (key 'Z') = some w)) := by
  obtain ⟨_, hb⟩ := reachable_inv libc l h
  refine ⟨⟨rfl, rfl, rfl⟩, hb, fun pending => handle_keys_once_bounds _ pending hb, ?_, ?_, ?_⟩
  · intro args rand size menu w hm
    exact (main_start_menu_ok libc args rand size menu w hm).2
  · intro cfg
    refine ⟨?_, ?_, ?_, ?_⟩ <;> intro he <;> cases cfg <;>
      simp only [handle_keys_once, key] at he ⊢ <;> simp_all
  · intro w
    refine ⟨?_, ?_, ?_, ?_, ?_⟩ <;> intro he <;> obtain ⟨W, H, cfg, T, a, p, d, r, rp, co⟩ := w <;>
      cases cfg <;> simp only [menu_key, key] at he ⊢ <;> simp_all

theorem config_bounds_witness :
    Reachable libc_dec demo_loop ∧ Bounds demo_loop.w.cfg ∧ demo_loop.w.cfg.p = 2 :=
  ⟨demo_loop_reachable, (config_bounds libc_dec demo_loop demo_loop_reachable).2.1, by decide⟩

theorem lookup_glyph_eq_some (w : World) (t idx : Int) (g : String)
    (h : lookup_glyph w t idx = some g) :
    ∃ ty pt, index w.activeTypes t = some ty ∧ index w.T ty = some pt ∧
      index pt.g (idx - 1) = some g := by
  unfold lookup_glyph at h
  cases h1 : index w.activeTypes t with
  | none => rw [h1] at h; simp [bind] at h
  | some ty =>
    cases h2 : index w.T ty with
    | none => rw [h1] at h; simp [bind, h2] at h
    | some pt =>
      rw [h1] at h
      simp only [bind, Option.bind, h2] at h
      exact ⟨ty, pt, rfl, h2, h⟩

/-- C20. Glyph lookup is always in range: in every state reachable from program
start through command-line options (`-t`, `-c` and the others), menu keys, pipe
initialisation and any number of ticks and `draw_step`s, the palette is non-empty
with all entries in `[0,7]`, `activeTypes` is non-empty with all entries in `[0,9]`,
there are ten glyph sets of sixteen slots, each pipe has its colour index in `[0,7]`
and `0 ≤ typeIndex < size(activeTypes)`, and `idx_from(in, out) - 1` is in `[0,15]`;
hence the next step of every pipe returns, and its lookup
`T[activeTypes[typeIndex]].g[idx-1]` indexes inside `activeTypes`, inside the ten
sets and inside the sixteen slots. -/
theorem glyph_lookup_in_range (libc : Libc) (l : Loop) (h : Reachable libc l) :
    (l.w.palette ≠ [] ∧ ∀ c ∈ l.w.palette, 0 ≤ c ∧ c ≤ 7) ∧
    (l.w.activeTypes ≠ [] ∧ ∀ t ∈ l.w.activeTypes, 0 ≤ t ∧ t ≤ 9) ∧
    (l.w.T.length = 10 ∧ ∀ pt ∈ l.w.T, pt.g.length = 16) ∧
    (∀ s ∈ l.S, 0 ≤ s.colorIndex ∧ s.colorIndex ≤ 7 ∧
      0 ≤ s.typeIndex ∧ s.typeIndex < l.w.activeTypes.length) ∧
    (∀ i o : Direction, 0 ≤ idx_from i o - 1 ∧ idx_from i o - 1 ≤ 15) ∧
    (∀ s ∈ l.S, ∃ w1 s1 ty pt g, draw_step l.w s = some (w1, s1) ∧
      0 ≤ s1.typeIndex ∧ s1.typeIndex < l.w.activeTypes.length ∧
      index l.w.activeTypes s1.typeIndex = some ty ∧ 0 ≤ ty ∧ ty < 10 ∧
      index l.w.T ty = some pt ∧ pt.g.length = 16 ∧
      index pt.g (idx_from s.in_ s1.out - 1) = some g ∧
      w1.cout = l.w.cout ++
        [Out.glyph s.x s.y (ansi_color l.w.cfg s1.colorIndex) g (ansi_reset l.w.cfg)]) := by
  obtain ⟨⟨ht, hS⟩, _⟩ := reachable_inv libc l h
  obtain ⟨hp, hpr, ha, har, hT, hg⟩ := ht
  refine ⟨⟨hp, hpr⟩, ⟨ha, har⟩, ⟨hT, hg⟩, hS, ?_, ?_⟩
  · intro i o
    have := idx_from_range i o
    omega
  · intro s hs
    have hw : WFWorld l.w := WFWorld_of_TablesOK l.w ⟨hp, hpr, ha, har, hT, hg⟩
    have hws : WFState l.w s := ⟨(hS s hs).2.2.1, (hS s hs).2.2.2⟩
    obtain ⟨w1, s1, g, hd, hgl, hc, _, _⟩ := draw_step_colour l.w s hw hws
    obtain ⟨w2, s2, hd2, _, hs2, htab, _, _⟩ := draw_step_wf l.w s hw hws
    rw [hd] at hd2
    obtain ⟨_, e2⟩ := Prod.mk.inj (Option.some.inj hd2)
    rw [← e2] at hs2
    have hs1 : WFState l.w s1 := (WFState_of_tables htab s1).1 hs2
    obtain ⟨ty, pt, h1, h2, h3⟩ := lookup_glyph_eq_some _ _ _ _ hgl
    have hty := har ty (index_mem _ _ _ h1)
    exact ⟨w1, s1, ty, pt, g, hd, hs1.1, hs1.2, h1, hty.1, by omega, h2,
      hg pt (index_mem _ _ _ h2), h3, hc⟩

theorem glyph_lookup_in_range_witness :
    Reachable libc_dec demo_loop ∧
    demo_loop.w.palette = [1, 2, 3, 4, 5, 6, 7, 0, 5] ∧ demo_loop.w.activeTypes = [0] ∧
    demo_loop.S.map (fun s => (s.colorIndex, s.typeIndex)) = [(4, 0), (1, 0)] ∧
    (∀ s ∈ demo_loop.S, 0 ≤ s.colorIndex ∧ s.colorIndex ≤ 7 ∧
      0 ≤ s.typeIndex ∧ s.typeIndex < demo_loop.w.activeTypes.length) :=
  ⟨demo_loop_reachable, by decide, by decide, by decide,
    (glyph_lookup_in_range libc_dec demo_loop demo_loop_reachable).2.2.2.1⟩


/-! ### The legacy engine -/

theorem legacy_would_exit_congr {w w1 : Legacy.World} {s s1 : Legacy.State} (d : Direction)
    (hW : w1.W = w.W) (hH : w1.H = w.H) (hx : s1.x = s.x) (hy : s1.y = s.y) :
    Legacy.would_exit w1 s1 d = Legacy.would_exit w s d := by
  simp only [Legacy.would_exit, hW, hH, hx, hy]

theorem legacy_apply_pending (s : Legacy.State) :
    (Legacy.apply_pending s).x = s.x ∧ (Legacy.apply_pending s).y = s.y ∧
    (Legacy.apply_pending s).in_ = s.in_ ∧
    (Legacy.apply_pending s).colorIndex
      = (if 0 ≤ s.pendingColor then s.pendingColor else s.colorIndex) ∧
    (Legacy.apply_pending s).typeIndex
      = (if 0 ≤ s.pendingType then s.pendingType else s.typeIndex) ∧
    (Legacy.apply_pending s).pendingColor
      = (if 0 ≤ s.pendingColor then -1 else s.pendingColor) ∧
    (Legacy.apply_pending s).pendingType
      = (if 0 ≤ s.pendingType then -1 else s.pendingType) := by
  unfold Legacy.apply_pending
  by_cases hc : s.pendingColor ≥ 0 <;> by_cases ht : s.pendingType ≥ 0 <;>
    simp [hc, ht]

theorem legacy_tentative_fst (w : Legacy.World) (s : Legacy.State) :
    (Legacy.tentative w s).1.x = s.x ∧ (Legacy.tentative w s).1.y = s.y ∧
    (Legacy.tentative w s).1.in_ = s.in_ ∧
    (Legacy.tentative w s).1.colorIndex = s.colorIndex ∧
    (Legacy.tentative w s).1.typeIndex = s.typeIndex ∧
    (Legacy.tentative w s).1.pendingColor = s.pendingColor ∧
    (Legacy.tentative w s).1.pendingType = s.pendingType := by
  unfold Legacy.tentative
  dsimp only
  split <;> exact ⟨rfl, rfl, rfl, rfl, rfl, rfl, rfl⟩

theorem legacy_tentative_snd (w : Legacy.World) (s : Legacy.State) :
    ∃ k, (Legacy.tentative w s).2 = { w with randPos := w.randPos + k } := by
  unfold Legacy.tentative
  dsimp only
  split
  · exact ⟨2, rfl⟩
  · exact ⟨1, rfl⟩

theorem legacy_redecide_fst (w : Legacy.World) (s : Legacy.State) :
    (Legacy.redecide w s).1.x = s.x ∧ (Legacy.redecide w s).1.y = s.y ∧
    (Legacy.redecide w s).1.in_ = s.in_ ∧
    (Legacy.redecide w s).1.colorIndex = s.colorIndex ∧
    (Legacy.redecide w s).1.typeIndex = s.typeIndex ∧
    (Legacy.redecide w s).1.pendingColor = s.pendingColor ∧
    (Legacy.redecide w s).1.pendingType = s.pendingType := by
  unfold Legacy.redecide
  dsimp only
  split
  · exact ⟨rfl, rfl, rfl, rfl, rfl, rfl, rfl⟩
  · split
    · exact ⟨rfl, rfl, rfl, rfl, rfl, rfl, rfl⟩
    · split <;> exact ⟨rfl, rfl, rfl, rfl, rfl, rfl, rfl⟩

theorem legacy_redecide_snd (w : Legacy.World) (s : Legacy.State) :
    ∃ k, (Legacy.redecide w s).2 = { w with randPos := w.randPos + k } := by
  unfold Legacy.redecide
  dsimp only
  split
  · exact ⟨1, rfl⟩
  · split
    · exact ⟨0, rfl⟩
    · split
      · exact ⟨0, rfl⟩
      · exact ⟨0, rfl⟩

theorem legacy_schedule_keep (w : Legacy.World) (s : Legacy.State)
    (hk : w.cfg.keepOnEdge = true) : Legacy.schedule w s = some (s, w) := by
  simp [Legacy.schedule, hk]

theorem legacy_schedule_draw (w : Legacy.World) (s : Legacy.State)
    (hk : w.cfg.keepOnEdge = false) (hw : Legacy.WFWorld w) :
    ∃ c, index w.palette (Int.tmod (w.rand w.randPos) w.palette.length) = some c ∧
      Legacy.schedule w s = some
        ({ s with pendingColor := c,
                  pendingType := Int.tmod (w.rand (w.randPos + 1)) w.activeTypes.length },
         { w with randPos := w.randPos + 2 }) := by
  obtain ⟨hp, _, ha, _, _⟩ := hw
  have hp1 : w.palette.length ≠ 0 := by simpa using hp
  obtain ⟨c, hc, _⟩ := index_some w.palette _ (rnd_range (w.rand w.randPos) _ hp1).1
    (rnd_range (w.rand w.randPos) _ hp1).2
  refine ⟨c, hc, ?_⟩
  simp [Legacy.schedule, hk, Legacy.rnd, hp, ha, hc]

/-- What the legacy edge check does to the pipe: position, entry, colour and type
are left alone; the pending fields are set to the scheduled draws exactly when
the tentative exit leaves the grid with keep-on-edge disabled. -/
theorem legacy_edge_block_facts (w : Legacy.World) (s : Legacy.State)
    (hw : Legacy.WFWorld w) :
    ∃ p, Legacy.edge_block w s = some p ∧
      p.1.x = s.x ∧ p.1.y = s.y ∧ p.1.in_ = s.in_ ∧
      p.1.colorIndex = s.colorIndex ∧ p.1.typeIndex = s.typeIndex ∧
      (Legacy.would_exit w s s.out = true → w.cfg.keepOnEdge = false →
        index w.palette (Int.tmod (w.rand w.randPos) w.palette.length)
          = some p.1.pendingColor ∧
        p.1.pendingType = Int.tmod (w.rand (w.randPos + 1)) w.activeTypes.length) ∧
      (Legacy.would_exit w s s.out = false ∨ w.cfg.keepOnEdge = true →
        p.1.pendingColor = s.pendingColor ∧ p.1.pendingType = s.pendingType) ∧
      (∃ k, p.2 = { w with randPos := w.randPos + k }) := by
  cases h : Legacy.would_exit w s s.out
  · refine ⟨(s, w), by simp [Legacy.edge_block, h], rfl, rfl, rfl, rfl, rfl, ?_, ?_, 0, rfl⟩
    · intro h1; cases h1
    · intro _; exact ⟨rfl, rfl⟩
  · cases hk : w.cfg.keepOnEdge
    · obtain ⟨c, hc, hsch⟩ := legacy_schedule_draw w s hk hw
      have he : Legacy.edge_block w s = some (Legacy.redecide { w with randPos := w.randPos + 2 }
          { s with pendingColor := c,
                   pendingType := Int.tmod (w.rand (w.randPos + 1)) w.activeTypes.length }) := by
        simp [Legacy.edge_block, h, hsch]
      obtain ⟨k, hk2⟩ := legacy_redecide_snd { w with randPos := w.randPos + 2 }
        { s with pendingColor := c,
                 pendingType := Int.tmod (w.rand (w.randPos + 1)) w.activeTypes.length }
      obtain ⟨h1, h2, h3, h4, h5, h6, h7⟩ := legacy_redecide_fst
        { w with randPos := w.randPos + 2 }
        { s with pendingColor := c,
                 pendingType := Int.tmod (w.rand (w.randPos + 1)) w.activeTypes.length }
      generalize Legacy.redecide { w with randPos := w.randPos + 2 }
        { s with pendingColor := c,
                 pendingType := Int.tmod (w.rand (w.randPos + 1)) w.activeTypes.length } = R
        at he hk2 h1 h2 h3 h4 h5 h6 h7
      refine ⟨R, he, h1, h2, h3, h4, h5, ?_, ?_, 2 + k, ?_⟩
      · intro _ _
        rw [h6, h7]
        exact ⟨hc, rfl⟩
      · intro h8
        rcases h8 with h8 | h8
        · cases h8
        · cases h8
      · rw [hk2]; simp [Nat.add_assoc]
    · have he : Legacy.edge_block w s = some (Legacy.redecide w s) := by
        simp [Legacy.edge_block, h, legacy_schedule_keep w s hk]
      obtain ⟨k, hk2⟩ := legacy_redecide_snd w s
      obtain ⟨h1, h2, h3, h4, h5, h6, h7⟩ := legacy_redecide_fst w s
      generalize Legacy.redecide w s = R at he hk2 h1 h2 h3 h4 h5 h6 h7
      refine ⟨R, he, h1, h2, h3, h4, h5, ?_, ?_, k, hk2⟩
      · intro _ h9; cases h9
      · intro _; exact ⟨h6, h7⟩

theorem legacy_lookup_glyph_some (w : Legacy.World) (t idx : Int) (hw : Legacy.WFWorld w)
    (ht : 0 ≤ t ∧ t < w.activeTypes.length) (hi : 1 ≤ idx ∧ idx ≤ 16) :
    ∃ g, Legacy.lookup_glyph w t idx = some g := by
  obtain ⟨_, _, _, hT, hg⟩ := hw
  obtain ⟨ty, hty, hmem⟩ := index_some w.activeTypes t ht.1 ht.2
  obtain ⟨pt, hpt, hmem2⟩ := index_some w.T ty (hT ty hmem).1 (hT ty hmem).2
  obtain ⟨g, hgl, _⟩ := index_some pt.g (idx - 1) (by omega) (by rw [hg pt hmem2]; omega)
  exact ⟨g, by simp [Legacy.lookup_glyph, hty, hpt, hgl]⟩

theorem legacy_emit_move_eq (w : Legacy.World) (s : Legacy.State) (g : String)
    (hg : Legacy.lookup_glyph w s.typeIndex (idx_from s.in_ s.out) = some g) :
    Legacy.emit_move w s = some
      ({ w with
          cout := w.cout ++
            [Out.glyph s.x s.y (Legacy.ansi_color w.cfg s.colorIndex) g
              (Legacy.ansi_reset w.cfg)],
          drawn := w.drawn + 1 },
       { s with in_ := s.out, x := (advance s.out s.x s.y).1, y := (advance s.out s.x s.y).2 }) := by
  simp [Legacy.emit_move, hg]

theorem legacy_draw_step_phases (w : Legacy.World) (s : Legacy.State) :
    Legacy.draw_step w s =
      (Legacy.edge_block (Legacy.tentative w (Legacy.apply_pending s)).2
        (Legacy.tentative w (Legacy.apply_pending s)).1).bind
        (fun p => Legacy.emit_move p.2 p.1) := by
  rfl

/-- C19. Pending-change lifecycle in the legacy `draw_step`: at the start of a step
a pending colour or type (a value `≥ 0`) is copied into `colorIndex` / `typeIndex`
and the pending field is reset to `-1`; the glyph of the step is written, at the
pre-step cell, with exactly those start-of-step values; after the step
`colorIndex` / `typeIndex` still equal the values used for the glyph, and
`pendingColor` / `pendingType` are `≥ 0` exactly when the tentative exit of the
step would have left the grid with keep-on-edge disabled, and `-1` otherwise. -/
theorem pending_lifecycle (w : Legacy.World) (s : Legacy.State) (hw : Legacy.WFWorld w)
    (hs : Legacy.WFState w s) :
    ((0 ≤ s.pendingColor → (Legacy.apply_pending s).colorIndex = s.pendingColor) ∧
     (s.pendingColor < 0 → (Legacy.apply_pending s).colorIndex = s.colorIndex) ∧
     (0 ≤ s.pendingType → (Legacy.apply_pending s).typeIndex = s.pendingType) ∧
     (s.pendingType < 0 → (Legacy.apply_pending s).typeIndex = s.typeIndex) ∧
     (Legacy.apply_pending s).pendingColor = -1 ∧
     (Legacy.apply_pending s).pendingType = -1) ∧
    ∃ w1 s1 g, Legacy.draw_step w s = some (w1, s1) ∧
      Legacy.lookup_glyph w (Legacy.apply_pending s).typeIndex (idx_from s.in_ s1.out)
        = some g ∧
      w1.cout = w.cout ++
        [Out.glyph s.x s.y (Legacy.ansi_color w.cfg (Legacy.apply_pending s).colorIndex) g
          (Legacy.ansi_reset w.cfg)] ∧
      s1.colorIndex = (Legacy.apply_pending s).colorIndex ∧
      s1.typeIndex = (Legacy.apply_pending s).typeIndex ∧
      (0 ≤ s1.pendingColor ↔
        (Legacy.would_exit w (Legacy.apply_pending s)
            (Legacy.tentative w (Legacy.apply_pending s)).1.out = true ∧
          w.cfg.keepOnEdge = false)) ∧
      (0 ≤ s1.pendingType ↔
        (Legacy.would_exit w (Legacy.apply_pending s)
            (Legacy.tentative w (Legacy.apply_pending s)).1.out = true ∧
          w.cfg.keepOnEdge = false)) ∧
      (¬ (Legacy.would_exit w (Legacy.apply_pending s)
            (Legacy.tentative w (Legacy.apply_pending s)).1.out = true ∧
          w.cfg.keepOnEdge = false) →
        s1.pendingColor = -1 ∧ s1.pendingType = -1) := by
  obtain ⟨hp, hpr, ha, hT, hg⟩ := hw
  obtain ⟨ht0, ht1, hpc, hpt⟩ := hs
  obtain ⟨ax, ay, ai, ac, at_, apc, apt⟩ := legacy_apply_pending s
  have apc1 : (Legacy.apply_pending s).pendingColor = -1 := by
    rw [apc]; split <;> omega
  have apt1 : (Legacy.apply_pending s).pendingType = -1 := by
    rw [apt]; split <;> omega
  refine ⟨⟨?_, ?_, ?_, ?_, apc1, apt1⟩, ?_⟩
  · intro h; rw [ac, if_pos h]
  · intro h; rw [ac, if_neg (by omega)]
  · intro h; rw [at_, if_pos h]
  · intro h; rw [at_, if_neg (by omega)]
  rw [legacy_draw_step_phases]
  obtain ⟨tx, ty, ti, tc, tt, tpc, tpt⟩ := legacy_tentative_fst w (Legacy.apply_pending s)
  obtain ⟨k0, hk0⟩ := legacy_tentative_snd w (Legacy.apply_pending s)
  have hwe : ∀ d, Legacy.would_exit (Legacy.tentative w (Legacy.apply_pending s)).2
      (Legacy.tentative w (Legacy.apply_pending s)).1 d
      = Legacy.would_exit w (Legacy.apply_pending s) d :=
    fun d => legacy_would_exit_congr d (by rw [hk0]) (by rw [hk0]) tx ty
  have hwe0 := hwe (Legacy.tentative w (Legacy.apply_pending s)).1.out
  generalize Legacy.tentative w (Legacy.apply_pending s) = P
    at tx ty ti tc tt tpc tpt hk0 hwe0 ⊢
  have hwP : Legacy.WFWorld P.2 := by rw [hk0]; exact ⟨hp, hpr, ha, hT, hg⟩
  obtain ⟨p, he, ex, ey, ei, ec, et, hnew, hold, k1, hk1⟩ :=
    legacy_edge_block_facts P.2 P.1 hwP
  have hcfg : P.2.cfg = w.cfg := by rw [hk0]
  have hpal : P.2.palette = w.palette := by rw [hk0]
  have hw1 : p.2 = { w with randPos := w.randPos + (k0 + k1) } := by
    rw [hk1, hk0]; simp [Nat.add_assoc]
  have hin : p.1.in_ = s.in_ := by rw [ei, ti, ai]
  have hty : p.1.typeIndex = (Legacy.apply_pending s).typeIndex := by rw [et, tt]
  have hco : p.1.colorIndex = (Legacy.apply_pending s).colorIndex := by rw [ec, tc]
  obtain ⟨g, hgl⟩ := legacy_lookup_glyph_some w (Legacy.apply_pending s).typeIndex
    (idx_from s.in_ p.1.out) ⟨hp, hpr, ha, hT, hg⟩ ⟨ht0, ht1⟩ (idx_from_range _ _)
  have hgl1 : Legacy.lookup_glyph p.2 p.1.typeIndex (idx_from p.1.in_ p.1.out) = some g := by
    rw [hin, hty, ← hgl, hw1]; rfl
  rw [hwe0, hcfg] at hnew hold
  rw [he]
  simp only [Option.bind]
  rw [legacy_emit_move_eq p.2 p.1 g hgl1]
  refine ⟨_, _, g, rfl, hgl, ?_, hco, hty, ?_, ?_, ?_⟩
  · dsimp only
    rw [hw1, ex, ey, hco, tx, ty, ax, ay]
  · dsimp only
    constructor
    · intro h0
      by_contra hne
      have hcase : Legacy.would_exit w (Legacy.apply_pending s) P.1.out = false ∨
          w.cfg.keepOnEdge = true := by
        cases h1 : Legacy.would_exit w (Legacy.apply_pending s) P.1.out
        · exact Or.inl rfl
        · cases h2 : w.cfg.keepOnEdge
          · exact absurd ⟨h1, h2⟩ hne
          · exact Or.inr rfl
      rw [(hold hcase).1, tpc, apc1] at h0
      omega
    · rintro ⟨h1, h2⟩
      have hm := index_mem _ _ _ (hnew h1 h2).1
      rw [hpal] at hm
      exact hpr _ hm
  · dsimp only
    constructor
    · intro h0
      by_contra hne
      have hcase : Legacy.would_exit w (Legacy.apply_pending s) P.1.out = false ∨
          w.cfg.keepOnEdge = true := by
        cases h1 : Legacy.would_exit w (Legacy.apply_pending s) P.1.out
        · exact Or.inl rfl
        · cases h2 : w.cfg.keepOnEdge
          · exact absurd ⟨h1, h2⟩ hne
          · exact Or.inr rfl
      rw [(hold hcase).2, tpt, apt1] at h0
      omega
    · rintro ⟨h1, h2⟩
      rw [(hnew h1 h2).2]
      have ha1 : P.2.activeTypes.length ≠ 0 := by
        rw [hk0]; simpa using ha
      exact (rnd_range _ _ ha1).1
  · intro hne
    dsimp only
    have hcase : Legacy.would_exit w (Legacy.apply_pending s) P.1.out = false ∨
        w.cfg.keepOnEdge = true := by
      cases h1 : Legacy.would_exit w (Legacy.apply_pending s) P.1.out
      · exact Or.inl rfl
      · cases h2 : w.cfg.keepOnEdge
        · exact absurd ⟨h1, h2⟩ hne
        · exact Or.inr rfl
    rw [(hold hcase).1, (hold hcase).2, tpc, tpt, apc1, apt1]
    exact ⟨rfl, rfl⟩

theorem pending_lifecycle_witness :
    Legacy.WFWorld (Legacy.start_world 3 3 {} [0, 3, 1, 1]) ∧
    Legacy.WFState (Legacy.start_world 3 3 {} [0, 3, 1, 1])
      { x := 2, y := 1, pendingColor := 6 } ∧
    (Legacy.draw_step (Legacy.start_world 3 3 {} [0, 3, 1, 1])
        { x := 2, y := 1, pendingColor := 6 }).map (fun r => (r.2, r.1.cout))
      = some ({ x := 2, y := 0, in_ := Direction.UP, out := Direction.UP, colorIndex := 6,
                typeIndex := 0, pendingColor := 4, pendingType := 0 },
              [Out.glyph 2 1 "\x1b[96m" "┛" "\x1b[0m"]) ∧
    (Legacy.apply_pending { x := 2, y := 1, pendingColor := 6 }).pendingColor = -1 :=
  ⟨by decide, by decide, by decide,
    (pending_lifecycle (Legacy.start_world 3 3 {} [0, 3, 1, 1])
      { x := 2, y := 1, pendingColor := 6 } (by decide) (by decide)).1.2.2.2.2.1⟩


/-! ### The in-bounds invariant -/

/-- The initialisation of a pipe returns and puts it on the grid: at the centre
`(W/2, H/2)`, or with a random start at `(rnd(W), rnd(H))`, the fourth and fifth
draws of the initialisation. -/
theorem init_pipe_in_bounds (w : World) (s : State) (ht : TablesOK w)
    (hW : 1 ≤ w.W) (hH : 1 ≤ w.H) :
    ∃ w1 s1, init_pipe w s = some (w1, s1) ∧ same_tables w w1 ∧ in_bounds w s1.x s1.y ∧
      (w.cfg.randomStart = false → s1.x = Int.tdiv w.W 2 ∧ s1.y = Int.tdiv w.H 2) ∧
      (w.cfg.randomStart = true →
        s1.x = Int.tmod (w.rand (w.randPos + 3)) w.W ∧
        s1.y = Int.tmod (w.rand (w.randPos + 4)) w.H) := by
  obtain ⟨hp, hpr, ha, har, hT, hg⟩ := ht
  have hp1 : (w.palette.length : Int) ≠ 0 := by
    have : w.palette.length ≠ 0 := by simpa using hp
    omega
  have ha1 : w.activeTypes.length ≠ 0 := by simpa using ha
  have ha2 : (w.activeTypes.length : Int) ≠ 0 := by omega
  obtain ⟨c, hc, hmem⟩ := index_some w.palette _
    (rnd_range (w.rand w.randPos) _ (by simpa using hp)).1
    (rnd_range (w.rand w.randPos) _ (by simpa using hp)).2
  have hW0 : ¬ (w.W = 0) := by omega
  have hH0 : ¬ (w.H = 0) := by omega
  have hxm : 0 ≤ Int.tmod (w.rand (w.randPos + 3)) w.W ∧
      Int.tmod (w.rand (w.randPos + 3)) w.W < w.W :=
    ⟨Int.tmod_nonneg _ (Int.ofNat_nonneg _), Int.tmod_lt_of_pos _ (by omega)⟩
  have hym : 0 ≤ Int.tmod (w.rand (w.randPos + 4)) w.H ∧
      Int.tmod (w.rand (w.randPos + 4)) w.H < w.H :=
    ⟨Int.tmod_nonneg _ (Int.ofNat_nonneg _), Int.tmod_lt_of_pos _ (by omega)⟩
  have hxc : 0 ≤ Int.tdiv w.W 2 ∧ Int.tdiv w.W 2 < w.W := by
    rw [Int.tdiv_eq_ediv (by omega) (by omega)]
    omega
  have hyc : 0 ≤ Int.tdiv w.H 2 ∧ Int.tdiv w.H 2 < w.H := by
    rw [Int.tdiv_eq_ediv (by omega) (by omega)]
    omega
  unfold init_pipe
  simp only [rnd, hp1, ha2, if_false, bind, Option.bind, pure, hc, show ((4 : Int) = 0) = False
    from by simp]
  by_cases hr : w.cfg.randomStart = true
  · rw [if_pos hr, if_neg hW0]
    dsimp only
    rw [if_neg hH0]
    refine ⟨_, _, rfl, ⟨rfl, rfl, rfl, rfl, rfl, rfl, rfl⟩, ⟨hxm.1, hxm.2, hym.1, hym.2⟩, ?_, ?_⟩
    · intro h; rw [hr] at h; cases h
    · intro _; exact ⟨rfl, rfl⟩
  · rw [if_neg hr]
    refine ⟨_, _, rfl, ⟨rfl, rfl, rfl, rfl, rfl, rfl, rfl⟩, ⟨hxc.1, hxc.2, hyc.1, hyc.2⟩, ?_, ?_⟩
    · intro _; exact ⟨rfl, rfl⟩
    · intro h; exact absurd h hr

theorem in_bounds_of_tables {w w1 : World} (h : same_tables w w1) (x y : Int) :
    in_bounds w1 x y ↔ in_bounds w x y := by
  unfold in_bounds
  rw [h.1, h.2.1]

theorem init_pipes_in_bounds (S S1 : List State) (w w1 : World) (ht : TablesOK w)
    (hW : 1 ≤ w.W) (hH : 1 ≤ w.H) (h : init_pipes w S = some (w1, S1)) :
    ∀ s ∈ S1, in_bounds w s.x s.y := by
  induction S generalizing w w1 S1 with
  | nil =>
    simp only [init_pipes, Option.some.injEq, Prod.mk.injEq] at h
    obtain ⟨_, rfl⟩ := h
    exact fun _ hm => absurd hm (List.not_mem_nil _)
  | cons s rest ih =>
    unfold init_pipes at h
    obtain ⟨w2, s2, h1, htab2, hb2, _, _⟩ := init_pipe_in_bounds w s ht hW hH
    simp only [h1, bind, Option.bind] at h
    cases h3 : init_pipes w2 rest with
    | none => rw [h3] at h; simp at h
    | some q =>
      obtain ⟨w3, S3⟩ := q
      rw [h3] at h
      simp only [pure, Option.some.injEq, Prod.mk.injEq] at h
      obtain ⟨_, rfl⟩ := h
      have hS3 := ih S3 w2 w3 (TablesOK_of_tables htab2 ht)
        (by rw [htab2.1]; exact hW) (by rw [htab2.2.1]; exact hH) h3
      intro t ht1
      rcases List.mem_cons.1 ht1 with h4 | h4
      · rw [h4]; exact hb2
      · exact (in_bounds_of_tables htab2 t.x t.y).1 (hS3 t h4)

theorem enter_loop_in_bounds (w : World) (l : Loop) (ht : TablesOK w)
    (h : enter_loop w = some (.running l)) (hW : 1 ≤ l.w.W) (hH : 1 ≤ l.w.H) :
    ∀ s ∈ l.S, in_bounds l.w s.x s.y := by
  have hp : ¬ (w.palette = []) := ht.1
  have ha : ¬ (w.activeTypes = []) := ht.2.2.1
  unfold enter_loop at h
  simp only [hp, ha, if_false, bind, Option.bind, pure] at h
  by_cases hpp : w.cfg.p < 0
  · rw [if_pos hpp] at h; cases h
  rw [if_neg hpp] at h
  cases hi : init_pipes { w with cout := w.cout ++ [Out.clear] }
      (List.replicate w.cfg.p.toNat {}) with
  | none => rw [hi] at h; simp at h
  | some q =>
    obtain ⟨w1, S1⟩ := q
    rw [hi] at h
    simp only [Option.some.injEq, Startup.running.injEq] at h
    subst h
    obtain ⟨htab, _, _⟩ := init_pipes_ok _ S1 { w with cout := w.cout ++ [Out.clear] } w1 ht hi
    have hW1 : w1.W = w.W := htab.1
    have hH1 : w1.H = w.H := htab.2.1
    have hb := init_pipes_in_bounds _ S1 { w with cout := w.cout ++ [Out.clear] } w1 ht
      (by show 1 ≤ w.W; rw [← hW1]; exact hW) (by show 1 ≤ w.H; rw [← hH1]; exact hH) hi
    intro s hs
    exact (in_bounds_of_tables htab s.x s.y).2 (hb s hs)

/-- The frame loop is entered from a state of `main` whose tables are in range. -/
theorem main_start_enter (libc : Libc) (args : List CStr) (rand : Nat → Nat) (size : Int × Int)
    (menu : List (Option (Int × Int) × Int)) (l : Loop)
    (h : main_start libc args rand size menu = some (.running l)) :
    ∃ w0, TablesOK w0 ∧ enter_loop w0 = some (.running l) := by
  unfold main_start at h
  obtain ⟨ht0, hb0⟩ := boot_world_ok rand
  cases hp : parse_args libc args.length (boot_world rand) args.isEmpty args with
  | none => rw [hp] at h; simp at h
  | some r =>
    rw [hp] at h
    cases r with
    | error code => simp [pure] at h
    | ok res =>
      obtain ⟨w1, um1⟩ := res
      obtain ⟨ht1, hb1⟩ := parse_args_ok libc _ _ w1 _ um1 args ht0 hb0 hp
      have h2 : start_loop w1 um1 size menu = some (.running l) := h
      unfold start_loop at h2
      cases um1 with
      | false =>
        simp only [Bool.false_eq_true, if_false, bind, Option.bind, pure] at h2
        exact ⟨{ w1 with W := size.1, H := size.2 }, ht1, h2⟩
      | true =>
        simp only [if_true, bind, Option.bind] at h2
        cases hm : run_menu { w1 with W := size.1, H := size.2 } menu with
        | none => rw [hm] at h2; simp at h2
        | some q =>
          obtain ⟨ans, w2⟩ := q
          rw [hm] at h2
          obtain ⟨ht2, _⟩ :=
            run_menu_ok menu { w1 with W := size.1, H := size.2 } w2 ans ht1 hb1 hm
          cases ans with
          | none => simp [pure] at h2
          | some b =>
            cases b with
            | false => simp [pure] at h2
            | true => exact ⟨w2, ht2, h2⟩

theorem pipes_loop_in_bounds (S : List State) (w : World) (lr : Int)
    (hw : WFWorld w) (hW : 2 ≤ w.W) (hH : 2 ≤ w.H)
    (hS : ∀ s ∈ S, WFState w s ∧ in_bounds w s.x s.y) :
    ∃ w1 lr1 S1, pipes_loop w lr S = some (w1, lr1, S1) ∧ same_tables w w1 ∧
      (∀ s ∈ S1, in_bounds w s.x s.y) := by
  induction S generalizing w lr with
  | nil =>
    exact ⟨w, lr, [], rfl, ⟨rfl, rfl, rfl, rfl, rfl, rfl, rfl⟩,
      fun _ h => absurd h (List.not_mem_nil _)⟩
  | cons s rest ih =>
    obtain ⟨hs, hb⟩ := hS s (List.mem_cons_self _ _)
    obtain ⟨w1, s1, hd, hw1, _, htab, _, _⟩ := draw_step_wf w s hw hs
    obtain ⟨w1b, s1b, hdb, hb1⟩ := draw_step_in_bounds w s hw hs hW hH hb
    rw [hd] at hdb
    obtain ⟨_, e2⟩ := Prod.mk.inj (Option.some.inj hdb)
    rw [← e2] at hb1
    have htab2 : same_tables w (limit_check w1 lr).1 := by
      unfold limit_check
      split
      · exact htab
      · exact htab
    have hw2 : WFWorld (limit_check w1 lr).1 := (WFWorld_of_tables htab2).2 hw
    have hrest : ∀ t ∈ rest, WFState (limit_check w1 lr).1 t ∧
        in_bounds (limit_check w1 lr).1 t.x t.y := fun t ht =>
      ⟨(WFState_of_tables htab2 t).2 (hS t (List.mem_cons_of_mem _ ht)).1,
        (in_bounds_of_tables htab2 t.x t.y).2 (hS t (List.mem_cons_of_mem _ ht)).2⟩
    obtain ⟨w3, lr3, S3, hp, htab3, hS3⟩ :=
      ih (limit_check w1 lr).1 (limit_check w1 lr).2 hw2
        (by rw [htab2.1]; exact hW) (by rw [htab2.2.1]; exact hH) hrest
    obtain ⟨ty, hty, hmem⟩ := index_some w.activeTypes s.typeIndex hs.1 hs.2
    obtain ⟨pt, hpt, _⟩ := index_some w.T ty (hw.2.2.1 ty hmem).1 (hw.2.2.1 ty hmem).2
    refine ⟨w3, lr3, s1 :: S3, ?_, same_tables_trans htab2 htab3, ?_⟩
    · simp only [pipes_loop, hty, hpt, hd, hp, bind, Option.bind, pure]
    · intro t ht
      rcases List.mem_cons.1 ht with h | h
      · rw [h]; exact hb1
      · exact (in_bounds_of_tables htab2 t.x t.y).1 (hS3 t h)

/-- A tick without a resize notification keeps the grid and keeps every pipe on it. -/
theorem tick_in_bounds (l l1 : Loop) (pending : Option Int) (thrown : Option String)
    (hw : WFWorld l.w) (hW : 2 ≤ l.w.W) (hH : 2 ≤ l.w.H)
    (hS : ∀ s ∈ l.S, WFState l.w s ∧ in_bounds l.w s.x s.y)
    (h : tick l none pending = some (thrown, l1)) :
    l1.w.W = l.w.W ∧ l1.w.H = l.w.H ∧ ∀ s ∈ l1.S, in_bounds l1.w s.x s.y := by
  obtain ⟨w1, lr1, S1, hp, htab, hS1⟩ := pipes_loop_in_bounds l.S l.w l.last_reset hw hW hH hS
  unfold tick at h
  simp only [checkResize, Bool.false_eq_true, if_false, hp, bind, Option.bind, pure] at h
  cases hk : (handle_keys_once w1.cfg pending).1 with
  | some e =>
    simp only [hk] at h
    obtain ⟨_, h2⟩ := Prod.mk.inj (Option.some.inj h)
    subst h2
    exact ⟨htab.1, htab.2.1, fun s hs => ⟨(hS1 s hs).1, by
      show s.x < w1.W; rw [htab.1]; exact (hS1 s hs).2.1, (hS1 s hs).2.2.1, by
      show s.y < w1.H; rw [htab.2.1]; exact (hS1 s hs).2.2.2⟩⟩
  | none =>
    simp only [hk] at h
    split at h
    · cases h
    · obtain ⟨_, h2⟩ := Prod.mk.inj (Option.some.inj h)
      subst h2
      exact ⟨htab.1, htab.2.1, fun s hs => ⟨(hS1 s hs).1, by
        show s.x < w1.W; rw [htab.1]; exact (hS1 s hs).2.1, (hS1 s hs).2.2.1, by
        show s.y < w1.H; rw [htab.2.1]; exact (hS1 s hs).2.2.2⟩⟩

theorem reachable_of_on (libc : Libc) (W H : Int) (l : Loop) (h : ReachableOn libc W H l) :
    Reachable libc l := by
  induction h with
  | start args rand size menu l h _ _ => exact Reachable.start args rand size menu l h
  | tick l l1 pending thrown _ h ih => exact Reachable.tick l l1 none pending thrown ih h
  | step l pre post s s1 w1 _ hS h ih => exact Reachable.step l pre post s s1 w1 ih hS h

/-- While the terminal keeps a size of at least 2 x 2, the grid of every reachable
state is that size and every pipe is on it. -/
theorem on_grid_inv (libc : Libc) (W H : Int) (l : Loop) (hW : 2 ≤ W) (hH : 2 ≤ H)
    (h : ReachableOn libc W H l) :
    l.w.W = W ∧ l.w.H = H ∧ ∀ s ∈ l.S, in_bounds l.w s.x s.y := by
  induction h with
  | start args rand size menu l h hW1 hH1 =>
    obtain ⟨w0, ht0, he⟩ := main_start_enter libc args rand size menu l h
    exact ⟨hW1, hH1, enter_loop_in_bounds w0 l ht0 he (by omega) (by omega)⟩
  | tick l l1 pending thrown hl h ih =>
    obtain ⟨h1, h2, h3⟩ := ih
    obtain ⟨⟨ht, hP⟩, _⟩ := reachable_inv libc l (reachable_of_on libc W H l hl)
    obtain ⟨g1, g2, g3⟩ := tick_in_bounds l l1 pending thrown (WFWorld_of_TablesOK l.w ht)
      (by omega) (by omega)
      (fun s hs => ⟨⟨(hP s hs).2.2.1, (hP s hs).2.2.2⟩, h3 s hs⟩) h
    exact ⟨by rw [g1, h1], by rw [g2, h2], g3⟩
  | step l pre post s s1 w1 hl hS h ih =>
    obtain ⟨h1, h2, h3⟩ := ih
    obtain ⟨⟨ht, hP⟩, _⟩ := reachable_inv libc l (reachable_of_on libc W H l hl)
    have hs : s ∈ l.S := by rw [hS]; simp
    have hw := WFWorld_of_TablesOK l.w ht
    have hws : WFState l.w s := ⟨(hP s hs).2.2.1, (hP s hs).2.2.2⟩
    obtain ⟨w2, s2, hd, _, _, htab, _, _⟩ := draw_step_wf l.w s hw hws
    obtain ⟨w3, s3, hd3, hb3⟩ := draw_step_in_bounds l.w s hw hws (by omega) (by omega) (h3 s hs)
    rw [hd] at h hd3
    obtain ⟨e1, e2⟩ := Prod.mk.inj (Option.some.inj h)
    obtain ⟨_, e4⟩ := Prod.mk.inj (Option.some.inj hd3)
    subst e1 e2
    rw [← e4] at hb3
    refine ⟨by show w2.W = W; rw [htab.1, h1], by show w2.H = H; rw [htab.2.1, h2], ?_⟩
    intro t ht1
    have ht2 : t ∈ pre ++ s2 :: post := ht1
    have key : in_bounds l.w t.x t.y := by
      rcases List.mem_append.1 ht2 with h5 | h5
      · exact h3 t (by rw [hS]; exact List.mem_append_left _ h5)
      · rcases List.mem_cons.1 h5 with h6 | h6
        · rw [h6]; exact hb3
        · exact h3 t (by rw [hS]; exact List.mem_append_right _ (List.mem_cons_of_mem _ h6))
    exact (in_bounds_of_tables htab t.x t.y).2 key

/-- The tentative exit depends on the entry direction, the turn bias and the two
draws of the first block only. -/
theorem tentative_out_congr (w w' : World) (s s' : State)
    (hst : w'.cfg.straight = w.cfg.straight) (hi : s'.in_ = s.in_)
    (hb : Int.tmod (w'.rand w'.randPos) 20 = Int.tmod (w.rand w.randPos) 20)
    (hside : w.cfg.straight ≤ Int.tmod (w.rand w.randPos) 20 →
      Int.tmod (w'.rand (w'.randPos + 1)) 2 = Int.tmod (w.rand (w.randPos + 1)) 2) :
    (tentative w' s').1.out = (tentative w s).1.out := by
  unfold tentative
  dsimp only
  rw [hb, hst, hi]
  by_cases h : Int.tmod (w.rand w.randPos) 20 ≥ w.cfg.straight
  · rw [if_pos h, if_pos h]
    dsimp only
    rw [hside h]
  · rw [if_neg h, if_neg h]

/-- The exit and the new position of a step are the same with keep-on-edge on and
off when the draws that decide the direction are the same. -/
theorem draw_step_flag (w w' : World) (s s' : State)
    (hw : WFWorld w) (hs : WFState w s) (hw' : WFWorld w') (hs' : WFState w' s')
    (hk : w.cfg.keepOnEdge = true) (hk' : w'.cfg.keepOnEdge = false)
    (hW : w'.W = w.W) (hH : w'.H = w.H) (hst : w'.cfg.straight = w.cfg.straight)
    (hx : s'.x = s.x) (hy : s'.y = s.y) (hi : s'.in_ = s.in_)
    (hb : Int.tmod (w'.rand w'.randPos) 20 = Int.tmod (w.rand w.randPos) 20)
    (hside : w.cfg.straight ≤ Int.tmod (w.rand w.randPos) 20 →
      Int.tmod (w'.rand (w'.randPos + 1)) 2 = Int.tmod (w.rand (w.randPos + 1)) 2)
    (hcoin : would_exit w s (tentative w s).1.out = true →
      Int.tmod (w'.rand ((tentative w' s').2.randPos + 2)) 2
        = Int.tmod (w.rand (tentative w s).2.randPos) 2) :
    ∃ w1 s1 w1' s1', draw_step w s = some (w1, s1) ∧ draw_step w' s' = some (w1', s1') ∧
      s1'.out = s1.out ∧ s1'.in_ = s1.in_ ∧ s1'.x = s1.x ∧ s1'.y = s1.y := by
  obtain ⟨w1, s1, hd, hpos, hin, hout⟩ := draw_step_out w s hw hs
  obtain ⟨w1', s1', hd', hpos', hin', hout'⟩ := draw_step_out w' s' hw' hs'
  obtain ⟨p, g, _, _, hd2, _, _, _⟩ := draw_step_spec w s hw hs
  obtain ⟨p', g', _, _, hd2', _, _, _⟩ := draw_step_spec w' s' hw' hs'
  have ht := tentative_out_congr w w' s s' hst hi hb hside
  have hwe : ∀ d, would_exit w' s' d = would_exit w s d :=
    fun d => would_exit_congr d hW hH hx hy
  have ho : s1'.out = s1.out := by
    cases h : would_exit w s (tentative w s).1.out
    · rw [hin h, hin' (by rw [hwe, ht]; exact h), ht]
    · rw [hout h, hout' (by rw [hwe, ht]; exact h), hwe, hwe, hi, hk, hk']
      simp only [if_true, Bool.false_eq_true, if_false, Nat.add_zero]
      rw [hcoin h]
  have hin1 : s1.in_ = s1.out := by
    rw [hd] at hd2
    obtain ⟨_, e⟩ := Prod.mk.inj (Option.some.inj hd2)
    rw [e]
  have hin1' : s1'.in_ = s1'.out := by
    rw [hd'] at hd2'
    obtain ⟨_, e⟩ := Prod.mk.inj (Option.some.inj hd2')
    rw [e]
  have hxy : (s1'.x, s1'.y) = (s1.x, s1.y) := by
    rw [hpos, hpos', ho, hx, hy]
  refine ⟨w1, s1, w1', s1', hd, hd', ho, by rw [hin1, hin1', ho], ?_, ?_⟩
  · exact congrArg Prod.fst hxy
  · exact congrArg Prod.snd hxy

theorem random_start_on_grid : ReachableOn libc_dec 80 24 random_start_loop :=
  ReachableOn.start ["-R".toList, "-p".toList, "1".toList] (stream [3, 0, 1, 85, 30]) (80, 24) []
    random_start_loop rfl rfl rfl

/-- C21. On a fixed grid with `W ≥ 2` and `H ≥ 2`, in-bounds position is an
invariant of the reachable states that does not depend on the edge flag: in every
state reached while the terminal keeps that size (loop entry, ticks without a
resize, single steps) the grid is `W × H` and every pipe is inside
`[0,W) × [0,H)`; the initialisation of a pipe returns with the position at the
centre `(W/2, H/2)`, or at the random `(rnd(W), rnd(H))`, inside the grid; for
every in-bounds pipe, every outcome of the random draws and either value of
`keepOnEdge`, `draw_step` returns with the new position inside the grid again; and
the exit direction, the entry direction and the position after the step are the
same for `keepOnEdge = true` and `keepOnEdge = false` when the draws that decide
the direction are the same (the bias draw, the side draw when the pipe turns, and
the coin of the edge check, which with the flag off comes after the two
recolouring draws). -/
theorem in_bounds_invariant (libc : Libc) (W H : Int) (l : Loop) (hW : 2 ≤ W) (hH : 2 ≤ H)
    (h : ReachableOn libc W H l) :
    (l.w.W = W ∧ l.w.H = H ∧ ∀ s ∈ l.S, in_bounds l.w s.x s.y) ∧
    (∀ (w : World) (s : State), TablesOK w → w.W = W → w.H = H →
      ∃ w1 s1, init_pipe w s = some (w1, s1) ∧ w1.W = W ∧ w1.H = H ∧
        in_bounds w s1.x s1.y ∧
        (w.cfg.randomStart = false → s1.x = Int.tdiv W 2 ∧ s1.y = Int.tdiv H 2) ∧
        (w.cfg.randomStart = true →
          s1.x = Int.tmod (w.rand (w.randPos + 3)) W ∧
          s1.y = Int.tmod (w.rand (w.randPos + 4)) H)) ∧
    (∀ (w : World) (s : State), WFWorld w → WFState w s → w.W = W → w.H = H →
      in_bounds w s.x s.y →
      ∃ w1 s1, draw_step w s = some (w1, s1) ∧ w1.W = W ∧ w1.H = H ∧
        in_bounds w1 s1.x s1.y) ∧
    (∀ (w w' : World) (s s' : State), WFWorld w → WFState w s → WFWorld w' → WFState w' s' →
      w.cfg.keepOnEdge = true → w'.cfg.keepOnEdge = false →
      w'.W = w.W → w'.H = w.H → w'.cfg.straight = w.cfg.straight →
      s'.x = s.x → s'.y = s.y → s'.in_ = s.in_ →
      Int.tmod (w'.rand w'.randPos) 20 = Int.tmod (w.rand w.randPos) 20 →
      (w.cfg.straight ≤ Int.tmod (w.rand w.randPos) 20 →
        Int.tmod (w'.rand (w'.randPos + 1)) 2 = Int.tmod (w.rand (w.randPos + 1)) 2) →
      (would_exit w s (tentative w s).1.out = true →
        Int.tmod (w'.rand ((tentative w' s').2.randPos + 2)) 2
          = Int.tmod (w.rand (tentative w s).2.randPos) 2) →
      ∃ w1 s1 w1' s1', draw_step w s = some (w1, s1) ∧ draw_step w' s' = some (w1', s1') ∧
        s1'.out = s1.out ∧ s1'.in_ = s1.in_ ∧ s1'.x = s1.x ∧ s1'.y = s1.y) := by
  refine ⟨on_grid_inv libc W H l hW hH h, ?_, ?_, ?_⟩
  · intro w s ht eW eH
    obtain ⟨w1, s1, hi, htab, hb, hc, hr⟩ :=
      init_pipe_in_bounds w s ht (by omega) (by omega)
    rw [eW, eH] at hc hr
    exact ⟨w1, s1, hi, by rw [htab.1, eW], by rw [htab.2.1, eH], hb, hc, hr⟩
  · intro w s hw hs eW eH hb
    obtain ⟨w1, s1, hd, _, _, htab, _, _⟩ := draw_step_wf w s hw hs
    obtain ⟨w2, s2, hd2, hb2⟩ := draw_step_in_bounds w s hw hs (by omega) (by omega) hb
    rw [hd] at hd2
    obtain ⟨_, e2⟩ := Prod.mk.inj (Option.some.inj hd2)
    rw [← e2] at hb2
    exact ⟨w1, s1, hd, by rw [htab.1, eW], by rw [htab.2.1, eH],
      (in_bounds_of_tables htab s1.x s1.y).2 hb2⟩
  · intro w w' s s' hw hs hw' hs' hk hk' eW eH hst hx hy hi hb hside hcoin
    exact draw_step_flag w w' s s' hw hs hw' hs' hk hk' eW eH hst hx hy hi hb hside hcoin

theorem in_bounds_invariant_witness :
    (2 : Int) ≤ 80 ∧ (2 : Int) ≤ 24 ∧ ReachableOn libc_dec 80 24 random_start_loop ∧
    random_start_loop.w.cfg.randomStart = true ∧
    random_start_loop.S.map (fun s => (s.x, s.y)) = [(5, 6)] ∧
    (random_start_loop.w.W = 80 ∧ random_start_loop.w.H = 24 ∧
      ∀ s ∈ random_start_loop.S, in_bounds random_start_loop.w s.x s.y) ∧
    (draw_step (start_world 3 3 { keepOnEdge := true } [0, 1]) { x := 2, y := 1 }).map
        (fun r => (r.2.out, r.2.x, r.2.y, r.1.randPos)) = some (Direction.UP, 2, 0, 2) ∧
    (draw_step (start_world 3 3 {} [0, 3, 1, 1]) { x := 2, y := 1 }).map
        (fun r => (r.2.out, r.2.x, r.2.y, r.1.randPos)) = some (Direction.UP, 2, 0, 4) ∧
    (∃ w1 s1 w1' s1',
      draw_step (start_world 3 3 { keepOnEdge := true } [0, 1]) { x := 2, y := 1 }
        = some (w1, s1) ∧
      draw_step (start_world 3 3 {} [0, 3, 1, 1]) { x := 2, y := 1 } = some (w1', s1') ∧
      s1'.out = s1.out ∧ s1'.in_ = s1.in_ ∧ s1'.x = s1.x ∧ s1'.y = s1.y) :=
  ⟨by decide, by decide, random_start_on_grid, by decide, by decide,
    (in_bounds_invariant libc_dec 80 24 random_start_loop (by decide) (by decide)
      random_start_on_grid).1,
    by decide, by decide,
    (in_bounds_invariant libc_dec 80 24 random_start_loop (by decide) (by decide)
      random_start_on_grid).2.2.2
      (start_world 3 3 { keepOnEdge := true } [0, 1]) (start_world 3 3 {} [0, 3, 1, 1])
      { x := 2, y := 1 } { x := 2, y := 1 }
      (by decide) (by decide) (by decide) (by decide) (by decide) (by decide) (by decide)
      (by decide) (by decide) (by decide) (by decide) (by decide) (by decide) (by decide)
      (by decide)⟩


/-! ### The two engines side by side -/

theorem sim_would_exit (w : World) (s : State) (lw : Legacy.World) (ls : Legacy.State)
    (d : Direction) (hW : lw.W = w.W) (hH : lw.H = w.H) (hx : ls.x = s.x) (hy : ls.y = s.y) :
    Legacy.would_exit lw ls d = would_exit w s d := by
  simp only [Legacy.would_exit, would_exit, hW, hH, hx, hy]

theorem sim_tentative (w : World) (s : State) (lw : Legacy.World) (ls : Legacy.State)
    (hr : lw.rand = w.rand) (hp : lw.randPos = w.randPos)
    (hst : lw.cfg.straight = w.cfg.straight) (hi : ls.in_ = s.in_) :
    (Legacy.tentative lw ls).1.out = (tentative w s).1.out ∧
    (Legacy.tentative lw ls).2.randPos = (tentative w s).2.randPos := by
  unfold Legacy.tentative tentative
  dsimp only
  rw [hr, hp, hst, hi]
  split <;> exact ⟨rfl, rfl⟩

theorem sim_redecide (w : World) (s : State) (lw : Legacy.World) (ls : Legacy.State)
    (hW : lw.W = w.W) (hH : lw.H = w.H) (hx : ls.x = s.x) (hy : ls.y = s.y)
    (hi : ls.in_ = s.in_) (hr : lw.rand = w.rand) (hp : lw.randPos = w.randPos) :
    (Legacy.redecide lw ls).1.out = (redecide w s).1.out ∧
    (Legacy.redecide lw ls).2.randPos = (redecide w s).2.randPos := by
  have hL := sim_would_exit w s lw ls (turn_left s.in_) hW hH hx hy
  have hR := sim_would_exit w s lw ls (turn_right s.in_) hW hH hx hy
  unfold Legacy.redecide redecide
  dsimp only
  rw [hi, hL, hR, hr, hp]
  split
  · exact ⟨rfl, rfl⟩
  · split
    · exact ⟨rfl, hp⟩
    · split <;> exact ⟨rfl, hp⟩

theorem sim_lookup_glyph (w : World) (lw : Legacy.World) (t idx : Int)
    (hT : lw.T = w.T) (ha : lw.activeTypes = w.activeTypes) :
    Legacy.lookup_glyph lw t idx = lookup_glyph w t idx := by
  unfold Legacy.lookup_glyph lookup_glyph
  rw [hT, ha]

theorem sim_ansi (cfg : Config) (lcfg : Legacy.Config) (c : Int)
    (hn : lcfg.noColor = cfg.noColor) (hv : lcfg.vivid = cfg.vivid) :
    Legacy.ansi_color lcfg c = ansi_color cfg c ∧ Legacy.ansi_reset lcfg = ansi_reset cfg := by
  unfold Legacy.ansi_color ansi_color Legacy.ansi_reset ansi_reset
  rw [hn, hv]
  exact ⟨rfl, rfl⟩

theorem legacy_schedule_some (w : Legacy.World) (s : Legacy.State)
    (hk : w.cfg.keepOnEdge = false) (hp : w.palette ≠ []) (ha : w.activeTypes ≠ []) :
    ∃ c, index w.palette (Int.tmod (w.rand w.randPos) w.palette.length) = some c ∧
      Legacy.schedule w s = some
        ({ s with pendingColor := c,
                  pendingType := Int.tmod (w.rand (w.randPos + 1)) w.activeTypes.length },
         { w with randPos := w.randPos + 2 }) := by
  have hp1 : w.palette.length ≠ 0 := by simpa using hp
  obtain ⟨c, hc, _⟩ := index_some w.palette _ (rnd_range (w.rand w.randPos) _ hp1).1
    (rnd_range (w.rand w.randPos) _ hp1).2
  refine ⟨c, hc, ?_⟩
  simp [Legacy.schedule, hk, Legacy.rnd, hp, ha, hc]

/-- The edge check of the two engines, side by side: the same exit, the same number
of draws; where the current engine sets the colour and the type, the legacy
engine sets the pending fields to the same values. -/
theorem sim_edge_block (w0 : World) (s0 : State) (lw0 : Legacy.World) (ls0 : Legacy.State)
    (hw0 : WFWorld w0) (hW : lw0.W = w0.W) (hH : lw0.H = w0.H)
    (hx : ls0.x = s0.x) (hy : ls0.y = s0.y) (hi : ls0.in_ = s0.in_) (ho : ls0.out = s0.out)
    (hr : lw0.rand = w0.rand) (hp : lw0.randPos = w0.randPos)
    (hk : lw0.cfg.keepOnEdge = w0.cfg.keepOnEdge) (hpal : lw0.palette = w0.palette)
    (hact : lw0.activeTypes = w0.activeTypes) :
    ∃ p lp, edge_block w0 s0 = some p ∧ Legacy.edge_block lw0 ls0 = some lp ∧
      lp.1.out = p.1.out ∧ lp.2.randPos = p.2.randPos ∧
      (∃ k, lp.2 = { lw0 with randPos := lw0.randPos + k }) ∧
      lp.1.x = ls0.x ∧ lp.1.y = ls0.y ∧ lp.1.in_ = ls0.in_ ∧
      lp.1.colorIndex = ls0.colorIndex ∧ lp.1.typeIndex = ls0.typeIndex ∧
      (would_exit w0 s0 s0.out = false ∨ w0.cfg.keepOnEdge = true →
        p.1.colorIndex = s0.colorIndex ∧ p.1.typeIndex = s0.typeIndex ∧
        lp.1.pendingColor = ls0.pendingColor ∧ lp.1.pendingType = ls0.pendingType) ∧
      (would_exit w0 s0 s0.out = true → w0.cfg.keepOnEdge = false →
        lp.1.pendingColor = p.1.colorIndex ∧ lp.1.pendingType = p.1.typeIndex ∧
        p.1.colorIndex ∈ w0.palette ∧ 0 ≤ p.1.typeIndex) := by
  have hhit : Legacy.would_exit lw0 ls0 ls0.out = would_exit w0 s0 s0.out := by
    rw [ho]; exact sim_would_exit w0 s0 lw0 ls0 _ hW hH hx hy
  cases h : would_exit w0 s0 s0.out
  · rw [h] at hhit
    refine ⟨(s0, w0), (ls0, lw0), edge_block_inside w0 s0 h, by simp [Legacy.edge_block, hhit],
      ho, hp, ⟨0, rfl⟩, rfl, rfl, rfl, rfl, rfl, ?_, ?_⟩
    · intro _; exact ⟨rfl, rfl, rfl, rfl⟩
    · intro h1; cases h1
  · rw [h] at hhit
    cases hk0 : w0.cfg.keepOnEdge
    · have hkl : lw0.cfg.keepOnEdge = false := by rw [hk, hk0]
      obtain ⟨c, hc, he⟩ := edge_block_draw w0 s0 h hk0 hw0
      have hpl : lw0.palette ≠ [] := by rw [hpal]; exact hw0.1
      have hal : lw0.activeTypes ≠ [] := by rw [hact]; exact hw0.2.1
      obtain ⟨c', hc', hsch⟩ := legacy_schedule_some lw0 ls0 hkl hpl hal
      rw [hpal, hr, hp, hc] at hc'
      have hcc : c' = c := (Option.some.inj hc').symm
      rw [hcc] at hsch
      have hle : Legacy.edge_block lw0 ls0 = some
          (Legacy.redecide { lw0 with randPos := lw0.randPos + 2 }
            { ls0 with pendingColor := c,
                       pendingType :=
                         Int.tmod (lw0.rand (lw0.randPos + 1)) lw0.activeTypes.length }) := by
        simp [Legacy.edge_block, hhit, hsch]
      have hsim := sim_redecide { w0 with randPos := w0.randPos + 2 }
        { s0 with colorIndex := c,
                  typeIndex := Int.tmod (w0.rand (w0.randPos + 1)) w0.activeTypes.length }
        { lw0 with randPos := lw0.randPos + 2 }
        { ls0 with pendingColor := c,
                   pendingType := Int.tmod (lw0.rand (lw0.randPos + 1)) lw0.activeTypes.length }
        hW hH hx hy hi hr (by show lw0.randPos + 2 = w0.randPos + 2; rw [hp])
      obtain ⟨k, hk2⟩ := legacy_redecide_snd { lw0 with randPos := lw0.randPos + 2 }
        { ls0 with pendingColor := c,
                   pendingType := Int.tmod (lw0.rand (lw0.randPos + 1)) lw0.activeTypes.length }
      obtain ⟨l1, l2, l3, l4, l5, l6, l7⟩ := legacy_redecide_fst
        { lw0 with randPos := lw0.randPos + 2 }
        { ls0 with pendingColor := c,
                   pendingType := Int.tmod (lw0.rand (lw0.randPos + 1)) lw0.activeTypes.length }
      obtain ⟨⟨_, _, _, c4, c5⟩, _⟩ := redecide_fst { w0 with randPos := w0.randPos + 2 }
        { s0 with colorIndex := c,
                  typeIndex := Int.tmod (w0.rand (w0.randPos + 1)) w0.activeTypes.length }
      generalize Legacy.redecide { lw0 with randPos := lw0.randPos + 2 }
        { ls0 with pendingColor := c,
                   pendingType := Int.tmod (lw0.rand (lw0.randPos + 1)) lw0.activeTypes.length }
        = LR at hle hsim hk2 l1 l2 l3 l4 l5 l6 l7
      generalize redecide { w0 with randPos := w0.randPos + 2 }
        { s0 with colorIndex := c,
                  typeIndex := Int.tmod (w0.rand (w0.randPos + 1)) w0.activeTypes.length }
        = R at he hsim c4 c5
      have ha1 : w0.activeTypes.length ≠ 0 := by simpa using hw0.2.1
      refine ⟨R, LR, he, hle, hsim.1, hsim.2, ⟨2 + k, ?_⟩, l1, l2, l3, l4, l5, ?_, ?_⟩
      · rw [hk2]; simp [Nat.add_assoc]
      · intro h1
        rcases h1 with h1 | h1
        · cases h1
        · cases h1
      · intro _ _
        refine ⟨by rw [l6, c4], by rw [l7, c5, hr, hp, hact], ?_, ?_⟩
        · rw [c4]; exact index_mem _ _ _ hc
        · rw [c5]; exact (rnd_range _ _ ha1).1
    · have hkl : lw0.cfg.keepOnEdge = true := by rw [hk, hk0]
      have he := edge_block_keep w0 s0 h hk0
      have hle : Legacy.edge_block lw0 ls0 = some (Legacy.redecide lw0 ls0) := by
        simp [Legacy.edge_block, hhit, legacy_schedule_keep lw0 ls0 hkl]
      have hsim := sim_redecide w0 s0 lw0 ls0 hW hH hx hy hi hr hp
      obtain ⟨k, hk2⟩ := legacy_redecide_snd lw0 ls0
      obtain ⟨l1, l2, l3, l4, l5, l6, l7⟩ := legacy_redecide_fst lw0 ls0
      obtain ⟨⟨_, _, _, c4, c5⟩, _⟩ := redecide_fst w0 s0
      generalize Legacy.redecide lw0 ls0 = LR at hle hsim hk2 l1 l2 l3 l4 l5 l6 l7
      generalize redecide w0 s0 = R at he hsim c4 c5
      refine ⟨R, LR, he, hle, hsim.1, hsim.2, ⟨k, hk2⟩, l1, l2, l3, l4, l5, ?_, ?_⟩
      · intro _; exact ⟨c4, c5, l6, l7⟩
      · intro _ h2; cases h2

theorem legacy_apply_pending_neg (s : Legacy.State) :
    (Legacy.apply_pending s).pendingColor < 0 ∧ (Legacy.apply_pending s).pendingType < 0 := by
  obtain ⟨_, _, _, _, _, apc, apt⟩ := legacy_apply_pending s
  rw [apc, apt]
  constructor <;> split <;> omega

/-- One step of the two engines from states that are in step: both return, and
the results are given field by field. -/
theorem sim_step (w : World) (s : State) (lw : Legacy.World) (ls : Legacy.State)
    (hw : WFWorld w) (hs : WFState w s)
    (hlt : 0 ≤ (Legacy.apply_pending ls).typeIndex ∧
      (Legacy.apply_pending ls).typeIndex < lw.activeTypes.length)
    (hal : Aligned w s lw ls) :
    ∃ w1 s1 lw1 ls1 g lg,
      draw_step w s = some (w1, s1) ∧ Legacy.draw_step lw ls = some (lw1, ls1) ∧
      same_tables w w1 ∧ WFState w s1 ∧
      (lw1.W = lw.W ∧ lw1.H = lw.H ∧ lw1.cfg = lw.cfg ∧ lw1.T = lw.T ∧
        lw1.activeTypes = lw.activeTypes ∧ lw1.palette = lw.palette ∧ lw1.rand = lw.rand) ∧
      lw1.randPos = w1.randPos ∧
      ls1.out = s1.out ∧ ls1.in_ = s1.in_ ∧ ls1.x = s1.x ∧ ls1.y = s1.y ∧
      s1.in_ = s1.out ∧
      lookup_glyph w s1.typeIndex (idx_from s.in_ s1.out) = some g ∧
      w1.cout = w.cout ++
        [Out.glyph s.x s.y (ansi_color w.cfg s1.colorIndex) g (ansi_reset w.cfg)] ∧
      Legacy.lookup_glyph lw ls1.typeIndex (idx_from ls.in_ ls1.out) = some lg ∧
      lw1.cout = lw.cout ++
        [Out.glyph ls.x ls.y (Legacy.ansi_color lw.cfg ls1.colorIndex) lg
          (Legacy.ansi_reset lw.cfg)] ∧
      ls1.colorIndex = (Legacy.apply_pending ls).colorIndex ∧
      ls1.typeIndex = (Legacy.apply_pending ls).typeIndex ∧
      (would_exit w s (tentative w s).1.out = false ∨ w.cfg.keepOnEdge = true →
        s1.colorIndex = s.colorIndex ∧ s1.typeIndex = s.typeIndex ∧
        ls1.pendingColor < 0 ∧ ls1.pendingType < 0) ∧
      (would_exit w s (tentative w s).1.out = true → w.cfg.keepOnEdge = false →
        ls1.pendingColor = s1.colorIndex ∧ ls1.pendingType = s1.typeIndex ∧
        s1.colorIndex ∈ w.palette ∧ 0 ≤ s1.typeIndex) := by
  obtain ⟨hW, hH, hst, hk, hn, hv, hT, hact, hpal, hr, hp, hx, hy, hi⟩ := hal
  obtain ⟨ax, ay, ai, _, _, _, _⟩ := legacy_apply_pending ls
  obtain ⟨apc, apt⟩ := legacy_apply_pending_neg ls
  obtain ⟨p, g, he, hg, hd, _, hs1, _⟩ := draw_step_spec w s hw hs
  obtain ⟨sto, stp⟩ := sim_tentative w s lw (Legacy.apply_pending ls) hr hp hst (ai.trans hi)
  obtain ⟨tx, ty, ti, tc, tt, tpc, tpt⟩ := legacy_tentative_fst lw (Legacy.apply_pending ls)
  obtain ⟨lk0, hlk0⟩ := legacy_tentative_snd lw (Legacy.apply_pending ls)
  obtain ⟨⟨cx, cy, ci, cc, ct⟩, _⟩ := tentative_fst w s
  obtain ⟨k0, hk0⟩ := tentative_snd w s
  have hwe := tentative_would_exit w s (tentative w s).1.out
  rw [legacy_draw_step_phases]
  generalize Legacy.tentative lw (Legacy.apply_pending ls) = LP
    at sto stp tx ty ti tc tt tpc tpt hlk0 ⊢
  generalize tentative w s = P at he sto stp cx cy ci cc ct hk0 hwe ⊢
  have hw0 : WFWorld P.2 := by rw [hk0]; exact hw
  obtain ⟨p', lp, he', hle, eo, erp, ⟨lk1, hlk1⟩, ex, ey, ei, ec, et, hold, hnew⟩ :=
    sim_edge_block P.2 P.1 LP.2 LP.1 hw0
      (by rw [hlk0, hk0]; exact hW) (by rw [hlk0, hk0]; exact hH)
      (by rw [tx, ax, cx]; exact hx) (by rw [ty, ay, cy]; exact hy)
      (by rw [ti, ai, ci]; exact hi) sto
      (by rw [hlk0, hk0]; exact hr) stp
      (by rw [hlk0, hk0]; exact hk) (by rw [hlk0, hk0]; exact hpal)
      (by rw [hlk0, hk0]; exact hact)
  rw [he] at he'
  have hpp : p' = p := (Option.some.inj he').symm
  rw [hpp] at eo erp hold hnew
  have hcfg0 : P.2.cfg = w.cfg := by rw [hk0]
  have hpal0 : P.2.palette = w.palette := by rw [hk0]
  rw [hwe, hcfg0] at hold hnew
  rw [hpal0] at hnew
  have hlw1 : lp.2 = { lw with randPos := lw.randPos + (lk0 + lk1) } := by
    rw [hlk1, hlk0]; simp [Nat.add_assoc]
  have hlin : lp.1.in_ = ls.in_ := by rw [ei, ti, ai]
  have hlty : lp.1.typeIndex = (Legacy.apply_pending ls).typeIndex := by rw [et, tt]
  have hlco : lp.1.colorIndex = (Legacy.apply_pending ls).colorIndex := by rw [ec, tc]
  have hlx : lp.1.x = ls.x := by rw [ex, tx, ax]
  have hly : lp.1.y = ls.y := by rw [ey, ty, ay]
  obtain ⟨lg, hlg⟩ := lookup_glyph_some w (Legacy.apply_pending ls).typeIndex
    (idx_from ls.in_ lp.1.out) hw (by rw [← hact]; exact hlt) (idx_from_range _ _)
  rw [← sim_lookup_glyph w lw _ _ hT hact] at hlg
  have hlg1 : Legacy.lookup_glyph lp.2 lp.1.typeIndex (idx_from lp.1.in_ lp.1.out) = some lg := by
    rw [hlin, hlty, ← hlg, hlw1]; rfl
  rw [hle]
  simp only [Option.bind]
  rw [legacy_emit_move_eq lp.2 lp.1 lg hlg1]
  refine ⟨_, _, _, _, g, lg, hd, rfl, ⟨rfl, rfl, rfl, rfl, rfl, rfl, rfl⟩, hs1, ?_, ?_,
    eo, eo, ?_, ?_, rfl, hg, rfl, ?_, ?_, hlco, hlty, ?_, ?_⟩
  · rw [hlw1]; exact ⟨rfl, rfl, rfl, rfl, rfl, rfl, rfl⟩
  · exact erp
  · show (advance lp.1.out lp.1.x lp.1.y).1 = (advance p.1.out s.x s.y).1
    rw [eo, hlx, hly, hx, hy]
  · show (advance lp.1.out lp.1.x lp.1.y).2 = (advance p.1.out s.x s.y).2
    rw [eo, hlx, hly, hx, hy]
  · show Legacy.lookup_glyph lw lp.1.typeIndex (idx_from ls.in_ lp.1.out) = some lg
    rw [hlty]; exact hlg
  · show lp.2.cout ++ [Out.glyph lp.1.x lp.1.y (Legacy.ansi_color lp.2.cfg lp.1.colorIndex) lg
        (Legacy.ansi_reset lp.2.cfg)] = _
    rw [hlw1, hlx, hly]
  · intro h
    obtain ⟨h1, h2, h3, h4⟩ := hold h
    refine ⟨by rw [h1, cc], by rw [h2, ct], ?_, ?_⟩
    · show lp.1.pendingColor < 0
      rw [h3, tpc]; exact apc
    · show lp.1.pendingType < 0
      rw [h4, tpt]; exact apt
  · intro h h'
    exact hnew h h'

theorem edge_cases (b k : Bool) : (b = false ∨ k = true) ∨ (b = true ∧ k = false) := by
  cases b <;> cases k <;> simp

/-- A step keeps the two engines in step and shows the same movement in both; it
also keeps the colour and type in effect the same, when the palette holds no
negative colour. -/
theorem sim_step_inv (w : World) (s : State) (lw : Legacy.World) (ls : Legacy.State)
    (hw : WFWorld w) (hs : WFState w s)
    (hlt : 0 ≤ (Legacy.apply_pending ls).typeIndex ∧
      (Legacy.apply_pending ls).typeIndex < lw.activeTypes.length)
    (hal : Aligned w s lw ls) :
    ∃ w1 s1 lw1 ls1,
      draw_step w s = some (w1, s1) ∧ Legacy.draw_step lw ls = some (lw1, ls1) ∧
      WFWorld w1 ∧ WFState w1 s1 ∧
      (0 ≤ (Legacy.apply_pending ls1).typeIndex ∧
        (Legacy.apply_pending ls1).typeIndex < lw1.activeTypes.length) ∧
      Aligned w1 s1 lw1 ls1 ∧ w1.palette = w.palette ∧
      Legacy.step_move ls lw1 ls1 = step_move s w1 s1 ∧
      ((∀ c ∈ w.palette, 0 ≤ c) → SameLook s ls → SameLook s1 ls1) := by
  obtain ⟨w1, s1, lw1, ls1, g, lg, hd, hld, htab, hs1, hltab, hrp, ho, hi1, hx1, hy1, _, _,
    hcout, _, hlcout, hlc, hlty, hold, hnew⟩ := sim_step w s lw ls hw hs hlt hal
  obtain ⟨hW, hH, hst, hk, hn, hv, hT, hact, hpal, hr, hp, hx, hy, hi⟩ := hal
  obtain ⟨tW, tH, tcfg, tT, tact, tpal, trand⟩ := htab
  obtain ⟨lW, lH, lcfg, lT, lact, lpal, lrand⟩ := hltab
  obtain ⟨_, _, _, apc, apt, _, _⟩ := legacy_apply_pending ls1
  have hw1 : WFWorld w1 := (WFWorld_of_tables ⟨tW, tH, tcfg, tT, tact, tpal, trand⟩).2 hw
  have hs1' : WFState w1 s1 :=
    (WFState_of_tables ⟨tW, tH, tcfg, tT, tact, tpal, trand⟩ s1).2 hs1
  refine ⟨w1, s1, lw1, ls1, hd, hld, hw1, hs1', ?_, ?_, tpal, ?_, ?_⟩
  · rw [apt, lact]
    rcases edge_cases (would_exit w s (tentative w s).1.out) w.cfg.keepOnEdge with h | h
    · obtain ⟨_, _, _, h4⟩ := hold h
      rw [if_neg (by omega), hlty]
      exact hlt
    · obtain ⟨_, h2, _, h4⟩ := hnew h.1 h.2
      rw [h2, if_pos h4, hact]
      exact hs1
  · refine ⟨by rw [lW, tW, hW], by rw [lH, tH, hH], by rw [lcfg, tcfg, hst],
      by rw [lcfg, tcfg, hk], by rw [lcfg, tcfg, hn], by rw [lcfg, tcfg, hv],
      by rw [lT, tT, hT], by rw [lact, tact, hact], by rw [lpal, tpal, hpal],
      by rw [lrand, trand, hr], hrp, hx1, hy1, hi1⟩
  · unfold Legacy.step_move step_move
    rw [hcout, hlcout, ho, hi, hx1, hy1, hrp, hx, hy]
    simp [Out.cell]
  · intro hpos hlook
    unfold SameLook
    rw [apc, apt]
    rcases edge_cases (would_exit w s (tentative w s).1.out) w.cfg.keepOnEdge with h | h
    · obtain ⟨h1, h2, h3, h4⟩ := hold h
      rw [if_neg (by omega), if_neg (by omega), hlc, hlty, h1, h2]
      exact hlook
    · obtain ⟨h1, h2, h3, h4⟩ := hnew h.1 h.2
      have h5 := hpos _ h3
      rw [h1, h2, if_pos h5, if_pos h4]
      exact ⟨rfl, rfl⟩

/-- The glyphs the two engines write in a step from states that are in step with
the same colour and type in effect: the cell and the turn code are the same; the
current engine uses the colour and type the step ends with, the legacy engine the
ones the step starts with; these are the same unless the tentative exit leaves the
grid with keep-on-edge off, and then the legacy engine holds the new ones as its
pending change. -/
theorem sim_next (w : World) (s : State) (lw : Legacy.World) (ls : Legacy.State)
    (hw : WFWorld w) (hs : WFState w s) (hal : Aligned w s lw ls) (hlook : SameLook s ls) :
    ∃ w1 s1 lw1 ls1 g lg,
      draw_step w s = some (w1, s1) ∧ Legacy.draw_step lw ls = some (lw1, ls1) ∧
      lookup_glyph w s1.typeIndex (idx_from s.in_ s1.out) = some g ∧
      w1.cout = w.cout ++
        [Out.glyph s.x s.y (ansi_color w.cfg s1.colorIndex) g (ansi_reset w.cfg)] ∧
      Legacy.lookup_glyph lw s.typeIndex (idx_from s.in_ s1.out) = some lg ∧
      lw1.cout = lw.cout ++
        [Out.glyph s.x s.y (Legacy.ansi_color lw.cfg s.colorIndex) lg
          (Legacy.ansi_reset lw.cfg)] ∧
      ls1.colorIndex = s.colorIndex ∧ ls1.typeIndex = s.typeIndex ∧
      (would_exit w s (tentative w s).1.out = false ∨ w.cfg.keepOnEdge = true →
        s1.colorIndex = s.colorIndex ∧ s1.typeIndex = s.typeIndex ∧
        lw1.cout.getLast? = w1.cout.getLast?) ∧
      (would_exit w s (tentative w s).1.out = true → w.cfg.keepOnEdge = false →
        ls1.pendingColor = s1.colorIndex ∧ ls1.pendingType = s1.typeIndex) := by
  have hlt : 0 ≤ (Legacy.apply_pending ls).typeIndex ∧
      (Legacy.apply_pending ls).typeIndex < lw.activeTypes.length := by
    rw [hlook.2, hal.2.2.2.2.2.2.2.1]
    exact hs
  obtain ⟨w1, s1, lw1, ls1, g, lg, hd, hld, _, _, _, _, ho, _, _, _, _, hg,
    hcout, hlg, hlcout, hlc, hlty, hold, hnew⟩ := sim_step w s lw ls hw hs hlt hal
  obtain ⟨hW, hH, hst, hk, hn, hv, hT, hact, hpal, hr, hp, hx, hy, hi⟩ := hal
  obtain ⟨hl1, hl2⟩ := hlook
  rw [hl1] at hlc
  rw [hl2] at hlty
  rw [hlc, hx, hy] at hlcout
  rw [hlty, ho, hi] at hlg
  refine ⟨w1, s1, lw1, ls1, g, lg, hd, hld, hg, hcout, hlg, hlcout, hlc, hlty, ?_, ?_⟩
  · intro h
    obtain ⟨h1, h2, _, _⟩ := hold h
    refine ⟨h1, h2, ?_⟩
    rw [hlcout, hcout, h1]
    rw [h2] at hg
    rw [sim_lookup_glyph w lw _ _ hT hact, hg] at hlg
    rw [(sim_ansi w.cfg lw.cfg s.colorIndex hn hv).1, (sim_ansi w.cfg lw.cfg s.colorIndex hn hv).2,
      Option.some.inj hlg]
    simp
  · intro h h'
    exact ⟨(hnew h h').1, (hnew h h').2.1⟩

/-- C22. The current `draw_step` (`main.cpp`) and the legacy `draw_step`
(`pipes_gnu.cpp`) are movement-equivalent.  Started from the same position and
entry direction on the same grid, with the same configuration and tables, and fed
the same sequence of random draws from the same place, both return for any number
`n` of steps and show the same sequence of movements: exit direction, turn code,
emission cell, new position and number of draws consumed after each step; after
the `n` steps they are in step again.  If moreover the palette holds no negative
colour and the colour and type in effect are the same at the start, they are the
same after the `n` steps, and in the step that follows both engines write at the
same cell a glyph of the same turn code, the current engine with the colour and
type the step ends with, the legacy engine with those the step starts with; these
are the same, and so is the output event, unless the tentative exit of that step
leaves the grid with keep-on-edge off, in which case the legacy engine holds the
current engine's new colour and type as its pending change. -/
theorem movement_equivalence (w : World) (s : State) (lw : Legacy.World) (ls : Legacy.State)
    (hw : WFWorld w) (hs : WFState w s)
    (hlt : 0 ≤ (Legacy.apply_pending ls).typeIndex ∧
      (Legacy.apply_pending ls).typeIndex < lw.activeTypes.length)
    (hal : Aligned w s lw ls) (n : Nat) :
    ∃ ms wn sn lwn lsn,
      moves w s n = some (ms, wn, sn) ∧ Legacy.moves lw ls n = some (ms, lwn, lsn) ∧
      ms.length = n ∧ Aligned wn sn lwn lsn ∧
      ((∀ c ∈ w.palette, 0 ≤ c) → SameLook s ls →
        SameLook sn lsn ∧
        ∃ w1 s1 lw1 ls1 g lg,
          draw_step wn sn = some (w1, s1) ∧ Legacy.draw_step lwn lsn = some (lw1, ls1) ∧
          lookup_glyph wn s1.typeIndex (idx_from sn.in_ s1.out) = some g ∧
          w1.cout = wn.cout ++
            [Out.glyph sn.x sn.y (ansi_color wn.cfg s1.colorIndex) g (ansi_reset wn.cfg)] ∧
          Legacy.lookup_glyph lwn sn.typeIndex (idx_from sn.in_ s1.out) = some lg ∧
          lw1.cout = lwn.cout ++
            [Out.glyph sn.x sn.y (Legacy.ansi_color lwn.cfg sn.colorIndex) lg
              (Legacy.ansi_reset lwn.cfg)] ∧
          ls1.colorIndex = sn.colorIndex ∧ ls1.typeIndex = sn.typeIndex ∧
          (would_exit wn sn (tentative wn sn).1.out = false ∨ wn.cfg.keepOnEdge = true →
            s1.colorIndex = sn.colorIndex ∧ s1.typeIndex = sn.typeIndex ∧
            lw1.cout.getLast? = w1.cout.getLast?) ∧
          (would_exit wn sn (tentative wn sn).1.out = true → wn.cfg.keepOnEdge = false →
            ls1.pendingColor = s1.colorIndex ∧ ls1.pendingType = s1.typeIndex)) := by
  induction n generalizing w s lw ls with
  | zero =>
    refine ⟨[], w, s, lw, ls, rfl, rfl, rfl, hal, ?_⟩
    intro _ hlook
    exact ⟨hlook, sim_next w s lw ls hw hs hal hlook⟩
  | succ n ih =>
    obtain ⟨w1, s1, lw1, ls1, hd, hld, hw1, hs1, hlt1, hal1, hpal1, hmv, hlk⟩ :=
      sim_step_inv w s lw ls hw hs hlt hal
    obtain ⟨ms, wn, sn, lwn, lsn, hm, hlm, hlen, haln, hcol⟩ :=
      ih w1 s1 lw1 ls1 hw1 hs1 hlt1 hal1
    refine ⟨step_move s w1 s1 :: ms, wn, sn, lwn, lsn, ?_, ?_, by simp [hlen], haln, ?_⟩
    · simp only [moves, hd, hm, bind, Option.bind, pure]
    · simp only [Legacy.moves, hld, hlm, hmv, bind, Option.bind, pure]
    · intro hpos hlook
      exact hcol (by rw [hpal1]; exact hpos) (hlk hpos hlook)

theorem movement_equivalence_witness :
    WFWorld (start_world 3 3 {} [0, 3, 1, 1, 0, 0, 5, 0]) ∧
    WFState (start_world 3 3 {} [0, 3, 1, 1, 0, 0, 5, 0]) { x := 2, y := 1 } ∧
    SameLook { x := 2, y := 1 } { x := 2, y := 1 } ∧
    (moves (start_world 3 3 {} [0, 3, 1, 1, 0, 0, 5, 0]) { x := 2, y := 1 } 2).map
        (fun r => (r.1, r.2.1.cout))
      = some ([{ out := Direction.UP, code := 5, cell := some (2, 1), pos := (2, 0), draws := 4 },
               { out := Direction.LEFT, code := 4, cell := some (2, 0), pos := (1, 0),
                 draws := 7 }],
              [Out.glyph 2 1 "\x1b[94m" "┛" "\x1b[0m", Out.glyph 2 0 "\x1b[91m" "┓" "\x1b[0m"]) ∧
    (Legacy.moves (Legacy.start_world 3 3 {} [0, 3, 1, 1, 0, 0, 5, 0]) { x := 2, y := 1 } 2).map
        (fun r => (r.1, r.2.1.cout))
      = some ([{ out := Direction.UP, code := 5, cell := some (2, 1), pos := (2, 0), draws := 4 },
               { out := Direction.LEFT, code := 4, cell := some (2, 0), pos := (1, 0),
                 draws := 7 }],
              [Out.glyph 2 1 "\x1b[91m" "┛" "\x1b[0m", Out.glyph 2 0 "\x1b[94m" "┓" "\x1b[0m"]) ∧
    (∃ ms wn sn lwn lsn,
      moves (start_world 3 3 {} [0, 3, 1, 1, 0, 0, 5, 0]) { x := 2, y := 1 } 2
        = some (ms, wn, sn) ∧
      Legacy.moves (Legacy.start_world 3 3 {} [0, 3, 1, 1, 0, 0, 5, 0]) { x := 2, y := 1 } 2
        = some (ms, lwn, lsn) ∧
      ms.length = 2 ∧ Aligned wn sn lwn lsn ∧ SameLook sn lsn) :=
  ⟨by decide, by decide, by decide, by decide, by decide,
    (movement_equivalence (start_world 3 3 {} [0, 3, 1, 1, 0, 0, 5, 0]) { x := 2, y := 1 }
      (Legacy.start_world 3 3 {} [0, 3, 1, 1, 0, 0, 5, 0]) { x := 2, y := 1 }
      (by decide) (by decide) (by decide)
      ⟨rfl, rfl, rfl, rfl, rfl, rfl, rfl, rfl, rfl, rfl, rfl, rfl, rfl, rfl⟩ 2).imp
      (fun _ h => h.imp (fun _ h => h.imp (fun _ h => h.imp (fun _ h => h.imp
        (fun _ h => ⟨h.1, h.2.1, h.2.2.1, h.2.2.2.1,
          (h.2.2.2.2 (by decide) (by decide)).1⟩)))))⟩

end Pipes
